import Mathlib

/-!
# Lowering kernels of CaffeConTroll (`src/kernels/lowering.hxx`)

A shallow embedding of the index arithmetic of the forward lowering kernel
`_fmap_lower`, the inverse lowering kernel `_f_inverse_lower_cube` and their
helpers, followed by theorems about them.

Conventions of the embedding.

* C++ `int` values are Lean `Int`, `size_t` values are Lean `Nat`; `/` and `%`
  on `int` are the truncating `Int.tdiv` and `Int.tmod`.  All statements are
  about runs in which no intermediate value leaves the range of its machine
  type (signed overflow is undefined behaviour in C++).
* `device_min` takes and returns `float`; `_fmap_lower` passes it `int` values, adds 1
  to the `float` result and converts the sum back to `int` (lines 216 and 223).
  `float` is IEEE 754 binary32 with the default rounding (to nearest, ties to even).
  Every `float` value that arises there is a whole number; `WholeFloat` holds such a
  value by that whole number, and `float_round` gives the nearest `float` to a whole
  number.  Up to `2^24` in magnitude the conversions are exact; beyond, they round,
  and the loop ends `r_end` and `c_end` differ from `min(..) + 1`.
* `float` cells are exact rationals; a buffer reached through a pointer is a
  total function from the index to the cell.
* A `for` loop is embedded as the ordered list of the values its induction
  variables take when the body runs (guard and increment as in the source, with
  fuel), folded with the body.
-/

namespace CaffeConTroll

/-! ## Data model -/

/-- Modelled from the spec: the declaration of `Block2D` is in `lowering.h`, which is
not among the sources; the fields are the ones `_fpmap_id` and the kernels access
(`r`, `c`, `d`, `b`, `dr`, `dc`). -/
structure Block2D where
  r : Nat
  c : Nat
  d : Nat
  b : Nat
  dr : Nat
  dc : Nat
  deriving DecidableEq, Repr

/-- Modelled from the spec: the declaration of `PointIn2DBlock` is in `lowering.h`, which
is not among the sources; the fields are the ones the kernels read (`r`, `c`,
`block.d`, `block.b`, `data`). -/
structure PointIn2DBlock where
  r : Nat
  c : Nat
  block : Block2D
  data : ℚ
  deriving DecidableEq

/-- Modelled from the spec: the declaration of `PMapHelper` is in `lowering.h`, which is
not among the sources; the fields are the ones the kernels read: kernel rows and
columns, source R/C/D/B, padding and stride. -/
structure PMapHelper where
  kR : Nat
  kC : Nat
  sR : Nat
  sC : Nat
  sD : Nat
  sB : Nat
  padding : Nat
  stride : Nat
  deriving DecidableEq, Repr

/-- Modelled from the spec: the declaration of `_inverse_lower_cube_arg_helper` is in
`lowering.h`, which is not among the sources; the fields are the ones
`_f_inverse_lower_cube` reads. -/
structure _inverse_lower_cube_arg_helper where
  data_output_width : Nat
  data_output_height : Nat
  kernel_size : Nat
  stride : Nat
  padding : Nat
  iR : Nat
  iC : Nat
  iD : Nat
  iB : Nat
  deriving DecidableEq, Repr

/-- A buffer of cells behind a pointer, addressed by a (signed) index. -/
abbrev Buffer := Int → ℚ

/-- The assignment `buf[k] = v`. -/
def store (buf : Buffer) (k : Int) (v : ℚ) : Buffer :=
  fun n => if n = k then v else buf n

/-- A point of block `(d, b)` at `(r, c)` carrying `v`. -/
def mkPoint (r c d b : Nat) (v : ℚ) : PointIn2DBlock :=
  { r := r, c := c, block := { r := 0, c := 0, d := d, b := b, dr := 0, dc := 0 }, data := v }

/-! ## Helpers of the forward kernel -/

/-- The unit in the last place of the `float` values of the magnitude of `m`: binary32
carries 24 significant bits, so the unit is 1 below `2^24` and doubles with each further
binary digit of `m`.  The fuel 104 used by `float_round_nat` covers every finite `float`. -/
def float_ulp : Nat → Nat → Nat
  | 0, _ => 1
  | fuel + 1, m => if m < 16777216 then 1 else 2 * float_ulp fuel (m / 2)

/-- The magnitude of the `float` nearest to the whole number `m`: `m` rounded to a multiple
of its unit in the last place, a tie going to the multiple with the even significand. -/
def float_round_nat (m : Nat) : Nat :=
  let u := float_ulp 104 m
  let q := m / u
  let rest := m % u
  if 2 * rest < u then q * u
  else if u < 2 * rest then (q + 1) * u
  else if q % 2 = 0 then q * u else (q + 1) * u

/-- The `float` nearest to the whole number `n` (ties to even), as a whole number. -/
def float_round (n : Int) : Int :=
  if n < 0 then -((float_round_nat n.natAbs : Nat) : Int)
  else ((float_round_nat n.natAbs : Nat) : Int)

/-- A value of type `float` that is a whole number, held by that number.  The values the
kernel forms come from `int_to_float` and `float_add`, which round to a `float`. -/
structure WholeFloat where
  val : Int
  deriving DecidableEq, Repr

/-- The implicit conversion of an `int` to `float`. -/
def int_to_float (n : Int) : WholeFloat := ⟨float_round n⟩

/-- The `float` sum of two whole `float` values: the exact sum, rounded. -/
def float_add (x y : WholeFloat) : WholeFloat := ⟨float_round (x.val + y.val)⟩

/-- The implicit conversion of a whole `float` value to `int` (the value lies in the range
of `int`). -/
def float_to_int (x : WholeFloat) : Int := x.val

/-- The helper `float device_min(const float a, const float b)`, lines 10-12:
`(a>b)?b:a`. -/
def device_min (a b : WholeFloat) : WholeFloat := if a.val > b.val then b else a

/-- The helper `next_multiple`, lines 150-154. -/
def next_multiple (x s : Int) : Int :=
  let m := Int.tmod x s
  x + (if x > 0 ∧ m > 0 then s - m else -m)

/-- The helper `next_largest_multiple`, lines 160-166. -/
def next_largest_multiple (x p stride : Int) : Int :=
  if x ≥ p then x
  else
    let q := Int.tdiv (p - x) stride
    let y := x + q * stride
    if y < p then y + stride else y

/-- The iterations of `for (int r = r0, i = i0; r < r_end; r += stride, ++i)`:
the pairs `(r, i)` at which the body runs, in order. -/
def forIters : Nat → Int → Int → Int → Int → List (Int × Int)
  | 0, _, _, _, _ => []
  | fuel + 1, r, i, r_end, stride =>
    if r < r_end then (r, i) :: forIters fuel (r + stride) (i + 1) r_end stride else []

/-! ## The forward kernel `_fmap_lower`, lines 172-249 -/

/-- The local `output_R`, line 192. -/
def output_R (a : PMapHelper) : Int :=
  Int.tdiv ((a.sR : Int) - a.kR + 2 * a.padding) a.stride + 1

/-- The local `output_C`, line 193. -/
def output_C (a : PMapHelper) : Int :=
  Int.tdiv ((a.sC : Int) - a.kC + 2 * a.padding) a.stride + 1

/-- The local `oC`, line 198: the number of columns of the lowered matrix. -/
def lowered_oC (a : PMapHelper) : Int := (a.sB : Int) * output_R a * output_C a

/-- The local `r_begin`, lines 214-215. -/
def r_begin (a : PMapHelper) (ir : Int) : Int :=
  next_largest_multiple (next_multiple (ir - a.kR + 1 + a.padding) a.stride - a.padding)
    (-(a.padding : Int)) a.stride

/-- The local `r_end`, line 216: `device_min(ir, iR - kR + padding) + 1`.  Both `int`
arguments are converted to `float`, the 1 is added in `float`, and the sum is converted
to `int`. -/
def r_end (a : PMapHelper) (ir : Int) : Int :=
  float_to_int (float_add
    (device_min (int_to_float ir) (int_to_float ((a.sR : Int) - a.kR + a.padding)))
    (int_to_float 1))

/-- The local `i_start`, line 217. -/
def i_start (a : PMapHelper) (ir : Int) : Int :=
  Int.tdiv (r_begin a ir + a.padding) a.stride

/-- The local `c_begin`, lines 221-222. -/
def c_begin (a : PMapHelper) (ic : Int) : Int :=
  next_largest_multiple (next_multiple (ic - a.kC + 1 + a.padding) a.stride - a.padding)
    (-(a.padding : Int)) a.stride

/-- The local `c_end`, line 223: `device_min(ic, iC - kC + padding) + 1`, computed in
`float` like `r_end`. -/
def c_end (a : PMapHelper) (ic : Int) : Int :=
  float_to_int (float_add
    (device_min (int_to_float ic) (int_to_float ((a.sC : Int) - a.kC + a.padding)))
    (int_to_float 1))

/-- The local `j_start`, line 224. -/
def j_start (a : PMapHelper) (ic : Int) : Int :=
  Int.tdiv (c_begin a ic + a.padding) a.stride

/-- The iterations `(r, i)` of the row loop of line 232. -/
def rowIters (a : PMapHelper) (ir : Int) : List (Int × Int) :=
  forIters (r_end a ir - r_begin a ir).toNat (r_begin a ir) (i_start a ir) (r_end a ir) a.stride

/-- The iterations `(c, j)` of the column loop of line 237. -/
def colIters (a : PMapHelper) (ic : Int) : List (Int × Int) :=
  forIters (c_end a ic - c_begin a ic).toNat (c_begin a ic) (j_start a ic) (c_end a ic) a.stride

/-- The pair `(o_col, o_row)` computed by the loop body (lines 233-243) at row
iteration `(r, i)` and column iteration `(c, j)`. -/
def lowerTarget (a : PMapHelper) (p : PointIn2DBlock) (ri cj : Int × Int) : Int × Int :=
  let ir : Int := p.r
  let ic : Int := p.c
  let ib : Int := p.block.b
  let id : Int := p.block.d
  let o_base_col := ib * output_R a * output_C a
  let o_base_row := id * a.kR * a.kC
  let dr := ir - ri.1
  let drKc := dr * a.kC
  let ioC := ri.2 * output_C a
  let dc := ic - cj.1
  let o_col_offset := ioC + cj.2
  let o_row_offset := drKc + dc
  (o_col_offset + o_base_col, o_row_offset + o_base_row)

/-- The pairs `(o_col, o_row)` of the stores of one call of `_fmap_lower`, in the
order the loop nest of lines 232-247 performs them. -/
def _fmap_lower_targets (a : PMapHelper) (p : PointIn2DBlock) : List (Int × Int) :=
  (rowIters a p.r).flatMap fun ri => (colIters a p.c).map fun cj => lowerTarget a p ri cj

/-- The linear indices `o_col + o_row*oC` stored to by one call (line 245). -/
def _fmap_lower_indices (a : PMapHelper) (p : PointIn2DBlock) : List Int :=
  (_fmap_lower_targets a p).map fun t => t.1 + t.2 * lowered_oC a

/-- The kernel `_fmap_lower`: every store `output[o_col + o_row*oC] = input` of the loop nest,
applied in order to the output buffer. -/
def _fmap_lower (output : Buffer) (p : PointIn2DBlock) (a : PMapHelper) : Buffer :=
  (_fmap_lower_indices a p).foldl (fun out k => store out k p.data) output

/-- The kernel `_fmap_lower` run for each point of a sequence of input points, in that
order. -/
def lower_points (a : PMapHelper) (pts : List PointIn2DBlock) (output : Buffer) : Buffer :=
  pts.foldl (fun out p => _fmap_lower out p a) output

/-- A 4D tensor, addressed by row, column, depth and batch. -/
abbrev Tensor := Nat → Nat → Nat → Nat → ℚ

/-- The input points of a tensor of the dimensions of `a`, batch-major, then depth,
row and column. -/
def tensor_points (a : PMapHelper) (x : Tensor) : List PointIn2DBlock :=
  (List.range a.sB).flatMap fun b => (List.range a.sD).flatMap fun d =>
    (List.range a.sR).flatMap fun r => (List.range a.sC).map fun c => mkPoint r c d b (x r c d b)

/-- The point lies inside the tensor dimensions of `a`. -/
def InRange (a : PMapHelper) (p : PointIn2DBlock) : Prop :=
  p.r < a.sR ∧ p.c < a.sC ∧ p.block.d < a.sD ∧ p.block.b < a.sB

instance (a : PMapHelper) (p : PointIn2DBlock) : Decidable (InRange a p) := by
  unfold InRange; infer_instance

/-- The sequence `pts` presents the tensor `x`: each of its points is in range and
carries the tensor value of its position, and every position of the tensor occurs. -/
def Presents (a : PMapHelper) (x : Tensor) (pts : List PointIn2DBlock) : Prop :=
  (∀ p ∈ pts, InRange a p ∧ p.data = x p.r p.c p.block.d p.block.b) ∧
  (∀ r c d b, r < a.sR → c < a.sC → d < a.sD → b < a.sB →
    ∃ p ∈ pts, p.r = r ∧ p.c = c ∧ p.block.d = d ∧ p.block.b = b)

/-! ## The inverse kernel `_f_inverse_lower_cube`, lines 26-82 -/

/-- The iterations of `for (size_t cr = cr0; cr < bound; cr += stride)`: the values
of `cr` at which the body runs, in order. -/
def natIters : Nat → Nat → Nat → Nat → List Nat
  | 0, _, _, _ => []
  | fuel + 1, cr, bound, stride =>
    if cr < bound then cr :: natIters fuel (cr + stride) bound stride else []

/-- A snapshot of the loop variables and of `out_index`, taken each time the body of
the innermost loop (lines 65-73) is entered.  The snapshots are observations only:
no value the kernel computes depends on them. -/
structure InvVisit where
  kr : Nat
  kc : Nat
  ib : Nat
  cr : Nat
  cc : Nat
  out_index : Nat
  deriving DecidableEq, Repr

/-- The state of `_f_inverse_lower_cube`: the buffer behind `input`, the counter
`out_index`, and the snapshots recorded so far. -/
structure InvState where
  input_data : Buffer
  out_index : Nat
  visits : List InvVisit

/-- The body of the innermost loop, lines 65-73, at column start `cc`. -/
def inverse_cell (arg : _inverse_lower_cube_arg_helper) (output_data : Nat → ℚ)
    (kr kc ib cr : Nat) (row_offset batch_offset : Int) (st : InvState) (cc : Nat) : InvState :=
  let input_col_index : Int := (cc : Int) + kc - arg.padding
  let k : Int := input_col_index + row_offset + batch_offset
  { input_data :=
      if 0 ≤ input_col_index ∧ input_col_index < arg.iC then
        store st.input_data k (st.input_data k + output_data st.out_index)
      else st.input_data
    out_index := st.out_index + 1
    visits := st.visits ++ [{ kr := kr, kc := kc, ib := ib, cr := cr, cc := cc,
                              out_index := st.out_index }] }

/-- The body of the loop over window rows, lines 59-77, at row start `cr`. -/
def inverse_row (arg : _inverse_lower_cube_arg_helper) (output_data : Nat → ℚ)
    (kr kc ib : Nat) (batch_offset : Int) (st : InvState) (cr : Nat) : InvState :=
  let input_row_index : Int := (cr : Int) + kr - arg.padding
  if 0 ≤ input_row_index ∧ input_row_index < arg.iR then
    let row_offset : Int := input_row_index * arg.iC
    (natIters (arg.stride * arg.data_output_height) 0 (arg.stride * arg.data_output_height)
        arg.stride).foldl
      (inverse_cell arg output_data kr kc ib cr row_offset batch_offset) st
  else
    { st with out_index := st.out_index + arg.data_output_height }

/-- The body of the loop over the batch, lines 53-78, at batch `ib`. -/
def inverse_batch (arg : _inverse_lower_cube_arg_helper) (output_data : Nat → ℚ)
    (kr kc : Nat) (st : InvState) (ib : Nat) : InvState :=
  let batch_offset : Int := (ib : Int) * arg.iR * arg.iC * arg.iD
  (natIters (arg.stride * arg.data_output_width) 0 (arg.stride * arg.data_output_width)
      arg.stride).foldl
    (inverse_row arg output_data kr kc ib batch_offset) st

/-- The final state of `_f_inverse_lower_cube`: `input` is the buffer behind the
pointer `input` (one depth slab of the input-gradient tensor, seen from its first
cell), `output` the read-only buffer behind `output`. -/
def _f_inverse_lower_cube_state (input : Buffer) (output : Nat → ℚ)
    (arg : _inverse_lower_cube_arg_helper) : InvState :=
  (List.range arg.kernel_size).foldl
    (fun st kr => (List.range arg.kernel_size).foldl
      (fun st kc => (List.range arg.iB).foldl (inverse_batch arg output kr kc) st) st)
    { input_data := input, out_index := 0, visits := [] }

/-- The kernel `_f_inverse_lower_cube`: the buffer behind `input` when the function
returns. -/
def _f_inverse_lower_cube (input : Buffer) (output : Nat → ℚ)
    (arg : _inverse_lower_cube_arg_helper) : Buffer :=
  (_f_inverse_lower_cube_state input output arg).input_data

/-! ## Forward and inverse kernels on one tensor -/

/-- The number of window rows `(iR + 2P - kR)/S + 1`. -/
def outR (a : PMapHelper) : Nat := (a.sR + 2 * a.padding - a.kR) / a.stride + 1

/-- The number of window columns `(iC + 2P - kC)/S + 1`. -/
def outC (a : PMapHelper) : Nat := (a.sC + 2 * a.padding - a.kC) / a.stride + 1

/-- The arguments of the inverse kernel that match a forward configuration with a
square kernel: same kernel size, stride, padding and tensor dimensions, and the
window counts of the forward pass. -/
def inverse_arg (a : PMapHelper) : _inverse_lower_cube_arg_helper :=
  { data_output_width := outR a, data_output_height := outC a, kernel_size := a.kR,
    stride := a.stride, padding := a.padding, iR := a.sR, iC := a.sC, iD := a.sD, iB := a.sB }

/-- The linear index of cell `(r, c, d, b)` of a tensor of the dimensions of `a`:
row-major maps, grouped by depth, then by batch. -/
def tensor_index (a : PMapHelper) (r c d b : Nat) : Int :=
  (c : Int) + r * a.sC + d * a.sR * a.sC + b * a.sR * a.sC * a.sD

/-- Modelled from the spec: the caller of `_f_inverse_lower_cube`
(`Connector_impl_Lowering_type1.hxx`) is not among the sources.  Following the spec
(the lowered matrix has `K·K·D` rows, one block of `K·K` rows per depth; the tensor
groups maps by depth inside each batch), the kernel is run once per depth slab `d`,
with `input` pointing at map `d` of batch 0 and `output` at row `d·K·K` of the
lowered matrix. -/
def inverse_lower_slabs (a : PMapHelper) (lowered : Buffer) (grad : Buffer) : Buffer :=
  (List.range a.sD).foldl
    (fun (g : Buffer) (d : Nat) =>
      let off : Int := (d : Int) * a.sR * a.sC
      let res := _f_inverse_lower_cube (fun n => g (off + n))
        (fun n => lowered ((d : Int) * a.kR * a.kR * ((a.sB : Int) * outR a * outC a) + n))
        (inverse_arg a)
      fun n => res (n - off))
    grad

/-- Window `i` of an axis (stride `S`, padding `P`, extent `K`) covers position `r`:
`i*S - P ≤ r ≤ i*S - P + K - 1`. -/
def covers (K S P i r : Nat) : Prop :=
  (i : Int) * S - P ≤ r ∧ (r : Int) ≤ (i : Int) * S - P + K - 1

instance (K S P i r : Nat) : Decidable (covers K S P i r) := by
  unfold covers; infer_instance

/-- The number of windows `(i, j)`, `i < ow`, `j < oh`, that cover cell `(r, c)`. -/
def cover_count (K S P ow oh r c : Nat) : Nat :=
  ((Finset.range ow ×ˢ Finset.range oh).filter
    (fun w => covers K S P w.1 r ∧ covers K S P w.2 c)).card

/-- The forward configuration with a square kernel: kernel size `K`, padding `P`,
stride `S` and input dimensions `iR × iC × iD × iB`. -/
def config (K P S iR iC iD iB : Nat) : PMapHelper :=
  { kR := K, kC := K, sR := iR, sC := iC, sD := iD, sB := iB, padding := P, stride := S }

/-- The 4 × 4 × 1 × 1 input of the concrete scenario: the values 1..16 in row-major order. -/
def scenario_tensor : Tensor := fun r c _ _ => ((r * 4 + c + 1 : Nat) : ℚ)

/-- The buffer that is zero everywhere. -/
def zero_buffer : Buffer := fun _ => 0

/-- Window `m` of an axis (start `m*S - P`, extent `k`) lies inside the padded axis of
extent `n` and contains position `i`. -/
def WindowHits (i n k P S m : Nat) : Prop :=
  m * S ≤ i + P ∧ i + P < m * S + k ∧ m * S + k ≤ n + 2 * P

/-- The linear index of the lowered-matrix cell in row `d*kR*kC + kr*kC + kc` and
column `b*outR*outC + i*outC + j`, the matrix having `iB*outR*outC` columns. -/
def lowered_index (a : PMapHelper) (d kr kc b i j : Nat) : Nat :=
  (b * outR a * outC a + i * outC a + j) +
    (d * a.kR * a.kC + kr * a.kC + kc) * (a.sB * outR a * outC a)

/-- Window row `i` at kernel row `kr` reads an input row inside `[0, iR)`: the guard of
line 61 at `cr = i*stride`. -/
def inv_row_ok (arg : _inverse_lower_cube_arg_helper) (kr i : Nat) : Prop :=
  0 ≤ ((i * arg.stride : Nat) : Int) + kr - arg.padding ∧
    ((i * arg.stride : Nat) : Int) + kr - arg.padding < arg.iR

/-- Window column `j` at kernel column `kc` reads an input column inside `[0, iC)`: the
guard of line 67 at `cc = j*stride`. -/
def inv_col_ok (arg : _inverse_lower_cube_arg_helper) (kc j : Nat) : Prop :=
  0 ≤ ((j * arg.stride : Nat) : Int) + kc - arg.padding ∧
    ((j * arg.stride : Nat) : Int) + kc - arg.padding < arg.iC

instance (arg : _inverse_lower_cube_arg_helper) (kr i : Nat) : Decidable (inv_row_ok arg kr i) := by
  unfold inv_row_ok; infer_instance

instance (arg : _inverse_lower_cube_arg_helper) (kc j : Nat) : Decidable (inv_col_ok arg kc j) := by
  unfold inv_col_ok; infer_instance

/-- The index `input_col_index + row_offset + batch_offset` of line 68 at kernel offset
`(kr, kc)`, batch `ib` and window `(i, j)`. -/
def inv_cell_index (arg : _inverse_lower_cube_arg_helper) (kr kc ib i j : Nat) : Int :=
  (((j * arg.stride : Nat) : Int) + kc - arg.padding) +
    (((i * arg.stride : Nat) : Int) + kr - arg.padding) * arg.iC +
    (ib : Int) * arg.iR * arg.iC * arg.iD

/-- What the loop body at kernel offset `(kr, kc)`, batch `ib` and window `(i, j)` adds to
cell `k` of the input buffer when it reads `output_data[n]`. -/
def inv_term (arg : _inverse_lower_cube_arg_helper) (output_data : Nat → ℚ)
    (kr kc ib i j n : Nat) (k : Int) : ℚ :=
  if inv_row_ok arg kr i ∧ inv_col_ok arg kc j ∧ k = inv_cell_index arg kr kc ib i j
  then output_data n else 0

/-- The position `((kr*K + kc)*iB + ib)*ow*oh + i*oh + j` in the lowered gradient
buffer. -/
def inv_counter (arg : _inverse_lower_cube_arg_helper) (kr kc ib i j : Nat) : Nat :=
  ((kr * arg.kernel_size + kc) * arg.iB + ib) * arg.data_output_width * arg.data_output_height
    + i * arg.data_output_height + j

/-- The snapshots of one row of windows: one per window column when the row is inside the
input, none when the row is skipped. -/
def row_visits (arg : _inverse_lower_cube_arg_helper) (kr kc ib i n : Nat) : List InvVisit :=
  if inv_row_ok arg kr i then
    (List.range arg.data_output_height).flatMap
      (fun j => [⟨kr, kc, ib, i * arg.stride, j * arg.stride, n + j⟩])
  else []

/-- Inverse-kernel arguments for a 2 × 2 × 1 × 1 input with `K = 2`, `S = 1`, `P = 1`:
3 × 3 windows, the outer ones reaching into the padding. -/
def padded_arg : _inverse_lower_cube_arg_helper :=
  { data_output_width := 3, data_output_height := 3, kernel_size := 2, stride := 1,
    padding := 1, iR := 2, iC := 2, iD := 1, iB := 1 }

/-- Inverse-kernel arguments with stride 0: a 1 × 1 × 1 × 1 input, `K = 1`, one window. -/
def stride0_arg : _inverse_lower_cube_arg_helper :=
  { data_output_width := 1, data_output_height := 1, kernel_size := 1, stride := 0,
    padding := 0, iR := 1, iC := 1, iD := 1, iB := 1 }

/-- The tensor that is zero except for the cell `(r0, c0, d0, b0)`, which holds `v`. -/
def one_hot (r0 c0 d0 b0 : Nat) (v : ℚ) : Tensor :=
  fun r c d b => if r = r0 ∧ c = c0 ∧ d = d0 ∧ b = b0 then v else 0

/-- A 3 × 3 × 1 × 1 input holding the values 1..9 in row-major order. -/
def ramp3_tensor : Tensor := fun r c _ _ => ((r * 3 + c + 1 : Nat) : ℚ)

/-- A 2 × 2 × 1 × 1 input holding the non-zero values 1..4 in row-major order. -/
def ramp2_tensor : Tensor := fun r c _ _ => ((r * 2 + c + 1 : Nat) : ℚ)

/-! ## The remapping kernel `_fmap_remap`, lines 254-271 -/

/-- The local `reald`, line 265. -/
def remap_reald (a : PMapHelper) (p : PointIn2DBlock) : Nat :=
  (p.block.d + p.block.b * a.sD) / a.sB

/-- The local `realb`, line 266. -/
def remap_realb (a : PMapHelper) (p : PointIn2DBlock) : Nat :=
  (p.block.d + p.block.b * a.sD) % a.sB

/-- The index `ic + ir*iC + reald*iR*iC + realb*iR*iC*iD` of the store of line 270. -/
def _fmap_remap_index (a : PMapHelper) (p : PointIn2DBlock) : Nat :=
  p.c + p.r * a.sC + remap_reald a p * a.sR * a.sC + remap_realb a p * a.sR * a.sC * a.sD

/-- The kernel `_fmap_remap`: the store `output[...] = input` of line 270. -/
def _fmap_remap (output : Buffer) (p : PointIn2DBlock) (a : PMapHelper) : Buffer :=
  store output (_fmap_remap_index a p) p.data

/-! ## The primary `Connector` template, `Connector.h` lines 19-78 -/

/-- Modelled from the spec: the declaration of `LogicalCube` is in `LogicalCube.h`, which
is not among the sources; a cube has dimensions `R`, `C`, `D`, `B` and its cells. -/
structure LogicalCube where
  R : Nat
  C : Nat
  D : Nat
  B : Nat
  p_data : Buffer

/-- The data members of the primary `Connector` template (lines 28-38) that the
constructor initialises: the sizes of the input and output cubes and the driver. -/
structure Connector (DriverClass : Type) where
  iR : Nat
  iC : Nat
  iD : Nat
  iB : Nat
  oR : Nat
  oC : Nat
  oD : Nat
  oB : Nat
  p_driver : DriverClass

/-- The text the three members of the primary template write to `std::cerr`. -/
def unspecialized_message : String :=
  "ERROR: Using Connector with the type that is not specialized (implemented)."

/-- The statement `assert(cond)` with assertions enabled, as the source is written
(`NDEBUG` is a build option outside the sources): a call that fails the assertion ends
there, leaving the text written to `std::cerr` so far and no result. -/
def cpp_assert (cond : Bool) (cerr : String) : Except String Unit :=
  if cond then Except.ok () else Except.error cerr

/-- The constructor of the primary template, lines 50-57: the members are initialised to
0, the message is written and `assert(false)` follows. -/
def Connector.construct {DriverClass : Type} (_p_input_cube _p_output_cube : LogicalCube)
    (_kernel_size _padding _stride : Nat) (_p_driver : DriverClass) :
    Except String (Connector DriverClass) := do
  let self : Connector DriverClass :=
    { iR := 0, iC := 0, iD := 0, iB := 0, oR := 0, oC := 0, oD := 0, oB := 0,
      p_driver := _p_driver }
  cpp_assert false unspecialized_message
  return self

/-- The member `lower_cube` of the primary template, lines 64-67; the result is the output
cube when the call returns. -/
def Connector.lower_cube {DriverClass : Type} (_self : Connector DriverClass)
    (_p_input_cube p_output_cube : LogicalCube) : Except String LogicalCube := do
  cpp_assert false unspecialized_message
  return p_output_cube

/-- The member `inverse_lower_cube` of the primary template, lines 73-76; the result is
the input cube when the call returns. -/
def Connector.inverse_lower_cube {DriverClass : Type} (_self : Connector DriverClass)
    (_p_output_cube p_input_cube : LogicalCube) : Except String LogicalCube := do
  cpp_assert false unspecialized_message
  return p_input_cube

/-! ## The reference loops of the comment of `_fmap_lower`, lines 206-212 -/

/-- The window-start rows at which the guarded body of the reference loop of the comment
runs: `for (int r = next_multiple(ir - kR + 1, stride); r < ir + 1; r += stride)` with
the guard `if (r >= -padding && r < (iR - kR + 1) + padding)`. -/
def reference_row_starts (a : PMapHelper) (ir : Int) : List Int :=
  ((forIters (ir + 1 - next_multiple (ir - a.kR + 1) a.stride).toNat
      (next_multiple (ir - a.kR + 1) a.stride) 0 (ir + 1) a.stride).filter
    (fun ri => decide (ri.1 ≥ -(a.padding : Int) ∧
      ri.1 < ((a.sR : Int) - a.kR + 1) + a.padding))).map Prod.fst

/-- The window-start columns at which the guarded body of the same reference loop runs,
written for the column indices (`ic`, `kC`, `iC`). -/
def reference_col_starts (a : PMapHelper) (ic : Int) : List Int :=
  ((forIters (ic + 1 - next_multiple (ic - a.kC + 1) a.stride).toNat
      (next_multiple (ic - a.kC + 1) a.stride) 0 (ic + 1) a.stride).filter
    (fun cj => decide (cj.1 ≥ -(a.padding : Int) ∧
      cj.1 < ((a.sC : Int) - a.kC + 1) + a.padding))).map Prod.fst

/-! ## Sizes at which the loop ends are computed without rounding -/

/-- At position `i` of an axis of extent `n`, with kernel extent `k` and padding `P`, both
arguments of `device_min` are at most `2^24` in magnitude and the position is below
`2^24`: the conversions to `float`, the sum with 1 and the conversion back are exact. -/
def FloatExact (n k P i : Nat) : Prop :=
  i < 16777216 ∧ n + P ≤ k + 16777216 ∧ k ≤ n + P + 16777216

instance (n k P i : Nat) : Decidable (FloatExact n k P i) := by
  unfold FloatExact; infer_instance

/-- The loop ends of the call for the point `p` are computed without rounding. -/
def ExactEnds (a : PMapHelper) (p : PointIn2DBlock) : Prop :=
  FloatExact a.sR a.kR a.padding p.r ∧ FloatExact a.sC a.kC a.padding p.c

instance (a : PMapHelper) (p : PointIn2DBlock) : Decidable (ExactEnds a p) := by
  unfold ExactEnds; infer_instance

/-- The padded extents of both axes are at most `2^24`. -/
def SmallDims (a : PMapHelper) : Prop :=
  a.sR + a.padding ≤ 16777216 ∧ a.sC + a.padding ≤ 16777216

instance (a : PMapHelper) : Decidable (SmallDims a) := by
  unfold SmallDims; infer_instance

/-! ## Adjointness: the common term of the two sums -/

/-- The product of a lowered cell and the entry of `G` at that cell, written on the source
of the cell. -/
def adjoint_term (a : PMapHelper) (x : Tensor) (G : Buffer) (d kr kc b i j : Nat) : ℚ :=
  if a.padding ≤ i * a.stride + kr ∧ i * a.stride + kr < a.sR + a.padding ∧
      a.padding ≤ j * a.stride + kc ∧ j * a.stride + kc < a.sC + a.padding
  then x (i * a.stride + kr - a.padding) (j * a.stride + kc - a.padding) d b *
    G ((lowered_index a d kr kc b i j : Nat) : Int)
  else 0

/-! ## Arithmetic of the helpers -/

/-- Whole numbers up to `2^24` are `float` values. -/
theorem float_round_nat_exact (m : Nat) (h : m ≤ 16777216) : float_round_nat m = m := by
  rcases Nat.lt_or_ge m 16777216 with h1 | h1
  · have hu : float_ulp 104 m = 1 := by
      show float_ulp (103 + 1) m = 1
      simp [float_ulp, h1]
    unfold float_round_nat
    simp [hu, Nat.mod_one]
  · have : m = 16777216 := by omega
    subst this
    decide

/-- Integers up to `2^24` in magnitude convert to `float` without rounding. -/
theorem float_round_exact (n : Int) (h1 : -16777216 ≤ n) (h2 : n ≤ 16777216) :
    float_round n = n := by
  unfold float_round
  rw [float_round_nat_exact _ (by omega)]
  split_ifs with h <;> omega

/-- On values that convert without rounding, `device_min` is the minimum. -/
theorem device_min_exact (x y : Int) (hx1 : -16777216 ≤ x) (hx2 : x ≤ 16777216)
    (hy1 : -16777216 ≤ y) (hy2 : y ≤ 16777216) :
    (device_min (int_to_float x) (int_to_float y)).val = min x y := by
  unfold device_min int_to_float
  rw [float_round_exact x hx1 hx2, float_round_exact y hy1 hy2]
  by_cases h : x > y
  · rw [if_pos h, min_eq_right (by omega)]
  · rw [if_neg h, min_eq_left (by omega)]

/-- Where the conversions are exact, the loop end of lines 216 and 223 is
`min(i, n - k + P) + 1`, computed on integers. -/
theorem loop_end_exact (n k P i : Nat) (h : FloatExact n k P i) :
    float_to_int (float_add
      (device_min (int_to_float (i : Int)) (int_to_float ((n : Int) - k + P)))
      (int_to_float 1)) = min (i : Int) ((n : Int) - k + P) + 1 := by
  obtain ⟨h1, h2, h3⟩ := h
  have hmin := device_min_exact (i : Int) ((n : Int) - k + P) (by omega) (by omega) (by omega)
    (by omega)
  have hle := min_le_left (i : Int) ((n : Int) - k + P)
  have hge : -16777216 ≤ min (i : Int) ((n : Int) - k + P) := le_min (by omega) (by omega)
  have h1f : (int_to_float 1).val = 1 := float_round_exact 1 (by omega) (by omega)
  show float_round ((device_min (int_to_float (i : Int)) (int_to_float ((n : Int) - k + P))).val
    + (int_to_float 1).val) = _
  rw [hmin, h1f]
  exact float_round_exact _ (by omega) (by omega)

theorem r_end_exact (a : PMapHelper) (ir : Nat) (h : FloatExact a.sR a.kR a.padding ir) :
    r_end a ir = min (ir : Int) ((a.sR : Int) - a.kR + a.padding) + 1 :=
  loop_end_exact a.sR a.kR a.padding ir h

theorem c_end_exact (a : PMapHelper) (ic : Nat) (h : FloatExact a.sC a.kC a.padding ic) :
    c_end a ic = min (ic : Int) ((a.sC : Int) - a.kC + a.padding) + 1 :=
  loop_end_exact a.sC a.kC a.padding ic h

/-- In a configuration whose padded extents are at most `2^24`, the loop ends of the call
for an in-range point are computed without rounding. -/
theorem exactEnds_of_small (a : PMapHelper) (hsm : SmallDims a)
    (hR : a.kR ≤ a.sR + 2 * a.padding) (hC : a.kC ≤ a.sC + 2 * a.padding)
    (p : PointIn2DBlock) (hp : InRange a p) : ExactEnds a p := by
  obtain ⟨h1, h2⟩ := hsm
  obtain ⟨hr, hc, -, -⟩ := hp
  exact ⟨⟨by omega, by omega, by omega⟩, ⟨by omega, by omega, by omega⟩⟩

theorem tmod_neg_left (a b : Int) : (-a).tmod b = -(a.tmod b) := by
  rw [Int.tmod_def, Int.tmod_def, Int.neg_tdiv]; ring

/-- Truncated remainder by a positive divisor: same sign as the dividend, smaller than the divisor. -/
theorem tmod_bounds (x s : Int) (hs : 0 < s) :
    (0 ≤ x → 0 ≤ x.tmod s ∧ x.tmod s < s) ∧ (x ≤ 0 → -s < x.tmod s ∧ x.tmod s ≤ 0) := by
  constructor
  · intro hx
    exact ⟨Int.tmod_nonneg s hx, Int.tmod_lt_of_pos x hs⟩
  · intro hx
    have h1 : 0 ≤ (-x).tmod s := Int.tmod_nonneg s (by omega)
    have h2 : (-x).tmod s < s := Int.tmod_lt_of_pos (-x) hs
    rw [tmod_neg_left] at h1 h2
    omega

theorem next_multiple_spec (x s : Int) (hs : 0 < s) :
    ∃ q : Int, next_multiple x s = q * s ∧ x ≤ q * s ∧ q * s < x + s := by
  have hb := tmod_bounds x s hs
  have hd : x.tdiv s * s + x.tmod s = x := Int.tdiv_add_tmod' x s
  unfold next_multiple
  simp only
  by_cases hx : x > 0
  · have h1 := hb.1 (by omega)
    by_cases hm : x.tmod s > 0
    · refine ⟨x.tdiv s + 1, ?_, ?_, ?_⟩
      · rw [if_pos ⟨hx, hm⟩]; linarith
      · linarith
      · linarith
    · have hm0 : x.tmod s = 0 := by omega
      refine ⟨x.tdiv s, ?_, ?_, ?_⟩
      · rw [if_neg (by omega)]; linarith
      · linarith
      · linarith
  · have h1 := hb.2 (by omega)
    refine ⟨x.tdiv s, ?_, ?_, ?_⟩
    · rw [if_neg (by omega)]; linarith
    · linarith
    · linarith

theorem next_largest_multiple_spec (x p s : Int) (hs : 0 < s) :
    ∃ t : Nat, next_largest_multiple x p s = x + t * s ∧ p ≤ x + t * s ∧
      (t = 0 ∨ x + t * s < p + s) := by
  unfold next_largest_multiple
  by_cases hx : x ≥ p
  · exact ⟨0, by simp [hx], by simpa using hx, Or.inl rfl⟩
  · rw [if_neg hx]
    simp only
    have hpx : 0 ≤ p - x := by omega
    have hd : (p - x).tdiv s * s + (p - x).tmod s = p - x := Int.tdiv_add_tmod' _ s
    have hb := (tmod_bounds (p - x) s hs).1 hpx
    have hq : 0 ≤ (p - x).tdiv s := Int.tdiv_nonneg hpx (by omega)
    obtain ⟨q, hq'⟩ := Int.eq_ofNat_of_zero_le hq
    rw [hq'] at hd ⊢
    by_cases hy : x + (q:Int) * s < p
    · rw [if_pos hy]
      refine ⟨q + 1, by push_cast; ring, by push_cast; linarith, Or.inr (by push_cast; linarith)⟩
    · rw [if_neg hy]
      refine ⟨q, rfl, by linarith, Or.inr (by linarith)⟩

/-! ## The iterations of the strided loops -/

theorem forIters_mem_iff (S r_end : Int) (hS : 0 < S) :
    ∀ (fuel : Nat) (r0 i0 : Int), (r_end - r0).toNat ≤ fuel → ∀ (r i : Int),
      ((r, i) ∈ forIters fuel r0 i0 r_end S ↔
        ∃ t : Nat, r = r0 + t * S ∧ i = i0 + t ∧ r < r_end) := by
  intro fuel
  induction fuel with
  | zero =>
    intro r0 i0 hf r i
    simp only [forIters, List.not_mem_nil, false_iff]
    rintro ⟨t, hr, -, hlt⟩
    have : 0 ≤ (t : Int) * S := by positivity
    omega
  | succ n ih =>
    intro r0 i0 hf r i
    unfold forIters
    by_cases hlt : r0 < r_end
    · rw [if_pos hlt, List.mem_cons]
      have hf' : (r_end - (r0 + S)).toNat ≤ n := by omega
      rw [ih (r0 + S) (i0 + 1) hf' r i]
      constructor
      · rintro (h | ⟨t, hr, hi, hl⟩)
        · refine ⟨0, ?_, ?_, ?_⟩
          · simp [(Prod.mk.inj h).1]
          · simp [(Prod.mk.inj h).2]
          · rw [(Prod.mk.inj h).1]; exact hlt
        · refine ⟨t + 1, ?_, ?_, hl⟩
          · rw [hr]; push_cast; ring
          · rw [hi]; push_cast; ring
      · rintro ⟨t, hr, hi, hl⟩
        cases t with
        | zero => left; simp [hr, hi]
        | succ t =>
          right
          refine ⟨t, ?_, ?_, hl⟩
          · rw [hr]; push_cast; ring
          · rw [hi]; push_cast; ring
    · rw [if_neg hlt]
      simp only [List.not_mem_nil, false_iff]
      rintro ⟨t, hr, -, hl⟩
      have : 0 ≤ (t : Int) * S := by positivity
      omega

/-- The loop stops because its guard fails, not because fuel runs out: any two
sufficient amounts of fuel give the same iterations. -/
theorem forIters_fuel_stable (S r_end : Int) (hS : 0 < S) :
    ∀ (fuel fuel2 : Nat) (r0 i0 : Int), (r_end - r0).toNat ≤ fuel → (r_end - r0).toNat ≤ fuel2 →
      forIters fuel r0 i0 r_end S = forIters fuel2 r0 i0 r_end S := by
  intro fuel
  induction fuel with
  | zero =>
    intro fuel2 r0 i0 hf _
    have hge : ¬ r0 < r_end := by omega
    cases fuel2 with
    | zero => rfl
    | succ m => simp [forIters, hge]
  | succ n ih =>
    intro fuel2 r0 i0 hf hf2
    by_cases hlt : r0 < r_end
    · cases fuel2 with
      | zero => omega
      | succ m =>
        unfold forIters
        rw [if_pos hlt, if_pos hlt]
        have h1 : (r_end - (r0 + S)).toNat ≤ n := by omega
        have h2 : (r_end - (r0 + S)).toNat ≤ m := by omega
        rw [ih m (r0 + S) (i0 + 1) h1 h2]
    · cases fuel2 with
      | zero => simp [forIters, hlt]
      | succ m => simp [forIters, hlt]

theorem forIters_pairwise (S r_end : Int) (hS : 0 < S) :
    ∀ (fuel : Nat) (r0 i0 : Int),
      (forIters fuel r0 i0 r_end S).Pairwise (fun x y => x.1 < y.1) ∧
      ∀ x ∈ forIters fuel r0 i0 r_end S, r0 ≤ x.1 := by
  intro fuel
  induction fuel with
  | zero => intro r0 i0; simp [forIters]
  | succ n ih =>
    intro r0 i0
    unfold forIters
    by_cases hlt : r0 < r_end
    · rw [if_pos hlt]
      obtain ⟨h1, h2⟩ := ih (r0 + S) (i0 + 1)
      refine ⟨List.pairwise_cons.mpr ⟨?_, h1⟩, ?_⟩
      · intro y hy
        have := h2 y hy
        show r0 < y.1
        omega
      · intro x hx
        rcases List.mem_cons.mp hx with h | h
        · rw [h]
        · have := h2 x h
          omega
    · rw [if_neg hlt]; simp

/-- The first window start of lines 214-215 and 221-222: the start `t0*S - P` of the
first window `t0 ≥ 0` that reaches position `i` with a kernel of extent `k`. -/
theorem begin_spec (i k : Int) (P S : Nat) (hS : 0 < S) :
    ∃ t0 : Nat,
      next_largest_multiple (next_multiple (i - k + 1 + P) S - P) (-(P : Int)) S
        = (t0 : Int) * S - P ∧
      i - k + 1 ≤ (t0 : Int) * S - P ∧
      ∀ n : Nat, i - k + 1 ≤ (n : Int) * S - P → t0 ≤ n := by
  have hS' : (0 : Int) < S := by exact_mod_cast hS
  obtain ⟨q, hq, hq1, hq2⟩ := next_multiple_spec (i - k + 1 + P) S hS'
  obtain ⟨t, ht, ht1, ht2⟩ := next_largest_multiple_spec (q * S - P) (-(P : Int)) S hS'
  rw [hq, ht]
  have hqt : 0 ≤ q + t := by
    by_contra hneg
    have h1 : q + t ≤ -1 := by omega
    have h2 : (q + t) * S ≤ -1 * S := Int.mul_le_mul_of_nonneg_right h1 (by omega)
    have h3 : (q + t) * S = q * S + t * S := by ring
    omega
  obtain ⟨t0, ht0⟩ := Int.eq_ofNat_of_zero_le hqt
  have hmul : (t0 : Int) * S = q * S + t * S := by rw [← ht0]; ring
  have hle : ∀ n : Nat, q * (S : Int) < (n + 1) * S → q ≤ n := by
    intro n hn
    have := lt_of_mul_lt_mul_right hn (by omega : (0 : Int) ≤ S)
    omega
  refine ⟨t0, by rw [hmul]; ring, ?_, ?_⟩
  · have : 0 ≤ (t : Int) * S := by positivity
    omega
  · intro n hn
    have hqn : q ≤ n := hle n (by
      have : ((n : Int) + 1) * S = n * S + S := by ring
      omega)
    rcases ht2 with h0 | hlt
    · subst h0
      have : (t0 : Int) = q := by simpa using ht0.symm
      omega
    · have h1 : (t0 : Int) * S < 1 * S := by
        rw [hmul]; omega
      have := lt_of_mul_lt_mul_right h1 (by omega : (0 : Int) ≤ S)
      omega

/-- The iterations of a loop of lines 232/237, for a position `i < n` of an axis of
extent `n`, kernel extent `k`, padding `P` and stride `S ≥ 1`: window `m` (start
`m*S - P`) is visited exactly when the window lies inside the padded axis and
contains `i`. -/
theorem axis_iters_mem_iff (i n k P S : Nat) (hS : 0 < S) (r w : Int) :
    (r, w) ∈ forIters
        ((min (i : Int) ((n : Int) - k + P) + 1 -
          next_largest_multiple (next_multiple ((i : Int) - k + 1 + P) S - P) (-(P : Int)) S).toNat)
        (next_largest_multiple (next_multiple ((i : Int) - k + 1 + P) S - P) (-(P : Int)) S)
        (Int.tdiv (next_largest_multiple (next_multiple ((i : Int) - k + 1 + P) S - P)
          (-(P : Int)) S + P) S)
        (min (i : Int) ((n : Int) - k + P) + 1) S ↔
      ∃ m : Nat, w = m ∧ r = (m : Int) * S - P ∧ (i : Int) - k + 1 ≤ r ∧ r ≤ i ∧
        r ≤ (n : Int) - k + P := by
  have hS' : (0 : Int) < S := by exact_mod_cast hS
  obtain ⟨t0, hb, hlo, hmin⟩ := begin_spec i k P S hS
  rw [hb]
  have hdiv : Int.tdiv ((t0 : Int) * S - P + P) S = t0 := by
    rw [show (t0 : Int) * S - P + P = t0 * S by ring]
    exact Int.mul_tdiv_cancel _ (by omega)
  rw [hdiv, forIters_mem_iff S _ hS' _ _ _ (le_refl _)]
  constructor
  · rintro ⟨t, hr, hw, hlt⟩
    refine ⟨t0 + t, by rw [hw]; push_cast; ring, by rw [hr]; push_cast; ring, ?_, ?_, ?_⟩
    · have : 0 ≤ (t : Int) * S := by positivity
      omega
    · have := min_le_left (i : Int) ((n : Int) - k + P); omega
    · have := min_le_right (i : Int) ((n : Int) - k + P); omega
  · rintro ⟨m, hw, hr, h1, h2, h3⟩
    have hle := hmin m (by omega)
    obtain ⟨t, ht⟩ := Nat.exists_eq_add_of_le hle
    refine ⟨t, by rw [hr, ht]; push_cast; ring, by rw [hw, ht]; omega, ?_⟩
    have := le_min h2 h3
    omega

/-! ## The stores of one call of the forward kernel -/

theorem output_R_eq (a : PMapHelper) (h : a.kR ≤ a.sR + 2 * a.padding) :
    output_R a = (outR a : Int) := by
  unfold output_R outR
  have : (a.sR : Int) - a.kR + 2 * a.padding = ((a.sR + 2 * a.padding - a.kR : Nat) : Int) := by
    omega
  rw [this, ← Int.ofNat_tdiv]
  push_cast
  rfl

theorem output_C_eq (a : PMapHelper) (h : a.kC ≤ a.sC + 2 * a.padding) :
    output_C a = (outC a : Int) := by
  unfold output_C outC
  have : (a.sC : Int) - a.kC + 2 * a.padding = ((a.sC + 2 * a.padding - a.kC : Nat) : Int) := by
    omega
  rw [this, ← Int.ofNat_tdiv]
  push_cast
  rfl

theorem rowIters_mem_iff (a : PMapHelper) (hS : 0 < a.stride) (ir : Nat)
    (hx : FloatExact a.sR a.kR a.padding ir) (r w : Int) :
    (r, w) ∈ rowIters a ir ↔
      ∃ m : Nat, w = m ∧ r = (m : Int) * a.stride - a.padding ∧
        WindowHits ir a.sR a.kR a.padding a.stride m := by
  unfold rowIters i_start
  rw [r_end_exact a ir hx]
  unfold r_begin
  rw [axis_iters_mem_iff ir a.sR a.kR a.padding a.stride hS r w]
  unfold WindowHits
  constructor
  · rintro ⟨m, hw, hr, h1, h2, h3⟩
    exact ⟨m, hw, hr, by zify; omega, by zify; omega, by zify; omega⟩
  · rintro ⟨m, hw, hr, h1, h2, h3⟩
    zify at h1 h2 h3
    exact ⟨m, hw, hr, by omega, by omega, by omega⟩

theorem colIters_mem_iff (a : PMapHelper) (hS : 0 < a.stride) (ic : Nat)
    (hx : FloatExact a.sC a.kC a.padding ic) (c w : Int) :
    (c, w) ∈ colIters a ic ↔
      ∃ m : Nat, w = m ∧ c = (m : Int) * a.stride - a.padding ∧
        WindowHits ic a.sC a.kC a.padding a.stride m := by
  unfold colIters j_start
  rw [c_end_exact a ic hx]
  unfold c_begin
  rw [axis_iters_mem_iff ic a.sC a.kC a.padding a.stride hS c w]
  unfold WindowHits
  constructor
  · rintro ⟨m, hw, hr, h1, h2, h3⟩
    exact ⟨m, hw, hr, by zify; omega, by zify; omega, by zify; omega⟩
  · rintro ⟨m, hw, hr, h1, h2, h3⟩
    zify at h1 h2 h3
    exact ⟨m, hw, hr, by omega, by omega, by omega⟩

/-- A window that lies inside the padded axis has a number below the window count. -/
theorem WindowHits.lt_count {i n k P S m : Nat} (hS : 0 < S) (h : WindowHits i n k P S m) :
    m < (n + 2 * P - k) / S + 1 := by
  obtain ⟨-, -, h3⟩ := h
  have : m * S ≤ n + 2 * P - k := by omega
  have := (Nat.le_div_iff_mul_le hS).mpr this
  omega

/-- The store of `_fmap_lower` at row window `i` and column window `j`. -/
theorem lowerTarget_eq (a : PMapHelper) (p : PointIn2DBlock)
    (hR : a.kR ≤ a.sR + 2 * a.padding) (hC : a.kC ≤ a.sC + 2 * a.padding) (i j : Nat)
    (hi : i * a.stride ≤ p.r + a.padding) (hj : j * a.stride ≤ p.c + a.padding) :
    lowerTarget a p ((i : Int) * a.stride - a.padding, i) ((j : Int) * a.stride - a.padding, j) =
      (((p.block.b * outR a * outC a + i * outC a + j : Nat) : Int),
       ((p.block.d * a.kR * a.kC + (p.r + a.padding - i * a.stride) * a.kC +
          (p.c + a.padding - j * a.stride) : Nat) : Int)) := by
  unfold lowerTarget
  simp only [output_R_eq a hR, output_C_eq a hC]
  rw [Nat.cast_add, Nat.cast_add, Nat.cast_add, Nat.cast_add, Nat.cast_mul, Nat.cast_mul,
    Nat.cast_mul, Nat.cast_mul, Nat.cast_mul, Nat.cast_mul, Nat.cast_sub hi, Nat.cast_sub hj]
  push_cast
  refine Prod.ext ?_ ?_ <;> simp only <;> ring

theorem mem_fmap_lower_indices_iff (a : PMapHelper) (p : PointIn2DBlock) (hS : 0 < a.stride)
    (hR : a.kR ≤ a.sR + 2 * a.padding) (hC : a.kC ≤ a.sC + 2 * a.padding)
    (hx : ExactEnds a p) (k : Int) :
    k ∈ _fmap_lower_indices a p ↔
      ∃ i j : Nat, WindowHits p.r a.sR a.kR a.padding a.stride i ∧
        WindowHits p.c a.sC a.kC a.padding a.stride j ∧
        k = (lowered_index a p.block.d (p.r + a.padding - i * a.stride)
              (p.c + a.padding - j * a.stride) p.block.b i j : Nat) := by
  unfold _fmap_lower_indices _fmap_lower_targets
  simp only [List.mem_map, List.mem_flatMap]
  constructor
  · rintro ⟨t, ⟨⟨r, w⟩, hri, ⟨c, v⟩, hcj, ht⟩, hk⟩
    obtain ⟨i, hw, hr, hi⟩ := (rowIters_mem_iff a hS p.r hx.1 r w).mp hri
    obtain ⟨j, hv, hc, hj⟩ := (colIters_mem_iff a hS p.c hx.2 c v).mp hcj
    refine ⟨i, j, hi, hj, ?_⟩
    subst hw hr hv hc
    rw [lowerTarget_eq a p hR hC i j hi.1 hj.1] at ht
    rw [← hk, ← ht]
    unfold lowered_index lowered_oC
    simp only [output_R_eq a hR, output_C_eq a hC]
    push_cast
    ring
  · rintro ⟨i, j, hi, hj, hk⟩
    refine ⟨_, ⟨((i : Int) * a.stride - a.padding, i), (rowIters_mem_iff a hS p.r hx.1 _ _).mpr
      ⟨i, rfl, rfl, hi⟩, ((j : Int) * a.stride - a.padding, j),
      (colIters_mem_iff a hS p.c hx.2 _ _).mpr ⟨j, rfl, rfl, hj⟩, rfl⟩, ?_⟩
    rw [lowerTarget_eq a p hR hC i j hi.1 hj.1, hk]
    unfold lowered_index lowered_oC
    simp only [output_R_eq a hR, output_C_eq a hC]
    push_cast
    ring

/-! ## Cells and stores of the lowered matrix -/

/-- Mixed-radix uniqueness: a digit below `n` and the rest are determined by
`digit + rest*n`. -/
theorem radix_inj {n x y x' y' : Nat} (hx : x < n) (hx' : x' < n)
    (h : x + y * n = x' + y' * n) : x = x' ∧ y = y' := by
  have hn : 0 < n := by omega
  have h1 : (x + y * n) % n = x := by
    rw [Nat.add_mul_mod_self_right]; exact Nat.mod_eq_of_lt hx
  have h2 : (x' + y' * n) % n = x' := by
    rw [Nat.add_mul_mod_self_right]; exact Nat.mod_eq_of_lt hx'
  have h3 : (x + y * n) / n = y := by
    rw [Nat.add_mul_div_right _ _ hn, Nat.div_eq_of_lt hx]; simp
  have h4 : (x' + y' * n) / n = y' := by
    rw [Nat.add_mul_div_right _ _ hn, Nat.div_eq_of_lt hx']; simp
  rw [h] at h1 h3
  exact ⟨h1.symm.trans h2, h3.symm.trans h4⟩

theorem two_digit_lt {n m x y : Nat} (hx : x < n) (hy : y < m) : x + y * n < m * n := by
  have : (y + 1) * n ≤ m * n := Nat.mul_le_mul_right n hy
  have : (y + 1) * n = y * n + n := by ring
  omega

/-- The column of a lowered-matrix cell lies inside the matrix. -/
theorem lowered_col_lt (a : PMapHelper) {b i j : Nat} (hb : b < a.sB) (hi : i < outR a)
    (hj : j < outC a) : b * outR a * outC a + i * outC a + j < a.sB * outR a * outC a := by
  have h1 : j + i * outC a < outR a * outC a := two_digit_lt hj hi
  have h2 : (j + i * outC a) + b * (outR a * outC a) < a.sB * (outR a * outC a) :=
    two_digit_lt h1 hb
  calc b * outR a * outC a + i * outC a + j
      = (j + i * outC a) + b * (outR a * outC a) := by ring
    _ < a.sB * (outR a * outC a) := h2
    _ = a.sB * outR a * outC a := by ring

/-- The row of a lowered-matrix cell lies inside the matrix. -/
theorem lowered_row_lt (a : PMapHelper) {d kr kc : Nat} (hd : d < a.sD) (hkr : kr < a.kR)
    (hkc : kc < a.kC) : d * a.kR * a.kC + kr * a.kC + kc < a.kR * a.kC * a.sD := by
  have h1 : kc + kr * a.kC < a.kR * a.kC := two_digit_lt hkc hkr
  have h2 : (kc + kr * a.kC) + d * (a.kR * a.kC) < a.sD * (a.kR * a.kC) :=
    two_digit_lt h1 hd
  calc d * a.kR * a.kC + kr * a.kC + kc
      = (kc + kr * a.kC) + d * (a.kR * a.kC) := by ring
    _ < a.sD * (a.kR * a.kC) := h2
    _ = a.kR * a.kC * a.sD := by ring

/-- A lowered-matrix cell determines its depth, kernel offsets, batch and window. -/
theorem lowered_index_inj (a : PMapHelper) {d kr kc b i j d' kr' kc' b' i' j' : Nat}
    (hkr : kr < a.kR) (hkc : kc < a.kC) (hb : b < a.sB) (hi : i < outR a) (hj : j < outC a)
    (hkr' : kr' < a.kR) (hkc' : kc' < a.kC) (hb' : b' < a.sB) (hi' : i' < outR a)
    (hj' : j' < outC a)
    (h : lowered_index a d kr kc b i j = lowered_index a d' kr' kc' b' i' j') :
    d = d' ∧ kr = kr' ∧ kc = kc' ∧ b = b' ∧ i = i' ∧ j = j' := by
  unfold lowered_index at h
  obtain ⟨hcol, hrow⟩ := radix_inj (lowered_col_lt a hb hi hj) (lowered_col_lt a hb' hi' hj') h
  have hcol' : (j + i * outC a) + b * (outR a * outC a) =
      (j' + i' * outC a) + b' * (outR a * outC a) := by
    calc (j + i * outC a) + b * (outR a * outC a)
        = b * outR a * outC a + i * outC a + j := by ring
      _ = b' * outR a * outC a + i' * outC a + j' := hcol
      _ = (j' + i' * outC a) + b' * (outR a * outC a) := by ring
  obtain ⟨hij, hbb⟩ := radix_inj (two_digit_lt hj hi) (two_digit_lt hj' hi') hcol'
  obtain ⟨hjj, hii⟩ := radix_inj hj hj' hij
  have hrow' : (kc + kr * a.kC) + d * (a.kR * a.kC) =
      (kc' + kr' * a.kC) + d' * (a.kR * a.kC) := by
    calc (kc + kr * a.kC) + d * (a.kR * a.kC)
        = d * a.kR * a.kC + kr * a.kC + kc := by ring
      _ = d' * a.kR * a.kC + kr' * a.kC + kc' := hrow
      _ = (kc' + kr' * a.kC) + d' * (a.kR * a.kC) := by ring
  obtain ⟨hk, hdd⟩ := radix_inj (two_digit_lt hkc hkr) (two_digit_lt hkc' hkr') hrow'
  obtain ⟨hkcc, hkrr⟩ := radix_inj hkc hkc' hk
  exact ⟨hdd, hkrr, hkcc, hbb, hii, hjj⟩

/-- A sequence of stores of one value: the cells stored to hold the value, the
others are unchanged. -/
theorem foldl_store_apply (v : ℚ) (ks : List Int) (out : Buffer) (n : Int) :
    (ks.foldl (fun o k => store o k v) out) n = if n ∈ ks then v else out n := by
  induction ks generalizing out with
  | nil => simp
  | cons k ks ih =>
    rw [List.foldl_cons, ih]
    by_cases h1 : n ∈ ks
    · simp [h1]
    · by_cases h2 : n = k
      · simp [h1, h2, store]
      · simp [h1, h2, store]

theorem fmap_lower_apply (out : Buffer) (p : PointIn2DBlock) (a : PMapHelper) (n : Int) :
    _fmap_lower out p a n = if n ∈ _fmap_lower_indices a p then p.data else out n := by
  unfold _fmap_lower
  exact foldl_store_apply p.data _ out n

/-- A cell no call stores to keeps its content. -/
theorem lower_points_untouched (a : PMapHelper) (n : Int) :
    ∀ (pts : List PointIn2DBlock) (out : Buffer),
      (∀ p ∈ pts, n ∉ _fmap_lower_indices a p) → lower_points a pts out n = out n := by
  intro pts
  induction pts with
  | nil => intro out _; rfl
  | cons p ps ih =>
    intro out h
    unfold lower_points
    rw [List.foldl_cons]
    have := ih (_fmap_lower out p a) (fun q hq => h q (List.mem_cons_of_mem _ hq))
    unfold lower_points at this
    rw [this, fmap_lower_apply, if_neg (h p (List.mem_cons_self _ _))]

/-- A cell that some call stores to, all calls storing to it carrying `v`, holds `v`. -/
theorem lower_points_written (a : PMapHelper) (n : Int) (v : ℚ) :
    ∀ (pts : List PointIn2DBlock) (out : Buffer),
      (∀ p ∈ pts, n ∈ _fmap_lower_indices a p → p.data = v) →
      (∃ p ∈ pts, n ∈ _fmap_lower_indices a p) → lower_points a pts out n = v := by
  intro pts
  induction pts with
  | nil => intro out _ h; obtain ⟨p, hp, -⟩ := h; cases hp
  | cons p ps ih =>
    intro out hall hex
    by_cases hps : ∃ q ∈ ps, n ∈ _fmap_lower_indices a q
    · have := ih (_fmap_lower out p a) (fun q hq => hall q (List.mem_cons_of_mem _ hq)) hps
      unfold lower_points at this ⊢
      rw [List.foldl_cons, this]
    · have hnone : ∀ q ∈ ps, n ∉ _fmap_lower_indices a q := fun q hq hn => hps ⟨q, hq, hn⟩
      have hp : n ∈ _fmap_lower_indices a p := by
        obtain ⟨q, hq, hn⟩ := hex
        rcases List.mem_cons.mp hq with h | h
        · rw [← h]; exact hn
        · exact absurd hn (hnone q h)
      have := lower_points_untouched a n ps (_fmap_lower out p a) hnone
      unfold lower_points at this ⊢
      rw [List.foldl_cons, this, fmap_lower_apply, if_pos hp]
      exact hall p (List.mem_cons_self _ _) hp

theorem mem_fmap_lower_targets_iff (a : PMapHelper) (p : PointIn2DBlock) (hS : 0 < a.stride)
    (hR : a.kR ≤ a.sR + 2 * a.padding) (hC : a.kC ≤ a.sC + 2 * a.padding)
    (hx : ExactEnds a p) (t : Int × Int) :
    t ∈ _fmap_lower_targets a p ↔
      ∃ i j : Nat, WindowHits p.r a.sR a.kR a.padding a.stride i ∧
        WindowHits p.c a.sC a.kC a.padding a.stride j ∧
        t = (((p.block.b * outR a * outC a + i * outC a + j : Nat) : Int),
             ((p.block.d * a.kR * a.kC + (p.r + a.padding - i * a.stride) * a.kC +
                (p.c + a.padding - j * a.stride) : Nat) : Int)) := by
  unfold _fmap_lower_targets
  simp only [List.mem_map, List.mem_flatMap]
  constructor
  · rintro ⟨⟨r, w⟩, hri, ⟨c, v⟩, hcj, ht⟩
    obtain ⟨i, hw, hr, hi⟩ := (rowIters_mem_iff a hS p.r hx.1 r w).mp hri
    obtain ⟨j, hv, hc, hj⟩ := (colIters_mem_iff a hS p.c hx.2 c v).mp hcj
    refine ⟨i, j, hi, hj, ?_⟩
    subst hw hr hv hc
    rw [lowerTarget_eq a p hR hC i j hi.1 hj.1] at ht
    exact ht.symm
  · rintro ⟨i, j, hi, hj, hk⟩
    refine ⟨((i : Int) * a.stride - a.padding, i), (rowIters_mem_iff a hS p.r hx.1 _ _).mpr
      ⟨i, rfl, rfl, hi⟩, ((j : Int) * a.stride - a.padding, j),
      (colIters_mem_iff a hS p.c hx.2 _ _).mpr ⟨j, rfl, rfl, hj⟩, ?_⟩
    rw [lowerTarget_eq a p hR hC i j hi.1 hj.1, hk]

/-- A window below the window count lies inside the padded axis. -/
theorem window_inside {n k P S m : Nat} (hk : k ≤ n + 2 * P)
    (hm : m < (n + 2 * P - k) / S + 1) : m * S + k ≤ n + 2 * P := by
  have h1 : m ≤ (n + 2 * P - k) / S := by omega
  have h2 : m * S ≤ (n + 2 * P - k) / S * S := Nat.mul_le_mul_right S h1
  have h3 : (n + 2 * P - k) / S * S ≤ n + 2 * P - k := Nat.div_mul_le_self _ _
  omega

/-- The call for an in-range point stores to the cell `(d, kr, kc, b, i, j)` only if
the point is the source of that cell. -/
theorem written_cell_source (a : PMapHelper) (p : PointIn2DBlock) (hS : 0 < a.stride)
    (hR : a.kR ≤ a.sR + 2 * a.padding) (hC : a.kC ≤ a.sC + 2 * a.padding)
    (hx : ExactEnds a p) (hp : InRange a p) {d kr kc b i j : Nat} (hkr : kr < a.kR) (hkc : kc < a.kC)
    (hb : b < a.sB) (hi : i < outR a) (hj : j < outC a)
    (h : ((lowered_index a d kr kc b i j : Nat) : Int) ∈ _fmap_lower_indices a p) :
    p.block.d = d ∧ p.block.b = b ∧ p.r + a.padding = i * a.stride + kr ∧
      p.c + a.padding = j * a.stride + kc := by
  obtain ⟨i', j', hi', hj', hk⟩ := (mem_fmap_lower_indices_iff a p hS hR hC hx _).mp h
  have hk' := Int.ofNat.inj hk
  have hkr' : p.r + a.padding - i' * a.stride < a.kR := by
    have := hi'.2.1; have := hi'.1; omega
  have hkc' : p.c + a.padding - j' * a.stride < a.kC := by
    have := hj'.2.1; have := hj'.1; omega
  obtain ⟨e1, e2, e3, e4, e5, e6⟩ := lowered_index_inj a hkr hkc hb hi hj hkr' hkc' hp.2.2.2
    (hi'.lt_count hS) (hj'.lt_count hS) hk'
  subst e5 e6
  have := hi'.1; have := hj'.1
  exact ⟨e1.symm, e4.symm, by omega, by omega⟩

/-- The call for the source point of the cell `(d, kr, kc, b, i, j)` stores to it. -/
theorem source_writes_cell (a : PMapHelper) (p : PointIn2DBlock) (hS : 0 < a.stride)
    (hR : a.kR ≤ a.sR + 2 * a.padding) (hC : a.kC ≤ a.sC + 2 * a.padding)
    (hx : ExactEnds a p)
    {kr kc i j : Nat} (hkr : kr < a.kR) (hkc : kc < a.kC)
    (hi : i < outR a) (hj : j < outC a)
    (hr : p.r + a.padding = i * a.stride + kr) (hc : p.c + a.padding = j * a.stride + kc) :
    ((lowered_index a p.block.d kr kc p.block.b i j : Nat) : Int) ∈ _fmap_lower_indices a p := by
  rw [mem_fmap_lower_indices_iff a p hS hR hC hx]
  refine ⟨i, j, ⟨by omega, by omega, window_inside hR hi⟩,
    ⟨by omega, by omega, window_inside hC hj⟩, ?_⟩
  have e1 : p.r + a.padding - i * a.stride = kr := by omega
  have e2 : p.c + a.padding - j * a.stride = kc := by omega
  rw [e1, e2]

theorem tensor_points_presents (a : PMapHelper) (x : Tensor) :
    Presents a x (tensor_points a x) := by
  unfold Presents tensor_points
  constructor
  · intro p hp
    simp only [List.mem_flatMap, List.mem_map, List.mem_range] at hp
    obtain ⟨b, hb, d, hd, r, hr, c, hc, rfl⟩ := hp
    exact ⟨⟨hr, hc, hd, hb⟩, rfl⟩
  · intro r c d b hr hc hd hb
    refine ⟨mkPoint r c d b (x r c d b), ?_, rfl, rfl, rfl, rfl⟩
    simp only [List.mem_flatMap, List.mem_map, List.mem_range]
    exact ⟨b, hb, d, hd, r, hr, c, hc, rfl⟩

/-- The content of an in-bounds cell of the lowered matrix after the forward pass over a
sequence of points that presents `x`. -/
theorem lower_points_cell (a : PMapHelper) (hS : 0 < a.stride)
    (hR : a.kR ≤ a.sR + 2 * a.padding) (hC : a.kC ≤ a.sC + 2 * a.padding)
    (hsm : SmallDims a) (x : Tensor) (pts : List PointIn2DBlock) (hpts : Presents a x pts) (out0 : Buffer)
    {d kr kc b i j sr sc : Nat} (hd : d < a.sD) (hkr : kr < a.kR) (hkc : kc < a.kC)
    (hb : b < a.sB) (hi : i < outR a) (hj : j < outC a)
    (hsr : sr + a.padding = i * a.stride + kr) (hsc : sc + a.padding = j * a.stride + kc)
    (hsrR : sr < a.sR) (hscC : sc < a.sC) :
    lower_points a pts out0 ((lowered_index a d kr kc b i j : Nat) : Int) = x sr sc d b := by
  apply lower_points_written
  · intro p hp hmem
    obtain ⟨hin, hdata⟩ := hpts.1 p hp
    obtain ⟨e1, e2, e3, e4⟩ := written_cell_source a p hS hR hC
      (exactEnds_of_small a hsm hR hC p hin) hin hkr hkc hb hi hj hmem
    have e5 : p.r = sr := by omega
    have e6 : p.c = sc := by omega
    rw [hdata, e1, e2, e5, e6]
  · obtain ⟨p, hp, e1, e2, e3, e4⟩ := hpts.2 sr sc d b hsrR hscC hd hb
    refine ⟨p, hp, ?_⟩
    have := source_writes_cell a p hS hR hC
      (exactEnds_of_small a hsm hR hC p (hpts.1 p hp).1) hkr hkc hi hj (by rw [e1]; exact hsr)
      (by rw [e2]; exact hsc)
    rw [e3, e4] at this
    exact this

/-- No call for an in-range point stores to a cell whose source lies in the padding. -/
theorem padding_cell_not_written (a : PMapHelper) (p : PointIn2DBlock) (hS : 0 < a.stride)
    (hR : a.kR ≤ a.sR + 2 * a.padding) (hC : a.kC ≤ a.sC + 2 * a.padding)
    (hx : ExactEnds a p) (hp : InRange a p) {d kr kc b i j : Nat} (hkr : kr < a.kR) (hkc : kc < a.kC)
    (hb : b < a.sB) (hi : i < outR a) (hj : j < outC a)
    (hout : ¬ (a.padding ≤ i * a.stride + kr ∧ i * a.stride + kr < a.sR + a.padding ∧
      a.padding ≤ j * a.stride + kc ∧ j * a.stride + kc < a.sC + a.padding)) :
    ((lowered_index a d kr kc b i j : Nat) : Int) ∉ _fmap_lower_indices a p := by
  intro hmem
  obtain ⟨-, -, e3, e4⟩ := written_cell_source a p hS hR hC hx hp hkr hkc hb hi hj hmem
  apply hout
  have := hp.1; have := hp.2.1
  exact ⟨by omega, by omega, by omega, by omega⟩

theorem forIters_nodup (S r_end : Int) (hS : 0 < S) (fuel : Nat) (r0 i0 : Int) :
    (forIters fuel r0 i0 r_end S).Nodup := by
  have h := (forIters_pairwise S r_end hS fuel r0 i0).1
  exact h.imp (fun {x y} hxy heq => by rw [heq] at hxy; exact lt_irrefl _ hxy)

theorem fmap_lower_indices_eq_product (a : PMapHelper) (p : PointIn2DBlock) :
    _fmap_lower_indices a p =
      (List.product (rowIters a p.r) (colIters a p.c)).map
        (fun q => (lowerTarget a p q.1 q.2).1 + (lowerTarget a p q.1 q.2).2 * lowered_oC a) := by
  unfold _fmap_lower_indices _fmap_lower_targets List.product
  simp only [List.map_flatMap, List.map_map]
  rfl

/-- Within one call of `_fmap_lower` no index is stored to twice. -/
theorem fmap_lower_indices_nodup (a : PMapHelper) (p : PointIn2DBlock) (hS : 0 < a.stride)
    (hR : a.kR ≤ a.sR + 2 * a.padding) (hC : a.kC ≤ a.sC + 2 * a.padding)
    (hx : ExactEnds a p) (hp : InRange a p) : (_fmap_lower_indices a p).Nodup := by
  have hS' : (0 : Int) < a.stride := by exact_mod_cast hS
  rw [fmap_lower_indices_eq_product]
  apply List.Nodup.map_on
  · rintro ⟨⟨r, w⟩, ⟨c, v⟩⟩ hq ⟨⟨r', w'⟩, ⟨c', v'⟩⟩ hq' heq
    rw [List.pair_mem_product] at hq hq'
    obtain ⟨i, hw, hr, hi⟩ := (rowIters_mem_iff a hS p.r hx.1 r w).mp hq.1
    obtain ⟨j, hv, hc, hj⟩ := (colIters_mem_iff a hS p.c hx.2 c v).mp hq.2
    obtain ⟨i', hw', hr', hi'⟩ := (rowIters_mem_iff a hS p.r hx.1 r' w').mp hq'.1
    obtain ⟨j', hv', hc', hj'⟩ := (colIters_mem_iff a hS p.c hx.2 c' v').mp hq'.2
    subst hw hr hv hc hw' hr' hv' hc'
    simp only at heq
    rw [lowerTarget_eq a p hR hC i j hi.1 hj.1, lowerTarget_eq a p hR hC i' j' hi'.1 hj'.1] at heq
    simp only [lowered_oC, output_R_eq a hR, output_C_eq a hC] at heq
    have heq' : lowered_index a p.block.d (p.r + a.padding - i * a.stride)
        (p.c + a.padding - j * a.stride) p.block.b i j =
        lowered_index a p.block.d (p.r + a.padding - i' * a.stride)
        (p.c + a.padding - j' * a.stride) p.block.b i' j' := by
      unfold lowered_index
      have : ∀ u v w : Nat, ((u + v * (a.sB * outR a * outC a) : Nat) : Int) =
          (u : Int) + (v : Int) * ((a.sB : Int) * outR a * outC a) := by
        intro u v w; push_cast; ring
      exact_mod_cast heq
    have b1 := hi.1; have b2 := hi.2.1; have b3 := hj.1; have b4 := hj.2.1
    have b1' := hi'.1; have b2' := hi'.2.1; have b3' := hj'.1; have b4' := hj'.2.1
    obtain ⟨-, -, -, -, e5, e6⟩ := lowered_index_inj a (by omega) (by omega) hp.2.2.2
      (hi.lt_count hS) (hj.lt_count hS) (by omega) (by omega) hp.2.2.2
      (hi'.lt_count hS) (hj'.lt_count hS) heq'
    subst e5 e6
    rfl
  · exact List.Nodup.product (forIters_nodup _ _ hS' _ _ _) (forIters_nodup _ _ hS' _ _ _)

/-- The calls for two in-range points at different positions store to disjoint
sets of indices. -/
theorem fmap_lower_indices_disjoint (a : PMapHelper) (p q : PointIn2DBlock) (hS : 0 < a.stride)
    (hR : a.kR ≤ a.sR + 2 * a.padding) (hC : a.kC ≤ a.sC + 2 * a.padding)
    (hxp : ExactEnds a p) (hxq : ExactEnds a q) (hp : InRange a p) (hq : InRange a q)
    (hne : (p.r, p.c, p.block.d, p.block.b) ≠ (q.r, q.c, q.block.d, q.block.b)) (k : Int)
    (hkp : k ∈ _fmap_lower_indices a p) : k ∉ _fmap_lower_indices a q := by
  intro hkq
  obtain ⟨i, j, hi, hj, hk⟩ := (mem_fmap_lower_indices_iff a p hS hR hC hxp k).mp hkp
  rw [hk] at hkq
  have b1 := hi.1; have b2 := hi.2.1; have b3 := hj.1; have b4 := hj.2.1
  obtain ⟨e1, e2, e3, e4⟩ := written_cell_source a q hS hR hC hxq hq (by omega) (by omega)
    hp.2.2.2 (hi.lt_count hS) (hj.lt_count hS) hkq
  apply hne
  have e5 : p.r = q.r := by omega
  have e6 : p.c = q.c := by omega
  rw [e1, e2, e5, e6]

/-! ## The inverse kernel: loops and counter -/

/-- With a stride of at least 1 the loop `for (cr = 0; cr < stride*n; cr += stride)`
runs its body at `cr = 0, stride, ..., (n-1)*stride`. -/
theorem natIters_eq_aux (S : Nat) (hS : 0 < S) :
    ∀ (m j fuel : Nat), m ≤ fuel →
      natIters fuel (j * S) (S * (j + m)) S = (List.range' j m).map (fun t => t * S) := by
  intro m
  induction m with
  | zero =>
    intro j fuel _
    have hge : ¬ j * S < S * (j + 0) := by rw [Nat.add_zero, Nat.mul_comm]; exact lt_irrefl _
    cases fuel with
    | zero => rfl
    | succ f => unfold natIters; rw [if_neg hge]; rfl
  | succ m ih =>
    intro j fuel hf
    cases fuel with
    | zero => omega
    | succ f =>
      have hlt : j * S < S * (j + (m + 1)) := by
        have : S * (j + (m + 1)) = j * S + S * (m + 1) := by ring
        have : 0 < S * (m + 1) := Nat.mul_pos hS (by omega)
        omega
      unfold natIters
      rw [if_pos hlt]
      have e1 : j * S + S = (j + 1) * S := by ring
      have e2 : S * (j + (m + 1)) = S * ((j + 1) + m) := by ring
      rw [e1, e2, ih (j + 1) f (by omega)]
      simp [List.range'_succ]

theorem natIters_eq (S n : Nat) (hS : 0 < S) :
    natIters (S * n) 0 (S * n) S = (List.range n).map (fun t => t * S) := by
  have h := natIters_eq_aux S hS n 0 (S * n) (Nat.le_mul_of_pos_left n hS)
  simp only [Nat.zero_mul, Nat.zero_add] at h
  rw [h, List.range_eq_range']

/-- A counted loop whose body advances `out_index` by `w`, adds `g` to the buffer and
appends `V` to the snapshots, the three depending on the state only through
`out_index`. -/
theorem foldl_range_spec (f : InvState → Nat → InvState) (w : Nat)
    (g : Nat → Nat → Int → ℚ) (V : Nat → Nat → List InvVisit)
    (h : ∀ st x, (f st x).out_index = st.out_index + w ∧
      (∀ k, (f st x).input_data k = st.input_data k + g st.out_index x k) ∧
      (f st x).visits = st.visits ++ V st.out_index x) :
    ∀ (n : Nat) (st : InvState),
      ((List.range n).foldl f st).out_index = st.out_index + n * w ∧
      (∀ k, ((List.range n).foldl f st).input_data k =
        st.input_data k + ∑ x ∈ Finset.range n, g (st.out_index + x * w) x k) ∧
      ((List.range n).foldl f st).visits =
        st.visits ++ (List.range n).flatMap (fun x => V (st.out_index + x * w) x) := by
  intro n
  induction n with
  | zero => intro st; simp
  | succ n ih =>
    intro st
    obtain ⟨h1, h2, h3⟩ := ih st
    obtain ⟨g1, g2, g3⟩ := h ((List.range n).foldl f st) n
    rw [List.range_succ, List.foldl_append, List.foldl_cons, List.foldl_nil]
    refine ⟨?_, ?_, ?_⟩
    · rw [g1, h1]; ring
    · intro k
      rw [g2, h2, h1, Finset.sum_range_succ]; ring
    · rw [g3, h3, h1, List.flatMap_append]
      simp [List.append_assoc]

theorem inverse_cell_spec (arg : _inverse_lower_cube_arg_helper) (output_data : Nat → ℚ)
    (kr kc ib i : Nat) (st : InvState) (j : Nat) (hrow : inv_row_ok arg kr i) :
    let r := inverse_cell arg output_data kr kc ib (i * arg.stride)
      ((((i * arg.stride : Nat) : Int) + kr - arg.padding) * arg.iC)
      ((ib : Int) * arg.iR * arg.iC * arg.iD) st (j * arg.stride)
    r.out_index = st.out_index + 1 ∧
    (∀ k, r.input_data k = st.input_data k +
      inv_term arg output_data kr kc ib i j st.out_index k) ∧
    r.visits = st.visits ++
      [⟨kr, kc, ib, i * arg.stride, j * arg.stride, st.out_index⟩] := by
  refine ⟨rfl, ?_, rfl⟩
  intro k
  unfold inverse_cell inv_term
  simp only
  by_cases hcol : inv_col_ok arg kc j
  · have hcol' := hcol
    unfold inv_col_ok at hcol'
    rw [if_pos hcol']
    by_cases hk : k = inv_cell_index arg kr kc ib i j
    · rw [if_pos ⟨hrow, hcol, hk⟩]
      unfold inv_cell_index at hk
      unfold store
      rw [if_pos hk, hk]
    · rw [if_neg (fun h => hk h.2.2)]
      unfold inv_cell_index at hk
      unfold store
      rw [if_neg hk, add_zero]
  · have hcol' := hcol
    unfold inv_col_ok at hcol'
    rw [if_neg hcol', if_neg (fun h => hcol h.2.1)]
    simp

theorem inverse_row_spec (arg : _inverse_lower_cube_arg_helper) (hS : 0 < arg.stride)
    (output_data : Nat → ℚ) (kr kc ib : Nat) (st : InvState) (i : Nat) :
    (inverse_row arg output_data kr kc ib ((ib : Int) * arg.iR * arg.iC * arg.iD) st
        (i * arg.stride)).out_index = st.out_index + arg.data_output_height ∧
    (∀ k, (inverse_row arg output_data kr kc ib ((ib : Int) * arg.iR * arg.iC * arg.iD) st
        (i * arg.stride)).input_data k = st.input_data k +
      ∑ j ∈ Finset.range arg.data_output_height,
        inv_term arg output_data kr kc ib i j (st.out_index + j) k) ∧
    (inverse_row arg output_data kr kc ib ((ib : Int) * arg.iR * arg.iC * arg.iD) st
        (i * arg.stride)).visits = st.visits ++ row_visits arg kr kc ib i st.out_index := by
  unfold inverse_row row_visits
  simp only
  by_cases hrow : inv_row_ok arg kr i
  · have hrow' := hrow
    unfold inv_row_ok at hrow'
    rw [if_pos hrow', if_pos hrow, natIters_eq _ _ hS, List.foldl_map]
    have := foldl_range_spec
      (fun st j => inverse_cell arg output_data kr kc ib (i * arg.stride)
        ((((i * arg.stride : Nat) : Int) + kr - arg.padding) * arg.iC)
        ((ib : Int) * arg.iR * arg.iC * arg.iD) st (j * arg.stride)) 1
      (fun n j k => inv_term arg output_data kr kc ib i j n k)
      (fun n j => [⟨kr, kc, ib, i * arg.stride, j * arg.stride, n⟩])
      (fun st j => inverse_cell_spec arg output_data kr kc ib i st j hrow)
      arg.data_output_height st
    simpa using this
  · have hrow' := hrow
    unfold inv_row_ok at hrow'
    rw [if_neg hrow', if_neg hrow]
    refine ⟨rfl, ?_, by simp⟩
    intro k
    have : ∀ j ∈ Finset.range arg.data_output_height,
        inv_term arg output_data kr kc ib i j (st.out_index + j) k = 0 := by
      intro j _
      unfold inv_term
      rw [if_neg (fun h => hrow h.1)]
    rw [Finset.sum_eq_zero this, add_zero]

theorem inverse_batch_spec (arg : _inverse_lower_cube_arg_helper) (hS : 0 < arg.stride)
    (output_data : Nat → ℚ) (kr kc : Nat) (st : InvState) (ib : Nat) :
    (inverse_batch arg output_data kr kc st ib).out_index =
      st.out_index + arg.data_output_width * arg.data_output_height ∧
    (∀ k, (inverse_batch arg output_data kr kc st ib).input_data k = st.input_data k +
      ∑ i ∈ Finset.range arg.data_output_width, ∑ j ∈ Finset.range arg.data_output_height,
        inv_term arg output_data kr kc ib i j
          (st.out_index + i * arg.data_output_height + j) k) ∧
    (inverse_batch arg output_data kr kc st ib).visits = st.visits ++
      (List.range arg.data_output_width).flatMap
        (fun i => row_visits arg kr kc ib i (st.out_index + i * arg.data_output_height)) := by
  unfold inverse_batch
  simp only
  rw [natIters_eq _ _ hS, List.foldl_map]
  exact foldl_range_spec
    (fun st i => inverse_row arg output_data kr kc ib ((ib : Int) * arg.iR * arg.iC * arg.iD)
      st (i * arg.stride)) arg.data_output_height
    (fun n i k => ∑ j ∈ Finset.range arg.data_output_height,
      inv_term arg output_data kr kc ib i j (n + j) k)
    (fun n i => row_visits arg kr kc ib i n)
    (fun st i => inverse_row_spec arg hS output_data kr kc ib st i)
    arg.data_output_width st

theorem inv_counter_eq (arg : _inverse_lower_cube_arg_helper) (kr kc ib i j : Nat) :
    0 + kr * (arg.kernel_size * (arg.iB * (arg.data_output_width * arg.data_output_height)))
      + kc * (arg.iB * (arg.data_output_width * arg.data_output_height))
      + ib * (arg.data_output_width * arg.data_output_height)
      + i * arg.data_output_height + j = inv_counter arg kr kc ib i j := by
  unfold inv_counter; ring

theorem inv_counter_eq_zero (arg : _inverse_lower_cube_arg_helper) (kr kc ib i : Nat) :
    0 + kr * (arg.kernel_size * (arg.iB * (arg.data_output_width * arg.data_output_height)))
      + kc * (arg.iB * (arg.data_output_width * arg.data_output_height))
      + ib * (arg.data_output_width * arg.data_output_height)
      + i * arg.data_output_height = inv_counter arg kr kc ib i 0 := by
  unfold inv_counter; ring

/-- The final state of the inverse kernel for a stride of at least 1: the counter, the
buffer and the snapshots in closed form. -/
theorem inverse_state_spec (arg : _inverse_lower_cube_arg_helper) (hS : 0 < arg.stride)
    (input : Buffer) (output_data : Nat → ℚ) :
    (_f_inverse_lower_cube_state input output_data arg).out_index =
      arg.kernel_size * arg.kernel_size * arg.iB * arg.data_output_width *
        arg.data_output_height ∧
    (∀ k, (_f_inverse_lower_cube_state input output_data arg).input_data k = input k +
      ∑ kr ∈ Finset.range arg.kernel_size, ∑ kc ∈ Finset.range arg.kernel_size,
        ∑ ib ∈ Finset.range arg.iB, ∑ i ∈ Finset.range arg.data_output_width,
          ∑ j ∈ Finset.range arg.data_output_height,
            inv_term arg output_data kr kc ib i j (inv_counter arg kr kc ib i j) k) ∧
    (_f_inverse_lower_cube_state input output_data arg).visits =
      (List.range arg.kernel_size).flatMap fun kr =>
        (List.range arg.kernel_size).flatMap fun kc =>
          (List.range arg.iB).flatMap fun ib =>
            (List.range arg.data_output_width).flatMap fun i =>
              row_visits arg kr kc ib i (inv_counter arg kr kc ib i 0) := by
  have hb := fun kr kc => foldl_range_spec (inverse_batch arg output_data kr kc)
    (arg.data_output_width * arg.data_output_height)
    (fun n ib k => ∑ i ∈ Finset.range arg.data_output_width,
      ∑ j ∈ Finset.range arg.data_output_height,
        inv_term arg output_data kr kc ib i j (n + i * arg.data_output_height + j) k)
    (fun n ib => (List.range arg.data_output_width).flatMap
      (fun i => row_visits arg kr kc ib i (n + i * arg.data_output_height)))
    (fun st ib => inverse_batch_spec arg hS output_data kr kc st ib) arg.iB
  have hc := fun kr => foldl_range_spec
    (fun st kc => (List.range arg.iB).foldl (inverse_batch arg output_data kr kc) st)
    (arg.iB * (arg.data_output_width * arg.data_output_height))
    (fun n kc k => ∑ ib ∈ Finset.range arg.iB, ∑ i ∈ Finset.range arg.data_output_width,
      ∑ j ∈ Finset.range arg.data_output_height,
        inv_term arg output_data kr kc ib i j
          (n + ib * (arg.data_output_width * arg.data_output_height)
            + i * arg.data_output_height + j) k)
    (fun n kc => (List.range arg.iB).flatMap fun ib =>
      (List.range arg.data_output_width).flatMap
        (fun i => row_visits arg kr kc ib i
          (n + ib * (arg.data_output_width * arg.data_output_height)
            + i * arg.data_output_height)))
    (fun st kc => hb kr kc st) arg.kernel_size
  have hr := foldl_range_spec
    (fun st kr => (List.range arg.kernel_size).foldl
      (fun st kc => (List.range arg.iB).foldl (inverse_batch arg output_data kr kc) st) st)
    (arg.kernel_size * (arg.iB * (arg.data_output_width * arg.data_output_height)))
    (fun n kr k => ∑ kc ∈ Finset.range arg.kernel_size, ∑ ib ∈ Finset.range arg.iB,
      ∑ i ∈ Finset.range arg.data_output_width, ∑ j ∈ Finset.range arg.data_output_height,
        inv_term arg output_data kr kc ib i j
          (n + kc * (arg.iB * (arg.data_output_width * arg.data_output_height))
            + ib * (arg.data_output_width * arg.data_output_height)
            + i * arg.data_output_height + j) k)
    (fun n kr => (List.range arg.kernel_size).flatMap fun kc =>
      (List.range arg.iB).flatMap fun ib =>
        (List.range arg.data_output_width).flatMap
          (fun i => row_visits arg kr kc ib i
            (n + kc * (arg.iB * (arg.data_output_width * arg.data_output_height))
              + ib * (arg.data_output_width * arg.data_output_height)
              + i * arg.data_output_height)))
    (fun st kr => hc kr st) arg.kernel_size
    { input_data := input, out_index := 0, visits := [] }
  obtain ⟨h1, h2, h3⟩ := hr
  unfold _f_inverse_lower_cube_state
  refine ⟨?_, ?_, ?_⟩
  · rw [h1]; ring
  · intro k
    rw [h2 k]
    simp only [inv_counter_eq]
  · rw [h3]
    simp only [inv_counter_eq_zero, List.nil_append]

/-! ## The inverse kernel: cells of the slab -/

/-- A cell index of the slab determines batch, row and column (for a depth `iD ≥ 1`). -/
theorem slab_index_inj {iR iC iD : Nat} (hD : 0 < iD) {c r b c' r' b' : Nat}
    (hc : c < iC) (hr : r < iR) (hc' : c' < iC) (hr' : r' < iR)
    (h : c + r * iC + b * (iR * iC * iD) = c' + r' * iC + b' * (iR * iC * iD)) :
    c = c' ∧ r = r' ∧ b = b' := by
  have h1 : c + r * iC < iR * iC := two_digit_lt hc hr
  have h1' : c' + r' * iC < iR * iC := two_digit_lt hc' hr'
  have hle : iR * iC ≤ iR * iC * iD := Nat.le_mul_of_pos_right _ hD
  obtain ⟨e1, e2⟩ := radix_inj (lt_of_lt_of_le h1 hle) (lt_of_lt_of_le h1' hle) h
  obtain ⟨e3, e4⟩ := radix_inj hc hc' e1
  exact ⟨e3, e4, e2⟩

/-- What one loop-body execution adds to the cell `(b, r, c)` of the slab. -/
theorem inv_term_cell (arg : _inverse_lower_cube_arg_helper) (hD : 0 < arg.iD)
    (output_data : Nat → ℚ) (kr kc ib i j n : Nat) {b r c : Nat}
    (hr : r < arg.iR) (hc : c < arg.iC) :
    inv_term arg output_data kr kc ib i j n
        ((c : Int) + (r : Int) * arg.iC + (b : Int) * arg.iR * arg.iC * arg.iD) =
      if ib = b ∧ ((i : Int) * arg.stride + kr - arg.padding = r ∧
        (j : Int) * arg.stride + kc - arg.padding = c) then output_data n else 0 := by
  unfold inv_term
  by_cases h : ib = b ∧ ((i : Int) * arg.stride + kr - arg.padding = r ∧
      (j : Int) * arg.stride + kc - arg.padding = c)
  · rw [if_pos h, if_pos]
    obtain ⟨rfl, h1, h2⟩ := h
    refine ⟨?_, ?_, ?_⟩
    · unfold inv_row_ok; push_cast; omega
    · unfold inv_col_ok; push_cast; omega
    · unfold inv_cell_index; push_cast; rw [h1, h2]
  · rw [if_neg h, if_neg]
    rintro ⟨h1, h2, h3⟩
    apply h
    unfold inv_row_ok at h1
    unfold inv_col_ok at h2
    unfold inv_cell_index at h3
    push_cast at h1 h2 h3
    obtain ⟨r', hr'⟩ := Int.eq_ofNat_of_zero_le h1.1
    obtain ⟨c', hc'⟩ := Int.eq_ofNat_of_zero_le h2.1
    rw [hr'] at h1 h3
    rw [hc'] at h2 h3
    have h3' : c + r * arg.iC + b * (arg.iR * arg.iC * arg.iD) =
        c' + r' * arg.iC + ib * (arg.iR * arg.iC * arg.iD) := by
      zify
      linear_combination h3
    obtain ⟨e1, e2, e3⟩ := slab_index_inj hD hc hr (by omega) (by omega) h3'
    exact ⟨e3.symm, by rw [hr', e2], by rw [hc', e1]⟩

/-- The content of cell `(b, r, c)` of the slab when the inverse kernel returns, for a
stride of at least 1 and a depth of at least 1. -/
theorem inverse_cell_value (arg : _inverse_lower_cube_arg_helper) (hS : 0 < arg.stride)
    (hD : 0 < arg.iD) (input : Buffer) (output_data : Nat → ℚ) {b r c : Nat}
    (hb : b < arg.iB) (hr : r < arg.iR) (hc : c < arg.iC) :
    _f_inverse_lower_cube input output_data arg
        ((c : Int) + (r : Int) * arg.iC + (b : Int) * arg.iR * arg.iC * arg.iD) =
      input ((c : Int) + (r : Int) * arg.iC + (b : Int) * arg.iR * arg.iC * arg.iD) +
      ∑ kr ∈ Finset.range arg.kernel_size, ∑ kc ∈ Finset.range arg.kernel_size,
        ∑ i ∈ Finset.range arg.data_output_width, ∑ j ∈ Finset.range arg.data_output_height,
          if (i : Int) * arg.stride + kr - arg.padding = r ∧
              (j : Int) * arg.stride + kc - arg.padding = c
          then output_data (inv_counter arg kr kc b i j) else 0 := by
  unfold _f_inverse_lower_cube
  rw [(inverse_state_spec arg hS input output_data).2.1]
  congr 1
  apply Finset.sum_congr rfl
  intro kr _
  apply Finset.sum_congr rfl
  intro kc _
  rw [Finset.sum_eq_single b]
  · apply Finset.sum_congr rfl
    intro i _
    apply Finset.sum_congr rfl
    intro j _
    rw [inv_term_cell arg hD output_data kr kc b i j _ hr hc]
    simp
  · intro ib _ hne
    apply Finset.sum_eq_zero
    intro i _
    apply Finset.sum_eq_zero
    intro j _
    rw [inv_term_cell arg hD output_data kr kc ib i j _ hr hc, if_neg (fun h => hne h.1)]
  · intro hnb
    exact absurd (Finset.mem_range.mpr hb) hnb

theorem sum4_swap (f : Nat → Nat → Nat → Nat → ℚ) (A B C D : Finset Nat) :
    ∑ a ∈ A, ∑ b ∈ B, ∑ c ∈ C, ∑ d ∈ D, f a b c d =
      ∑ c ∈ C, ∑ d ∈ D, ∑ a ∈ A, ∑ b ∈ B, f a b c d := by
  calc ∑ a ∈ A, ∑ b ∈ B, ∑ c ∈ C, ∑ d ∈ D, f a b c d
      = ∑ a ∈ A, ∑ c ∈ C, ∑ b ∈ B, ∑ d ∈ D, f a b c d :=
        Finset.sum_congr rfl (fun a _ => Finset.sum_comm)
    _ = ∑ c ∈ C, ∑ a ∈ A, ∑ b ∈ B, ∑ d ∈ D, f a b c d := Finset.sum_comm
    _ = ∑ c ∈ C, ∑ a ∈ A, ∑ d ∈ D, ∑ b ∈ B, f a b c d :=
        Finset.sum_congr rfl (fun c _ => Finset.sum_congr rfl (fun a _ => Finset.sum_comm))
    _ = ∑ c ∈ C, ∑ d ∈ D, ∑ a ∈ A, ∑ b ∈ B, f a b c d :=
        Finset.sum_congr rfl (fun c _ => Finset.sum_comm)

/-- A kernel offset below `K` that lands window `i` on position `r` exists exactly when
the window covers `r`, and then it is `r + P - i*S`. -/
theorem offset_iff_covers (K S P i r kr : Nat) :
    (kr < K ∧ (i : Int) * S + kr - P = r) ↔ (covers K S P i r ∧ kr = r + P - i * S) := by
  unfold covers
  constructor
  · rintro ⟨h1, h2⟩
    refine ⟨⟨by omega, by omega⟩, ?_⟩
    zify at h1 ⊢
    have : i * S ≤ r + P := by zify; omega
    rw [Nat.cast_sub this]; push_cast; omega
  · rintro ⟨⟨h1, h2⟩, h3⟩
    have : i * S ≤ r + P := by zify; omega
    zify [this] at h3
    constructor
    · zify; omega
    · omega

/-- The sum over the kernel offsets that land window `(i, j)` on the cell `(r, c)`. -/
theorem sum_offsets (K S P i j r c : Nat) (v : ℚ) :
    (∑ kr ∈ Finset.range K, ∑ kc ∈ Finset.range K,
      if (i : Int) * S + kr - P = r ∧ (j : Int) * S + kc - P = c then v else 0) =
      if covers K S P i r ∧ covers K S P j c then v else 0 := by
  by_cases h : covers K S P i r ∧ covers K S P j c
  · rw [if_pos h]
    have hr := (offset_iff_covers K S P i r (r + P - i * S)).mpr ⟨h.1, rfl⟩
    have hc := (offset_iff_covers K S P j c (c + P - j * S)).mpr ⟨h.2, rfl⟩
    rw [Finset.sum_eq_single (r + P - i * S)]
    · rw [Finset.sum_eq_single (c + P - j * S)]
      · rw [if_pos ⟨hr.2, hc.2⟩]
      · intro kc hkc hne
        rw [if_neg]
        rintro ⟨-, h2⟩
        exact hne ((offset_iff_covers K S P j c kc).mp ⟨Finset.mem_range.mp hkc, h2⟩).2
      · intro hn
        exact absurd (Finset.mem_range.mpr hc.1) hn
    · intro kr hkr hne
      apply Finset.sum_eq_zero
      intro kc _
      rw [if_neg]
      rintro ⟨h1, -⟩
      exact hne ((offset_iff_covers K S P i r kr).mp ⟨Finset.mem_range.mp hkr, h1⟩).2
    · intro hn
      exact absurd (Finset.mem_range.mpr hr.1) hn
  · rw [if_neg h]
    apply Finset.sum_eq_zero
    intro kr hkr
    apply Finset.sum_eq_zero
    intro kc hkc
    rw [if_neg]
    rintro ⟨h1, h2⟩
    exact h ⟨((offset_iff_covers K S P i r kr).mp ⟨Finset.mem_range.mp hkr, h1⟩).1,
      ((offset_iff_covers K S P j c kc).mp ⟨Finset.mem_range.mp hkc, h2⟩).1⟩

/-- If every contributing entry of the lowered buffer holds `v`, the contributions to the
cell `(r, c)` add up to `v` times the number of windows covering the cell. -/
theorem sum_windows (K S P ow oh r c : Nat) (g : Nat → Nat → Nat → Nat → ℚ) (v : ℚ)
    (hg : ∀ kr kc i j, kr < K → kc < K → i < ow → j < oh →
      (i : Int) * S + kr - P = r → (j : Int) * S + kc - P = c → g kr kc i j = v) :
    (∑ kr ∈ Finset.range K, ∑ kc ∈ Finset.range K,
      ∑ i ∈ Finset.range ow, ∑ j ∈ Finset.range oh,
        if (i : Int) * S + kr - P = r ∧ (j : Int) * S + kc - P = c then g kr kc i j else 0) =
      (cover_count K S P ow oh r c : ℚ) * v := by
  have e1 : (∑ kr ∈ Finset.range K, ∑ kc ∈ Finset.range K,
      ∑ i ∈ Finset.range ow, ∑ j ∈ Finset.range oh,
        if (i : Int) * S + kr - P = r ∧ (j : Int) * S + kc - P = c then g kr kc i j else 0) =
      ∑ kr ∈ Finset.range K, ∑ kc ∈ Finset.range K,
      ∑ i ∈ Finset.range ow, ∑ j ∈ Finset.range oh,
        if (i : Int) * S + kr - P = r ∧ (j : Int) * S + kc - P = c then v else 0 := by
    apply Finset.sum_congr rfl; intro kr hkr
    apply Finset.sum_congr rfl; intro kc hkc
    apply Finset.sum_congr rfl; intro i hi
    apply Finset.sum_congr rfl; intro j hj
    by_cases h : (i : Int) * S + kr - P = r ∧ (j : Int) * S + kc - P = c
    · rw [if_pos h, if_pos h]
      exact hg kr kc i j (Finset.mem_range.mp hkr) (Finset.mem_range.mp hkc)
        (Finset.mem_range.mp hi) (Finset.mem_range.mp hj) h.1 h.2
    · rw [if_neg h, if_neg h]
  rw [e1, sum4_swap]
  have e2 : ∀ i ∈ Finset.range ow, ∀ j ∈ Finset.range oh,
      (∑ kr ∈ Finset.range K, ∑ kc ∈ Finset.range K,
        if (i : Int) * S + kr - P = r ∧ (j : Int) * S + kc - P = c then v else 0) =
      if covers K S P i r ∧ covers K S P j c then v else 0 :=
    fun i _ j _ => sum_offsets K S P i j r c v
  rw [Finset.sum_congr rfl (fun i hi => Finset.sum_congr rfl (fun j hj => e2 i hi j hj))]
  rw [← Finset.sum_product', ← Finset.sum_filter, Finset.sum_const, nsmul_eq_mul]
  rfl

/-- The inverse kernel changes only cells of the slab: an index that is no
`c + r*iC + b*iR*iC*iD` with `c < iC`, `r < iR`, `b < iB` keeps its content. -/
theorem inverse_frame (arg : _inverse_lower_cube_arg_helper) (hS : 0 < arg.stride)
    (input : Buffer) (output_data : Nat → ℚ) (k : Int)
    (hk : ∀ b r c : Nat, b < arg.iB → r < arg.iR → c < arg.iC →
      k ≠ (c : Int) + (r : Int) * arg.iC + (b : Int) * arg.iR * arg.iC * arg.iD) :
    _f_inverse_lower_cube input output_data arg k = input k := by
  unfold _f_inverse_lower_cube
  rw [(inverse_state_spec arg hS input output_data).2.1]
  have : (∑ kr ∈ Finset.range arg.kernel_size, ∑ kc ∈ Finset.range arg.kernel_size,
        ∑ ib ∈ Finset.range arg.iB, ∑ i ∈ Finset.range arg.data_output_width,
          ∑ j ∈ Finset.range arg.data_output_height,
            inv_term arg output_data kr kc ib i j (inv_counter arg kr kc ib i j) k) = 0 := by
    apply Finset.sum_eq_zero; intro kr _
    apply Finset.sum_eq_zero; intro kc _
    apply Finset.sum_eq_zero; intro ib hib
    apply Finset.sum_eq_zero; intro i _
    apply Finset.sum_eq_zero; intro j _
    unfold inv_term
    rw [if_neg]
    rintro ⟨h1, h2, h3⟩
    unfold inv_row_ok at h1
    unfold inv_col_ok at h2
    unfold inv_cell_index at h3
    obtain ⟨r', hr'⟩ := Int.eq_ofNat_of_zero_le h1.1
    obtain ⟨c', hc'⟩ := Int.eq_ofNat_of_zero_le h2.1
    rw [hr'] at h1 h3
    rw [hc'] at h2 h3
    exact hk ib r' c' (Finset.mem_range.mp hib) (by omega) (by omega) h3
  rw [this, add_zero]

/-- A cell of the tensor determines its coordinates. -/
theorem tensor_index_inj (a : PMapHelper) {r c d b r' c' d' b' : Nat}
    (hr : r < a.sR) (hc : c < a.sC) (hd : d < a.sD)
    (hr' : r' < a.sR) (hc' : c' < a.sC) (hd' : d' < a.sD)
    (h : tensor_index a r c d b = tensor_index a r' c' d' b') :
    r = r' ∧ c = c' ∧ d = d' ∧ b = b' := by
  unfold tensor_index at h
  have h' : (c + r * a.sC + d * (a.sR * a.sC)) + b * (a.sD * (a.sR * a.sC)) =
      (c' + r' * a.sC + d' * (a.sR * a.sC)) + b' * (a.sD * (a.sR * a.sC)) := by
    zify; linear_combination h
  have h1 : c + r * a.sC < a.sR * a.sC := two_digit_lt hc hr
  have h1' : c' + r' * a.sC < a.sR * a.sC := two_digit_lt hc' hr'
  have h2 : (c + r * a.sC) + d * (a.sR * a.sC) < a.sD * (a.sR * a.sC) := two_digit_lt h1 hd
  have h2' : (c' + r' * a.sC) + d' * (a.sR * a.sC) < a.sD * (a.sR * a.sC) :=
    two_digit_lt h1' hd'
  obtain ⟨e1, e2⟩ := radix_inj h2 h2' h'
  obtain ⟨e3, e4⟩ := radix_inj h1 h1' e1
  obtain ⟨e5, e6⟩ := radix_inj hc hc' e3
  exact ⟨e6, e5, e4, e2⟩

/-- One step of `inverse_lower_slabs`: the kernel applied to slab `d`. -/
theorem slab_step_apply (a : PMapHelper) (hS : 0 < a.stride) (lowered g : Buffer)
    {r c d b : Nat} (hr : r < a.sR) (hc : c < a.sC) (hd : d < a.sD)
    (d' : Nat) (hd' : d' < a.sD) :
    _f_inverse_lower_cube (fun n => g ((d' : Int) * a.sR * a.sC + n))
        (fun n => lowered ((d' : Int) * a.kR * a.kR * ((a.sB : Int) * outR a * outC a) + n))
        (inverse_arg a) (tensor_index a r c d b - (d' : Int) * a.sR * a.sC) =
      if d' = d then
        _f_inverse_lower_cube (fun n => g ((d : Int) * a.sR * a.sC + n))
          (fun n => lowered ((d : Int) * a.kR * a.kR * ((a.sB : Int) * outR a * outC a) + n))
          (inverse_arg a) ((c : Int) + (r : Int) * a.sC + (b : Int) * a.sR * a.sC * a.sD)
      else g (tensor_index a r c d b) := by
  by_cases h : d' = d
  · subst h
    rw [if_pos rfl]
    congr 1
    unfold tensor_index; ring
  · rw [if_neg h, inverse_frame (inverse_arg a) hS]
    · simp
    · intro b' r' c' hb' hr' hc' heq
      simp only [inverse_arg] at hb' hr' hc' heq
      have : tensor_index a r c d b = tensor_index a r' c' d' b' := by
        unfold tensor_index at heq ⊢; linear_combination heq
      exact h (tensor_index_inj a hr hc hd hr' hc' hd' this).2.2.1.symm

/-- The cell `(r, c, d, b)` after the kernel has been run on a list of distinct depth
slabs, when the call for slab `d` adds `Cd` to the cell whatever the slab held. -/
theorem slabs_fold_cell (a : PMapHelper) (hS : 0 < a.stride) (lowered : Buffer)
    {r c d b : Nat} (hr : r < a.sR) (hc : c < a.sC) (hd : d < a.sD) (Cd : ℚ)
    (hCd : ∀ g : Buffer,
      _f_inverse_lower_cube (fun n => g ((d : Int) * a.sR * a.sC + n))
        (fun n => lowered ((d : Int) * a.kR * a.kR * ((a.sB : Int) * outR a * outC a) + n))
        (inverse_arg a) ((c : Int) + (r : Int) * a.sC + (b : Int) * a.sR * a.sC * a.sD) =
      g (tensor_index a r c d b) + Cd) :
    ∀ (L : List Nat) (g : Buffer), L.Nodup → (∀ d' ∈ L, d' < a.sD) →
      (L.foldl (fun (g : Buffer) (d' : Nat) =>
        let off : Int := (d' : Int) * a.sR * a.sC
        let res := _f_inverse_lower_cube (fun n => g (off + n))
          (fun n => lowered ((d' : Int) * a.kR * a.kR * ((a.sB : Int) * outR a * outC a) + n))
          (inverse_arg a)
        fun n => res (n - off)) g) (tensor_index a r c d b) =
      g (tensor_index a r c d b) + if d ∈ L then Cd else 0 := by
  intro L
  induction L with
  | nil => intro g _ _; simp
  | cons d' L ih =>
    intro g hnd hlt
    rw [List.foldl_cons, ih _ (List.nodup_cons.mp hnd).2
      (fun e he => hlt e (List.mem_cons_of_mem _ he))]
    rw [slab_step_apply a hS lowered g hr hc hd d' (hlt d' (List.mem_cons_self _ _))]
    by_cases h : d' = d
    · subst h
      rw [if_pos rfl, hCd g, if_neg (List.nodup_cons.mp hnd).1,
        if_pos (List.mem_cons_self _ _), add_zero]
    · rw [if_neg h]
      by_cases hm : d ∈ L
      · rw [if_pos hm, if_pos (List.mem_cons_of_mem _ hm)]
      · rw [if_neg hm, if_neg]
        intro hmem
        rcases List.mem_cons.mp hmem with e | e
        · exact h e.symm
        · exact hm e

/-- The indices a call stores to depend on the point only through its position. -/
theorem fmap_lower_indices_congr (a : PMapHelper) (p q : PointIn2DBlock)
    (hr : p.r = q.r) (hc : p.c = q.c) (hd : p.block.d = q.block.d)
    (hb : p.block.b = q.block.b) : _fmap_lower_indices a p = _fmap_lower_indices a q := by
  unfold _fmap_lower_indices _fmap_lower_targets lowerTarget
  rw [hr, hc, hd, hb]

/-- The forward pass does not depend on the order of the calls: two sequences of points
that present the same tensor give the same buffer. -/
theorem lower_points_order_irrelevant (a : PMapHelper) (hS : 0 < a.stride)
    (hR : a.kR ≤ a.sR + 2 * a.padding) (hC : a.kC ≤ a.sC + 2 * a.padding)
    (hsm : SmallDims a) (x : Tensor) (pts pts' : List PointIn2DBlock) (hpts : Presents a x pts)
    (hpts' : Presents a x pts') (out0 : Buffer) :
    lower_points a pts out0 = lower_points a pts' out0 := by
  have same : ∀ (l l' : List PointIn2DBlock), Presents a x l → Presents a x l' →
      ∀ n p, p ∈ l → n ∈ _fmap_lower_indices a p →
        lower_points a l out0 n = p.data ∧ lower_points a l' out0 n = p.data := by
    intro l l' hl hl' n p hp hn
    have huniq : ∀ (m : List PointIn2DBlock), Presents a x m → ∀ q ∈ m,
        n ∈ _fmap_lower_indices a q → q.data = p.data := by
      intro m hm q hq hnq
      have hqin := (hm.1 q hq).1
      have hpin := (hl.1 p hp).1
      by_cases hne : (q.r, q.c, q.block.d, q.block.b) = (p.r, p.c, p.block.d, p.block.b)
      · obtain ⟨e1, e2, e3, e4⟩ : q.r = p.r ∧ q.c = p.c ∧ q.block.d = p.block.d ∧
            q.block.b = p.block.b := by
          simpa using hne
        rw [(hm.1 q hq).2, (hl.1 p hp).2, e1, e2, e3, e4]
      · exact absurd hn (fmap_lower_indices_disjoint a q p hS hR hC
          (exactEnds_of_small a hsm hR hC q hqin) (exactEnds_of_small a hsm hR hC p hpin)
          hqin hpin hne n hnq)
    constructor
    · exact lower_points_written a n p.data l out0 (huniq l hl) ⟨p, hp, hn⟩
    · obtain ⟨hpr, hpc, hpd, hpb⟩ := (hl.1 p hp).1
      obtain ⟨q, hq, e1, e2, e3, e4⟩ := hl'.2 p.r p.c p.block.d p.block.b hpr hpc hpd hpb
      refine lower_points_written a n p.data l' out0 (huniq l' hl') ⟨q, hq, ?_⟩
      rw [fmap_lower_indices_congr a q p e1 e2 e3 e4]
      exact hn
  funext n
  by_cases h : ∃ p ∈ pts, n ∈ _fmap_lower_indices a p
  · obtain ⟨p, hp, hn⟩ := h
    obtain ⟨e1, e2⟩ := same pts pts' hpts hpts' n p hp hn
    rw [e1, e2]
  · by_cases h' : ∃ p ∈ pts', n ∈ _fmap_lower_indices a p
    · obtain ⟨p, hp, hn⟩ := h'
      obtain ⟨e1, e2⟩ := same pts' pts hpts' hpts n p hp hn
      rw [e1, e2]
    · rw [lower_points_untouched a n pts out0 (fun p hp hn => h ⟨p, hp, hn⟩),
        lower_points_untouched a n pts' out0 (fun p hp hn => h' ⟨p, hp, hn⟩)]

/-- The window loops of the inverse kernel end because their guard fails: with a stride
of at least 1, more fuel than `stride*n` gives the same iterations. -/
theorem natIters_fuel_stable (S n fuel : Nat) (hS : 0 < S) (hf : S * n ≤ fuel) :
    natIters fuel 0 (S * n) S = natIters (S * n) 0 (S * n) S := by
  have h1 := natIters_eq_aux S hS n 0 fuel (le_trans (Nat.le_mul_of_pos_left n hS) hf)
  have h2 := natIters_eq_aux S hS n 0 (S * n) (Nat.le_mul_of_pos_left n hS)
  simp only [Nat.zero_mul, Nat.zero_add] at h1 h2
  rw [h1, h2]

/-- With stride 0 the window loops of the inverse kernel do not run, whatever the fuel. -/
theorem natIters_stride_zero (n fuel : Nat) : natIters fuel 0 (0 * n) 0 = [] := by
  cases fuel with
  | zero => rfl
  | succ f => simp [natIters]

/-! ## The padded 2 × 2 scenario -/

/-- In the padded 2 × 2 scenario (`K = 2`, `S = 1`, `P = 1`) the indices a call stores to
are those of the call for the point at the same position of block `(0, 0)`. -/
theorem padded_scenario_indices (p : PointIn2DBlock) (hp : InRange (config 2 1 1 2 2 1 1) p) :
    (p.r = 0 ∨ p.r = 1) ∧ (p.c = 0 ∨ p.c = 1) ∧
    _fmap_lower_indices (config 2 1 1 2 2 1 1) p =
      _fmap_lower_indices (config 2 1 1 2 2 1 1) (mkPoint p.r p.c 0 0 0) := by
  obtain ⟨h1, h2, h3, h4⟩ := hp
  simp only [config] at h1 h2 h3 h4
  refine ⟨by omega, by omega, ?_⟩
  exact fmap_lower_indices_congr _ p _ rfl rfl (by show p.block.d = 0; omega)
    (by show p.block.b = 0; omega)

/-- The indices stored to by the four calls of the padded 2 × 2 scenario. -/
theorem padded_scenario_lists :
    _fmap_lower_indices (config 2 1 1 2 2 1 1) (mkPoint 0 0 0 0 0) = [27, 19, 12, 4] ∧
    _fmap_lower_indices (config 2 1 1 2 2 1 1) (mkPoint 0 1 0 0 0) = [28, 20, 13, 5] ∧
    _fmap_lower_indices (config 2 1 1 2 2 1 1) (mkPoint 1 0 0 0 0) = [30, 22, 15, 7] ∧
    _fmap_lower_indices (config 2 1 1 2 2 1 1) (mkPoint 1 1 0 0 0) = [31, 23, 16, 8] := by
  decide

theorem padded_scenario_mem (p : PointIn2DBlock) (hp : InRange (config 2 1 1 2 2 1 1) p)
    (k : Int) :
    k ∈ _fmap_lower_indices (config 2 1 1 2 2 1 1) p ↔
      (p.r = 0 ∧ p.c = 0 ∧ k ∈ ([27, 19, 12, 4] : List Int)) ∨
      (p.r = 0 ∧ p.c = 1 ∧ k ∈ ([28, 20, 13, 5] : List Int)) ∨
      (p.r = 1 ∧ p.c = 0 ∧ k ∈ ([30, 22, 15, 7] : List Int)) ∨
      (p.r = 1 ∧ p.c = 1 ∧ k ∈ ([31, 23, 16, 8] : List Int)) := by
  obtain ⟨hr, hc, he⟩ := padded_scenario_indices p hp
  obtain ⟨l1, l2, l3, l4⟩ := padded_scenario_lists
  rw [he]
  rcases hr with hr | hr <;> rcases hc with hc | hc <;> rw [hr, hc]
  · rw [l1]; simp
  · rw [l2]; simp
  · rw [l3]; simp
  · rw [l4]; simp

theorem ramp2_tensor_ne_zero (r c : Nat) : ramp2_tensor r c 0 0 ≠ 0 := by
  unfold ramp2_tensor
  exact_mod_cast Nat.succ_ne_zero (r * 2 + c)

/-! ## The remapping kernel -/

/-- The real depth and batch of an in-range point: `reald < iD`, `realb < iB` and
`reald*iB + realb = id + ib*iD`. -/
theorem remap_real_spec (a : PMapHelper) (p : PointIn2DBlock) (hp : InRange a p) :
    remap_reald a p < a.sD ∧ remap_realb a p < a.sB ∧
      remap_reald a p * a.sB + remap_realb a p = p.block.d + p.block.b * a.sD := by
  obtain ⟨-, -, hd, hb⟩ := hp
  have hB : 0 < a.sB := by omega
  unfold remap_reald remap_realb
  refine ⟨?_, Nat.mod_lt _ hB, ?_⟩
  · rw [Nat.div_lt_iff_lt_mul hB]
    have h := two_digit_lt hd hb
    calc p.block.d + p.block.b * a.sD < a.sB * a.sD := h
      _ = a.sD * a.sB := Nat.mul_comm _ _
  · rw [Nat.mul_comm]
    exact Nat.div_add_mod _ _

theorem fmap_remap_index_lt (a : PMapHelper) (p : PointIn2DBlock) (hp : InRange a p) :
    _fmap_remap_index a p < a.sR * a.sC * a.sD * a.sB := by
  obtain ⟨h1, h2, -⟩ := remap_real_spec a p hp
  obtain ⟨hr, hc, -, -⟩ := hp
  unfold _fmap_remap_index
  have e1 : p.c + p.r * a.sC < a.sR * a.sC := two_digit_lt hc hr
  have e2 : (p.c + p.r * a.sC) + remap_reald a p * (a.sR * a.sC) < a.sD * (a.sR * a.sC) :=
    two_digit_lt e1 h1
  have e3 : ((p.c + p.r * a.sC) + remap_reald a p * (a.sR * a.sC)) +
      remap_realb a p * (a.sD * (a.sR * a.sC)) < a.sB * (a.sD * (a.sR * a.sC)) :=
    two_digit_lt e2 h2
  calc p.c + p.r * a.sC + remap_reald a p * a.sR * a.sC + remap_realb a p * a.sR * a.sC * a.sD
      = ((p.c + p.r * a.sC) + remap_reald a p * (a.sR * a.sC)) +
          remap_realb a p * (a.sD * (a.sR * a.sC)) := by ring
    _ < a.sB * (a.sD * (a.sR * a.sC)) := e3
    _ = a.sR * a.sC * a.sD * a.sB := by ring

theorem fmap_remap_index_inj (a : PMapHelper) (p q : PointIn2DBlock) (hp : InRange a p)
    (hq : InRange a q) (h : _fmap_remap_index a p = _fmap_remap_index a q) :
    p.r = q.r ∧ p.c = q.c ∧ p.block.d = q.block.d ∧ p.block.b = q.block.b := by
  obtain ⟨p1, p2, p3⟩ := remap_real_spec a p hp
  obtain ⟨q1, q2, q3⟩ := remap_real_spec a q hq
  obtain ⟨hpr, hpc, hpd, hpb⟩ := hp
  obtain ⟨hqr, hqc, hqd, hqb⟩ := hq
  unfold _fmap_remap_index at h
  have h' : ((p.c + p.r * a.sC) + remap_reald a p * (a.sR * a.sC)) +
      remap_realb a p * (a.sD * (a.sR * a.sC)) =
      ((q.c + q.r * a.sC) + remap_reald a q * (a.sR * a.sC)) +
      remap_realb a q * (a.sD * (a.sR * a.sC)) := by
    calc ((p.c + p.r * a.sC) + remap_reald a p * (a.sR * a.sC)) +
          remap_realb a p * (a.sD * (a.sR * a.sC))
        = p.c + p.r * a.sC + remap_reald a p * a.sR * a.sC +
            remap_realb a p * a.sR * a.sC * a.sD := by ring
      _ = q.c + q.r * a.sC + remap_reald a q * a.sR * a.sC +
            remap_realb a q * a.sR * a.sC * a.sD := h
      _ = ((q.c + q.r * a.sC) + remap_reald a q * (a.sR * a.sC)) +
          remap_realb a q * (a.sD * (a.sR * a.sC)) := by ring
  have ep : p.c + p.r * a.sC < a.sR * a.sC := two_digit_lt hpc hpr
  have eq : q.c + q.r * a.sC < a.sR * a.sC := two_digit_lt hqc hqr
  obtain ⟨e1, e2⟩ := radix_inj (two_digit_lt ep p1) (two_digit_lt eq q1) h'
  obtain ⟨e3, e4⟩ := radix_inj ep eq e1
  obtain ⟨e5, e6⟩ := radix_inj hpc hqc e3
  have e7 : p.block.d + p.block.b * a.sD = q.block.d + q.block.b * a.sD := by
    rw [← p3, ← q3, e4, e2]
  obtain ⟨e8, e9⟩ := radix_inj hpd hqd e7
  exact ⟨e6, e5, e8, e9⟩

theorem fmap_remap_index_surj (a : PMapHelper) (k : Nat)
    (hk : k < a.sR * a.sC * a.sD * a.sB) :
    ∃ r c d b : Nat, r < a.sR ∧ c < a.sC ∧ d < a.sD ∧ b < a.sB ∧
      _fmap_remap_index a (mkPoint r c d b 0) = k := by
  have hR : 0 < a.sR := by
    rcases Nat.eq_zero_or_pos a.sR with h | h
    · rw [h] at hk; simp at hk
    · exact h
  have hC : 0 < a.sC := by
    rcases Nat.eq_zero_or_pos a.sC with h | h
    · rw [h] at hk; simp at hk
    · exact h
  have hD : 0 < a.sD := by
    rcases Nat.eq_zero_or_pos a.sD with h | h
    · rw [h] at hk; simp at hk
    · exact h
  have hB : 0 < a.sB := by
    rcases Nat.eq_zero_or_pos a.sB with h | h
    · rw [h] at hk; simp at hk
    · exact h
  -- the digits of `k` in the mixed radix (iC, iR, iD, iB)
  have k0 : k % a.sC + (k / a.sC) * a.sC = k := Nat.mod_add_div' k a.sC
  have k1 : (k / a.sC) % a.sR + (k / a.sC / a.sR) * a.sR = k / a.sC :=
    Nat.mod_add_div' _ _
  have k2 : (k / a.sC / a.sR) % a.sD + (k / a.sC / a.sR / a.sD) * a.sD = k / a.sC / a.sR :=
    Nat.mod_add_div' _ _
  have hrb : k / a.sC / a.sR / a.sD < a.sB := by
    rw [Nat.div_div_eq_div_mul, Nat.div_div_eq_div_mul, Nat.div_lt_iff_lt_mul (by positivity)]
    calc k < a.sR * a.sC * a.sD * a.sB := hk
      _ = a.sB * (a.sC * (a.sR * a.sD)) := by ring
  have hrd : (k / a.sC / a.sR) % a.sD < a.sD := Nat.mod_lt _ hD
  -- the combined index `id + ib*iD` whose quotient and remainder by `iB` are the digits
  obtain ⟨rd, hrd'⟩ : ∃ rd, rd = (k / a.sC / a.sR) % a.sD := ⟨_, rfl⟩
  obtain ⟨rb, hrb'⟩ : ∃ rb, rb = k / a.sC / a.sR / a.sD := ⟨_, rfl⟩
  rw [← hrd'] at k2 hrd
  rw [← hrb'] at k2 hrb
  have hn : rb + rd * a.sB < a.sD * a.sB := two_digit_lt hrb hrd
  have hb : (rb + rd * a.sB) / a.sD < a.sB := by
    rw [Nat.div_lt_iff_lt_mul hD]
    calc rb + rd * a.sB < a.sD * a.sB := hn
      _ = a.sB * a.sD := Nat.mul_comm _ _
  refine ⟨(k / a.sC) % a.sR, k % a.sC, (rb + rd * a.sB) % a.sD, (rb + rd * a.sB) / a.sD,
    Nat.mod_lt _ hR, Nat.mod_lt _ hC, Nat.mod_lt _ hD, hb, ?_⟩
  have hcomb : (rb + rd * a.sB) % a.sD + (rb + rd * a.sB) / a.sD * a.sD = rb + rd * a.sB :=
    Nat.mod_add_div' _ _
  have e1 : remap_reald a (mkPoint ((k / a.sC) % a.sR) (k % a.sC) ((rb + rd * a.sB) % a.sD)
      ((rb + rd * a.sB) / a.sD) 0) = rd := by
    unfold remap_reald mkPoint
    simp only
    rw [hcomb, Nat.add_mul_div_right _ _ hB, Nat.div_eq_of_lt hrb, Nat.zero_add]
  have e2 : remap_realb a (mkPoint ((k / a.sC) % a.sR) (k % a.sC) ((rb + rd * a.sB) % a.sD)
      ((rb + rd * a.sB) / a.sD) 0) = rb := by
    unfold remap_realb mkPoint
    simp only
    rw [hcomb, Nat.add_mul_mod_self_right, Nat.mod_eq_of_lt hrb]
  unfold _fmap_remap_index
  rw [e1, e2]
  simp only [mkPoint]
  calc k % a.sC + (k / a.sC) % a.sR * a.sC + rd * a.sR * a.sC + rb * a.sR * a.sC * a.sD
      = k % a.sC + ((k / a.sC) % a.sR + (rd + rb * a.sD) * a.sR) * a.sC := by ring
    _ = k % a.sC + ((k / a.sC) % a.sR + (k / a.sC / a.sR) * a.sR) * a.sC := by rw [k2]
    _ = k % a.sC + (k / a.sC) * a.sC := by rw [k1]
    _ = k := k0

/-! ## The inverse kernel: frame -/

/-- Two strictly increasing lists of integers with the same elements are equal. -/
theorem increasing_lists_eq {l₁ l₂ : List Int} (h₁ : l₁.Pairwise (· < ·))
    (h₂ : l₂.Pairwise (· < ·)) (h : ∀ x, x ∈ l₁ ↔ x ∈ l₂) : l₁ = l₂ := by
  have n₁ : l₁.Nodup := h₁.imp (fun {a b} hab => ne_of_lt hab)
  have n₂ : l₂.Nodup := h₂.imp (fun {a b} hab => ne_of_lt hab)
  exact List.eq_of_perm_of_sorted ((List.perm_ext_iff_of_nodup n₁ n₂).mpr h) h₁ h₂

theorem forIters_starts_increasing (S r_end : Int) (hS : 0 < S) (fuel : Nat) (r0 i0 : Int) :
    ((forIters fuel r0 i0 r_end S).map Prod.fst).Pairwise (· < ·) := by
  rw [List.pairwise_map]
  exact (forIters_pairwise S r_end hS fuel r0 i0).1

/-- The iterations of the reference loop: the multiples of the stride from `i - k + 1`
up to `i`. -/
theorem reference_iters_mem_iff (i k : Int) (S : Nat) (hS : 0 < S) (r w : Int) :
    (r, w) ∈ forIters (i + 1 - next_multiple (i - k + 1) S).toNat
        (next_multiple (i - k + 1) S) 0 (i + 1) S →
      (S : Int) ∣ r ∧ i - k + 1 ≤ r ∧ r ≤ i := by
  have hS' : (0 : Int) < S := by exact_mod_cast hS
  obtain ⟨q, hq, h1, h2⟩ := next_multiple_spec (i - k + 1) S hS'
  rw [forIters_mem_iff S _ hS' _ _ _ (le_refl _), hq]
  rintro ⟨t, hr, -, hlt⟩
  have : 0 ≤ (t : Int) * S := by positivity
  refine ⟨⟨q + t, by rw [hr]; ring⟩, by omega, by omega⟩

theorem reference_iters_mem_of (i k : Int) (S : Nat) (hS : 0 < S) (r : Int)
    (hdvd : (S : Int) ∣ r) (hlo : i - k + 1 ≤ r) (hhi : r ≤ i) :
    ∃ w, (r, w) ∈ forIters (i + 1 - next_multiple (i - k + 1) S).toNat
        (next_multiple (i - k + 1) S) 0 (i + 1) S := by
  have hS' : (0 : Int) < S := by exact_mod_cast hS
  obtain ⟨q, hq, h1, h2⟩ := next_multiple_spec (i - k + 1) S hS'
  obtain ⟨m, rfl⟩ := hdvd
  have hqm : q ≤ m := by
    have hlt : q * (S : Int) < (m + 1) * S := by
      have : (m + 1) * (S : Int) = S * m + S := by ring
      omega
    have := lt_of_mul_lt_mul_right hlt (by omega : (0 : Int) ≤ S)
    omega
  obtain ⟨t, ht⟩ := Int.eq_ofNat_of_zero_le (by omega : 0 ≤ m - q)
  refine ⟨0 + t, ?_⟩
  rw [forIters_mem_iff S _ hS' _ _ _ (le_refl _), hq]
  refine ⟨t, ?_, rfl, by omega⟩
  have : m = q + t := by omega
  rw [this]; ring

/-- The elements of the sequence of the reference loop of the comment, for an axis of
extent `n`, kernel extent `k`, padding `P` and stride `S ≥ 1`. -/
theorem reference_starts_mem_iff (i n k P S : Nat) (hS : 0 < S) (r : Int) :
    r ∈ ((forIters ((i : Int) + 1 - next_multiple ((i : Int) - k + 1) S).toNat
        (next_multiple ((i : Int) - k + 1) S) 0 ((i : Int) + 1) S).filter
      (fun ri => decide (ri.1 ≥ -(P : Int) ∧ ri.1 < ((n : Int) - k + 1) + P))).map Prod.fst ↔
    ((S : Int) ∣ r ∧ (i : Int) - k + 1 ≤ r ∧ r ≤ i ∧ -(P : Int) ≤ r ∧
      r ≤ (n : Int) - k + P) := by
  rw [List.mem_map]
  constructor
  · rintro ⟨⟨r', w⟩, hmem, rfl⟩
    rw [List.mem_filter, decide_eq_true_eq] at hmem
    obtain ⟨hmem, h1, h2⟩ := hmem
    obtain ⟨e1, e2, e3⟩ := reference_iters_mem_iff i k S hS r' w hmem
    exact ⟨e1, e2, e3, h1, by simp only at h2; omega⟩
  · rintro ⟨e1, e2, e3, h1, h2⟩
    obtain ⟨w, hw⟩ := reference_iters_mem_of i k S hS r e1 e2 e3
    refine ⟨(r, w), ?_, rfl⟩
    rw [List.mem_filter, decide_eq_true_eq]
    exact ⟨hw, h1, by simp only; omega⟩

/-- The elements of the sequence of window starts of the loop of line 232 (or 237). -/
theorem axis_starts_mem_iff (i n k P S : Nat) (hS : 0 < S) (r : Int) :
    r ∈ (forIters
        ((min (i : Int) ((n : Int) - k + P) + 1 -
          next_largest_multiple (next_multiple ((i : Int) - k + 1 + P) S - P) (-(P : Int)) S).toNat)
        (next_largest_multiple (next_multiple ((i : Int) - k + 1 + P) S - P) (-(P : Int)) S)
        (Int.tdiv (next_largest_multiple (next_multiple ((i : Int) - k + 1 + P) S - P)
          (-(P : Int)) S + P) S)
        (min (i : Int) ((n : Int) - k + P) + 1) S).map Prod.fst ↔
    ((S : Int) ∣ r + P ∧ (i : Int) - k + 1 ≤ r ∧ r ≤ i ∧ -(P : Int) ≤ r ∧
      r ≤ (n : Int) - k + P) := by
  rw [List.mem_map]
  constructor
  · rintro ⟨⟨r', w⟩, hmem, rfl⟩
    obtain ⟨m, -, hr, h1, h2, h3⟩ := (axis_iters_mem_iff i n k P S hS r' w).mp hmem
    have : 0 ≤ (m : Int) * S := by positivity
    exact ⟨⟨m, by simp only; rw [hr]; ring⟩, h1, h2, by simp only; omega, h3⟩
  · rintro ⟨⟨m, hm⟩, h1, h2, h3, h4⟩
    have hS' : (0 : Int) < S := by exact_mod_cast hS
    have hm0 : 0 ≤ m := by
      by_contra hneg
      have h5 : m ≤ -1 := by omega
      have h6 : (S : Int) * m ≤ S * (-1) := Int.mul_le_mul_of_nonneg_left h5 (by omega)
      omega
    obtain ⟨t, rfl⟩ := Int.eq_ofNat_of_zero_le hm0
    exact ⟨(r, t), (axis_iters_mem_iff i n k P S hS r t).mpr
      ⟨t, rfl, by linarith, h1, h2, h4⟩, rfl⟩

/-- When the padding is a multiple of the stride, the loop of line 232 (or 237) runs its
body at the same window starts, in the same order, as the reference loop of the comment. -/
theorem axis_starts_eq_reference (i n k P S : Nat) (hS : 0 < S) (hdiv : S ∣ P) :
    (forIters
        ((min (i : Int) ((n : Int) - k + P) + 1 -
          next_largest_multiple (next_multiple ((i : Int) - k + 1 + P) S - P) (-(P : Int)) S).toNat)
        (next_largest_multiple (next_multiple ((i : Int) - k + 1 + P) S - P) (-(P : Int)) S)
        (Int.tdiv (next_largest_multiple (next_multiple ((i : Int) - k + 1 + P) S - P)
          (-(P : Int)) S + P) S)
        (min (i : Int) ((n : Int) - k + P) + 1) S).map Prod.fst =
    ((forIters ((i : Int) + 1 - next_multiple ((i : Int) - k + 1) S).toNat
        (next_multiple ((i : Int) - k + 1) S) 0 ((i : Int) + 1) S).filter
      (fun ri => decide (ri.1 ≥ -(P : Int) ∧ ri.1 < ((n : Int) - k + 1) + P))).map Prod.fst := by
  have hS' : (0 : Int) < S := by exact_mod_cast hS
  apply increasing_lists_eq (forIters_starts_increasing S _ hS' _ _ _)
  · rw [List.pairwise_map]
    exact ((forIters_pairwise S _ hS' _ _ _).1).filter _
  · intro r
    rw [axis_starts_mem_iff i n k P S hS r, reference_starts_mem_iff i n k P S hS r]
    have hP : (S : Int) ∣ (P : Int) := by exact_mod_cast hdiv
    have : (S : Int) ∣ r + P ↔ (S : Int) ∣ r := (Int.dvd_add_left hP)
    rw [this]

/-! ## Invariants of the loops of the forward kernel -/

/-- The invariants of a loop of line 232 (or 237) at the iteration `(r, w)`: the start is
at or after the first start, which is at or after `-P`; `r + P = w*S`; the position `i`
lies in the window. -/
theorem axis_iters_invariant (i n k P S : Nat) (hS : 0 < S) (r w : Int)
    (h : (r, w) ∈ forIters
        ((min (i : Int) ((n : Int) - k + P) + 1 -
          next_largest_multiple (next_multiple ((i : Int) - k + 1 + P) S - P) (-(P : Int)) S).toNat)
        (next_largest_multiple (next_multiple ((i : Int) - k + 1 + P) S - P) (-(P : Int)) S)
        (Int.tdiv (next_largest_multiple (next_multiple ((i : Int) - k + 1 + P) S - P)
          (-(P : Int)) S + P) S)
        (min (i : Int) ((n : Int) - k + P) + 1) S) :
    next_largest_multiple (next_multiple ((i : Int) - k + 1 + P) S - P) (-(P : Int)) S ≤ r ∧
    -(P : Int) ≤
      next_largest_multiple (next_multiple ((i : Int) - k + 1 + P) S - P) (-(P : Int)) S ∧
    0 ≤ r + P ∧ r + P = w * S ∧ w = Int.tdiv (r + P) S ∧ 0 ≤ w ∧
    0 ≤ (i : Int) - r ∧ (i : Int) - r < k := by
  have hS' : (0 : Int) < S := by exact_mod_cast hS
  have hge := (forIters_pairwise S _ hS' _ _ _).2 (r, w) h
  obtain ⟨t0, hb, -, -⟩ := begin_spec i k P S hS
  obtain ⟨m, hw, hr, h1, h2, -⟩ := (axis_iters_mem_iff i n k P S hS r w).mp h
  have ht0 : 0 ≤ (t0 : Int) * S := by positivity
  have hm : 0 ≤ (m : Int) * S := by positivity
  have hrP : r + P = w * S := by rw [hr, hw]; ring
  refine ⟨hge, by rw [hb]; omega, by omega, hrP, ?_, by rw [hw]; positivity, by omega, by omega⟩
  rw [hrP]
  exact (Int.mul_tdiv_cancel _ (by omega)).symm

/-! ## Adjointness of the forward and the inverse pass -/

/-- A sum over the cells `0 .. m*n - 1` of a row-major `m × n` array, by row and column. -/
theorem sum_range_mul_split (m n : Nat) (f : Nat → ℚ) :
    ∑ k ∈ Finset.range (m * n), f k =
      ∑ y ∈ Finset.range m, ∑ x ∈ Finset.range n, f (x + y * n) := by
  induction m with
  | zero => simp
  | succ m ih =>
    rw [Finset.sum_range_succ, ← ih, Nat.succ_mul, Finset.sum_range_add]
    congr 1
    apply Finset.sum_congr rfl
    intro x _
    rw [Nat.add_comm]

/-- The inverse pass on an arbitrary lowered matrix `G`: every cell of the tensor receives
the entries of `G` at the cells of the lowered matrix whose source it is. -/
theorem inverse_slabs_cell (a : PMapHelper) (hK : a.kC = a.kR) (hS : 0 < a.stride)
    (G g : Buffer) {r c d b : Nat} (hr : r < a.sR) (hc : c < a.sC) (hd : d < a.sD)
    (hb : b < a.sB) :
    inverse_lower_slabs a G g (tensor_index a r c d b) =
      g (tensor_index a r c d b) +
      ∑ kr ∈ Finset.range a.kR, ∑ kc ∈ Finset.range a.kR,
        ∑ i ∈ Finset.range (outR a), ∑ j ∈ Finset.range (outC a),
          if (i : Int) * a.stride + kr - a.padding = r ∧
              (j : Int) * a.stride + kc - a.padding = c
          then G ((lowered_index a d kr kc b i j : Nat) : Int) else 0 := by
  unfold inverse_lower_slabs
  rw [slabs_fold_cell a hS G hr hc hd
    (∑ kr ∈ Finset.range a.kR, ∑ kc ∈ Finset.range a.kR,
        ∑ i ∈ Finset.range (outR a), ∑ j ∈ Finset.range (outC a),
          if (i : Int) * a.stride + kr - a.padding = r ∧
              (j : Int) * a.stride + kc - a.padding = c
          then G ((lowered_index a d kr kc b i j : Nat) : Int) else 0) ?_
    (List.range a.sD) g (List.nodup_range _) (fun d' hd' => List.mem_range.mp hd'),
    if_pos (List.mem_range.mpr hd)]
  intro g'
  have hD : 0 < (inverse_arg a).iD := by
    show 0 < a.sD
    omega
  have := inverse_cell_value (inverse_arg a) hS hD
    (fun n => g' ((d : Int) * a.sR * a.sC + n))
    (fun n => G ((d : Int) * a.kR * a.kR * ((a.sB : Int) * outR a * outC a) + n))
    hb hr hc
  refine this.trans ?_
  have hidx : ∀ kr kc i j : Nat,
      (d : Int) * a.kR * a.kR * ((a.sB : Int) * outR a * outC a) +
        ((inv_counter (inverse_arg a) kr kc b i j : Nat) : Int) =
        ((lowered_index a d kr kc b i j : Nat) : Int) := by
    intro kr kc i j
    unfold inv_counter lowered_index
    simp only [inverse_arg, hK]
    push_cast
    ring
  simp only [hidx]
  simp only [inverse_arg]
  congr 2
  unfold tensor_index; ring

/-- The content of every cell of the lowered matrix after the forward pass into a zero
buffer: the source cell of the input where the source lies inside the input, 0 where it
lies in the padding. -/
theorem lower_points_cell_zero (a : PMapHelper) (hS : 0 < a.stride)
    (hR : a.kR ≤ a.sR + 2 * a.padding) (hC : a.kC ≤ a.sC + 2 * a.padding)
    (hsm : SmallDims a) (x : Tensor) (pts : List PointIn2DBlock) (hpts : Presents a x pts)
    {d kr kc b i j : Nat} (hd : d < a.sD) (hkr : kr < a.kR) (hkc : kc < a.kC)
    (hb : b < a.sB) (hi : i < outR a) (hj : j < outC a) :
    lower_points a pts zero_buffer ((lowered_index a d kr kc b i j : Nat) : Int) =
      if a.padding ≤ i * a.stride + kr ∧ i * a.stride + kr < a.sR + a.padding ∧
          a.padding ≤ j * a.stride + kc ∧ j * a.stride + kc < a.sC + a.padding
      then x (i * a.stride + kr - a.padding) (j * a.stride + kc - a.padding) d b else 0 := by
  by_cases h : a.padding ≤ i * a.stride + kr ∧ i * a.stride + kr < a.sR + a.padding ∧
      a.padding ≤ j * a.stride + kc ∧ j * a.stride + kc < a.sC + a.padding
  · rw [if_pos h]
    exact lower_points_cell a hS hR hC hsm x pts hpts zero_buffer hd hkr hkc hb hi hj
      (by omega) (by omega) (by omega) (by omega)
  · rw [if_neg h, lower_points_untouched]
    · rfl
    · intro p hp
      exact padding_cell_not_written a p hS hR hC
        (exactEnds_of_small a hsm hR hC p (hpts.1 p hp).1) (hpts.1 p hp).1 hkr hkc hb hi hj h

/-- The sum over the cells of a map of the terms attached to the source of window `(i, j)`
at kernel offset `(kr, kc)`: the term of the source if it lies inside the map, else 0. -/
theorem sum_sources (S P sR sC i j kr kc : Nat) (f : Nat → Nat → ℚ) :
    (∑ r ∈ Finset.range sR, ∑ c ∈ Finset.range sC,
      if (i : Int) * S + kr - P = r ∧ (j : Int) * S + kc - P = c then f r c else 0) =
      if P ≤ i * S + kr ∧ i * S + kr < sR + P ∧ P ≤ j * S + kc ∧ j * S + kc < sC + P
      then f (i * S + kr - P) (j * S + kc - P) else 0 := by
  by_cases h : P ≤ i * S + kr ∧ i * S + kr < sR + P ∧ P ≤ j * S + kc ∧ j * S + kc < sC + P
  · rw [if_pos h]
    obtain ⟨h1, h2, h3, h4⟩ := h
    have er : (i : Int) * S + kr - P = ((i * S + kr - P : Nat) : Int) := by
      rw [Nat.cast_sub h1]; push_cast; ring
    have ec : (j : Int) * S + kc - P = ((j * S + kc - P : Nat) : Int) := by
      rw [Nat.cast_sub h3]; push_cast; ring
    rw [Finset.sum_eq_single (i * S + kr - P)]
    · rw [Finset.sum_eq_single (j * S + kc - P)]
      · rw [if_pos ⟨er, ec⟩]
      · intro c _ hne
        rw [if_neg]
        rintro ⟨-, e⟩
        rw [ec] at e
        exact hne (Int.ofNat.inj e).symm
      · intro hn
        exact absurd (Finset.mem_range.mpr (by omega)) hn
    · intro r _ hne
      apply Finset.sum_eq_zero
      intro c _
      rw [if_neg]
      rintro ⟨e, -⟩
      rw [er] at e
      exact hne (Int.ofNat.inj e).symm
    · intro hn
      exact absurd (Finset.mem_range.mpr (by omega)) hn
  · rw [if_neg h]
    apply Finset.sum_eq_zero
    intro r hr
    apply Finset.sum_eq_zero
    intro c hc
    rw [if_neg]
    rintro ⟨e1, e2⟩
    apply h
    have := Finset.mem_range.mp hr
    have := Finset.mem_range.mp hc
    have e1' : ((i * S + kr : Nat) : Int) = ((r + P : Nat) : Int) := by push_cast; omega
    have e2' : ((j * S + kc : Nat) : Int) = ((c + P : Nat) : Int) := by push_cast; omega
    have e1'' := Int.ofNat.inj e1'
    have e2'' := Int.ofNat.inj e2'
    omega

/-- Moving two outer sums inside four inner sums. -/
theorem sum2_4_swap (f : Nat → Nat → Nat → Nat → Nat → Nat → ℚ) (A B C D E F : Finset Nat) :
    ∑ r ∈ A, ∑ c ∈ B, ∑ kr ∈ C, ∑ kc ∈ D, ∑ i ∈ E, ∑ j ∈ F, f r c kr kc i j =
      ∑ kr ∈ C, ∑ kc ∈ D, ∑ i ∈ E, ∑ j ∈ F, ∑ r ∈ A, ∑ c ∈ B, f r c kr kc i j := by
  rw [sum4_swap (fun r c kr kc => ∑ i ∈ E, ∑ j ∈ F, f r c kr kc i j) A B C D]
  apply Finset.sum_congr rfl; intro kr _
  apply Finset.sum_congr rfl; intro kc _
  exact sum4_swap (fun r c i j => f r c kr kc i j) A B E F

/-- The forward side of the adjointness: the products of the lowered cells with the entries
of `G`, written on the sources of the cells. -/
theorem adjoint_forward_side (a : PMapHelper) (hS : 0 < a.stride)
    (hR : a.kR ≤ a.sR + 2 * a.padding) (hC : a.kC ≤ a.sC + 2 * a.padding)
    (hsm : SmallDims a) (x : Tensor) (G : Buffer) (pts : List PointIn2DBlock) (hpts : Presents a x pts) :
    (∑ d ∈ Finset.range a.sD, ∑ kr ∈ Finset.range a.kR, ∑ kc ∈ Finset.range a.kC,
      ∑ b ∈ Finset.range a.sB, ∑ i ∈ Finset.range (outR a), ∑ j ∈ Finset.range (outC a),
        lower_points a pts zero_buffer ((lowered_index a d kr kc b i j : Nat) : Int) *
          G ((lowered_index a d kr kc b i j : Nat) : Int)) =
      ∑ d ∈ Finset.range a.sD, ∑ kr ∈ Finset.range a.kR, ∑ kc ∈ Finset.range a.kC,
      ∑ b ∈ Finset.range a.sB, ∑ i ∈ Finset.range (outR a), ∑ j ∈ Finset.range (outC a),
        adjoint_term a x G d kr kc b i j := by
  apply Finset.sum_congr rfl; intro d hd
  apply Finset.sum_congr rfl; intro kr hkr
  apply Finset.sum_congr rfl; intro kc hkc
  apply Finset.sum_congr rfl; intro b hb
  apply Finset.sum_congr rfl; intro i hi
  apply Finset.sum_congr rfl; intro j hj
  rw [lower_points_cell_zero a hS hR hC hsm x pts hpts (Finset.mem_range.mp hd)
    (Finset.mem_range.mp hkr) (Finset.mem_range.mp hkc) (Finset.mem_range.mp hb)
    (Finset.mem_range.mp hi) (Finset.mem_range.mp hj)]
  unfold adjoint_term
  rw [ite_mul, zero_mul]

/-- The inverse side of the adjointness: the products of the tensor cells with the cells of
the inverse pass of `G`, written on the sources of the lowered cells. -/
theorem adjoint_inverse_side (a : PMapHelper) (hK : a.kC = a.kR) (hS : 0 < a.stride)
    (x : Tensor) (G : Buffer) :
    (∑ b ∈ Finset.range a.sB, ∑ d ∈ Finset.range a.sD, ∑ r ∈ Finset.range a.sR,
      ∑ c ∈ Finset.range a.sC,
        x r c d b * inverse_lower_slabs a G zero_buffer (tensor_index a r c d b)) =
      ∑ b ∈ Finset.range a.sB, ∑ d ∈ Finset.range a.sD,
      ∑ kr ∈ Finset.range a.kR, ∑ kc ∈ Finset.range a.kC,
      ∑ i ∈ Finset.range (outR a), ∑ j ∈ Finset.range (outC a),
        adjoint_term a x G d kr kc b i j := by
  apply Finset.sum_congr rfl; intro b hb
  apply Finset.sum_congr rfl; intro d hd
  have e1 : ∀ r ∈ Finset.range a.sR, ∀ c ∈ Finset.range a.sC,
      x r c d b * inverse_lower_slabs a G zero_buffer (tensor_index a r c d b) =
      ∑ kr ∈ Finset.range a.kR, ∑ kc ∈ Finset.range a.kC,
        ∑ i ∈ Finset.range (outR a), ∑ j ∈ Finset.range (outC a),
          if (i : Int) * a.stride + kr - a.padding = r ∧
              (j : Int) * a.stride + kc - a.padding = c
          then x r c d b * G ((lowered_index a d kr kc b i j : Nat) : Int) else 0 := by
    intro r hr c hc
    rw [inverse_slabs_cell a hK hS G zero_buffer (Finset.mem_range.mp hr)
      (Finset.mem_range.mp hc) (Finset.mem_range.mp hd) (Finset.mem_range.mp hb), hK]
    show x r c d b * ((0 : ℚ) + _) = _
    rw [zero_add, Finset.mul_sum]
    apply Finset.sum_congr rfl; intro kr _
    rw [Finset.mul_sum]
    apply Finset.sum_congr rfl; intro kc _
    rw [Finset.mul_sum]
    apply Finset.sum_congr rfl; intro i _
    rw [Finset.mul_sum]
    apply Finset.sum_congr rfl; intro j _
    rw [mul_ite, mul_zero]
  rw [Finset.sum_congr rfl (fun r hr => Finset.sum_congr rfl (fun c hc => e1 r hr c hc))]
  rw [sum2_4_swap (fun r c kr kc i j =>
    if (i : Int) * a.stride + kr - a.padding = r ∧ (j : Int) * a.stride + kc - a.padding = c
    then x r c d b * G ((lowered_index a d kr kc b i j : Nat) : Int) else 0)]
  apply Finset.sum_congr rfl; intro kr _
  apply Finset.sum_congr rfl; intro kc _
  apply Finset.sum_congr rfl; intro i _
  apply Finset.sum_congr rfl; intro j _
  exact sum_sources a.stride a.padding a.sR a.sC i j kr kc
    (fun r c => x r c d b * G ((lowered_index a d kr kc b i j : Nat) : Int))

/-- Moving the sum over the batch outside the sums over depth and kernel offsets. -/
theorem sum_batch_out (f : Nat → Nat → Nat → Nat → ℚ) (A B C D : Finset Nat) :
    ∑ d ∈ A, ∑ kr ∈ B, ∑ kc ∈ C, ∑ b ∈ D, f d kr kc b =
      ∑ b ∈ D, ∑ d ∈ A, ∑ kr ∈ B, ∑ kc ∈ C, f d kr kc b := by
  calc ∑ d ∈ A, ∑ kr ∈ B, ∑ kc ∈ C, ∑ b ∈ D, f d kr kc b
      = ∑ d ∈ A, ∑ kr ∈ B, ∑ b ∈ D, ∑ kc ∈ C, f d kr kc b :=
        Finset.sum_congr rfl (fun d _ => Finset.sum_congr rfl (fun kr _ => Finset.sum_comm))
    _ = ∑ d ∈ A, ∑ b ∈ D, ∑ kr ∈ B, ∑ kc ∈ C, f d kr kc b :=
        Finset.sum_congr rfl (fun d _ => Finset.sum_comm)
    _ = ∑ b ∈ D, ∑ d ∈ A, ∑ kr ∈ B, ∑ kc ∈ C, f d kr kc b := Finset.sum_comm

/-- Adjointness of the forward and the inverse pass, the cells of the lowered matrix
addressed by depth, kernel offset, batch and window. -/
theorem adjoint_by_coordinates (a : PMapHelper) (hK : a.kC = a.kR) (hS : 0 < a.stride)
    (hR : a.kR ≤ a.sR + 2 * a.padding) (hC : a.kC ≤ a.sC + 2 * a.padding)
    (hsm : SmallDims a) (x : Tensor) (G : Buffer) (pts : List PointIn2DBlock) (hpts : Presents a x pts) :
    (∑ d ∈ Finset.range a.sD, ∑ kr ∈ Finset.range a.kR, ∑ kc ∈ Finset.range a.kC,
      ∑ b ∈ Finset.range a.sB, ∑ i ∈ Finset.range (outR a), ∑ j ∈ Finset.range (outC a),
        lower_points a pts zero_buffer ((lowered_index a d kr kc b i j : Nat) : Int) *
          G ((lowered_index a d kr kc b i j : Nat) : Int)) =
      ∑ b ∈ Finset.range a.sB, ∑ d ∈ Finset.range a.sD, ∑ r ∈ Finset.range a.sR,
        ∑ c ∈ Finset.range a.sC,
          x r c d b * inverse_lower_slabs a G zero_buffer (tensor_index a r c d b) := by
  rw [adjoint_forward_side a hS hR hC hsm x G pts hpts, adjoint_inverse_side a hK hS x G]
  exact sum_batch_out (fun d kr kc b => ∑ i ∈ Finset.range (outR a),
    ∑ j ∈ Finset.range (outC a), adjoint_term a x G d kr kc b i j) _ _ _ _

/-- The sum over the cells of the lowered matrix, by row and column, is the sum over depth,
kernel offset, batch and window. -/
theorem sum_lowered_cells (a : PMapHelper) (f : Nat → ℚ) :
    (∑ row ∈ Finset.range (a.sD * (a.kR * a.kC)),
      ∑ col ∈ Finset.range (a.sB * (outR a * outC a)),
        f (col + row * (a.sB * (outR a * outC a)))) =
      ∑ d ∈ Finset.range a.sD, ∑ kr ∈ Finset.range a.kR, ∑ kc ∈ Finset.range a.kC,
      ∑ b ∈ Finset.range a.sB, ∑ i ∈ Finset.range (outR a), ∑ j ∈ Finset.range (outC a),
        f (lowered_index a d kr kc b i j) := by
  rw [sum_range_mul_split]
  apply Finset.sum_congr rfl; intro d _
  rw [sum_range_mul_split]
  apply Finset.sum_congr rfl; intro kr _
  apply Finset.sum_congr rfl; intro kc _
  rw [sum_range_mul_split]
  apply Finset.sum_congr rfl; intro b _
  rw [sum_range_mul_split]
  apply Finset.sum_congr rfl; intro i _
  apply Finset.sum_congr rfl; intro j _
  congr 1
  unfold lowered_index
  ring

/-! ## The loops whatever their end, and where the end is exact -/

/-- The invariants of a loop of line 232 (or 237) that hold whatever its end: at the
iteration `(r, w)` the start is at or after the first start, which is at or after `-P`;
`r + P = w*S`; and the window reaches the position `i`. -/
theorem axis_iters_any_end (i k : Int) (P S : Nat) (hS : 0 < S) (rend r w : Int)
    (h : (r, w) ∈ forIters
        ((rend -
          next_largest_multiple (next_multiple (i - k + 1 + P) S - P) (-(P : Int)) S).toNat)
        (next_largest_multiple (next_multiple (i - k + 1 + P) S - P) (-(P : Int)) S)
        (Int.tdiv (next_largest_multiple (next_multiple (i - k + 1 + P) S - P)
          (-(P : Int)) S + P) S)
        rend S) :
    next_largest_multiple (next_multiple (i - k + 1 + P) S - P) (-(P : Int)) S ≤ r ∧
    -(P : Int) ≤ next_largest_multiple (next_multiple (i - k + 1 + P) S - P) (-(P : Int)) S ∧
    0 ≤ r + P ∧ r + P = w * S ∧ w = Int.tdiv (r + P) S ∧ 0 ≤ w ∧ i - r < k := by
  have hS' : (0 : Int) < S := by exact_mod_cast hS
  have hge := (forIters_pairwise S _ hS' _ _ _).2 (r, w) h
  obtain ⟨t0, hb, hlo, -⟩ := begin_spec i k P S hS
  rw [hb] at h hge ⊢
  have hdiv : Int.tdiv ((t0 : Int) * S - P + P) S = t0 := by
    rw [show (t0 : Int) * S - P + P = t0 * S by ring]
    exact Int.mul_tdiv_cancel _ (by omega)
  rw [hdiv] at h
  obtain ⟨t, hr, hw, -⟩ := (forIters_mem_iff S rend hS' _ _ _ (le_refl _) r w).mp h
  have ht0 : 0 ≤ (t0 : Int) * S := by positivity
  have ht : 0 ≤ (t : Int) * S := by positivity
  have hrP : r + P = w * S := by rw [hr, hw]; ring
  have hw0 : 0 ≤ w := by rw [hw]; positivity
  refine ⟨hge, by omega, by omega, hrP, ?_, hw0, by omega⟩
  rw [hrP]
  exact (Int.mul_tdiv_cancel _ (by omega)).symm

/-- Where the loop end is computed without rounding, the row loop is the loop with the
end `min(ir, iR - kR + padding) + 1`. -/
theorem rowIters_exact (a : PMapHelper) (ir : Nat) (hx : FloatExact a.sR a.kR a.padding ir) :
    rowIters a ir = forIters
        ((min (ir : Int) ((a.sR : Int) - a.kR + a.padding) + 1 -
          next_largest_multiple (next_multiple ((ir : Int) - a.kR + 1 + a.padding) a.stride -
            a.padding) (-(a.padding : Int)) a.stride).toNat)
        (next_largest_multiple (next_multiple ((ir : Int) - a.kR + 1 + a.padding) a.stride -
          a.padding) (-(a.padding : Int)) a.stride)
        (Int.tdiv (next_largest_multiple (next_multiple ((ir : Int) - a.kR + 1 + a.padding)
          a.stride - a.padding) (-(a.padding : Int)) a.stride + a.padding) a.stride)
        (min (ir : Int) ((a.sR : Int) - a.kR + a.padding) + 1) a.stride := by
  unfold rowIters i_start
  rw [r_end_exact a ir hx]
  rfl

theorem colIters_exact (a : PMapHelper) (ic : Nat) (hx : FloatExact a.sC a.kC a.padding ic) :
    colIters a ic = forIters
        ((min (ic : Int) ((a.sC : Int) - a.kC + a.padding) + 1 -
          next_largest_multiple (next_multiple ((ic : Int) - a.kC + 1 + a.padding) a.stride -
            a.padding) (-(a.padding : Int)) a.stride).toNat)
        (next_largest_multiple (next_multiple ((ic : Int) - a.kC + 1 + a.padding) a.stride -
          a.padding) (-(a.padding : Int)) a.stride)
        (Int.tdiv (next_largest_multiple (next_multiple ((ic : Int) - a.kC + 1 + a.padding)
          a.stride - a.padding) (-(a.padding : Int)) a.stride + a.padding) a.stride)
        (min (ic : Int) ((a.sC : Int) - a.kC + a.padding) + 1) a.stride := by
  unfold colIters j_start
  rw [c_end_exact a ic hx]
  rfl

/-! ## The forward pass at sizes where the loop ends are exact -/

/-- Forward lowering equals the reference patch matrix on in-bounds cells, for sizes at
which the loop ends are computed without rounding.  For a configuration with stride
`S ≥ 1`, `kR = kC = K`, `iR + 2P ≥ K`, `iC + 2P ≥ K`, `iR + P ≤ 2^24` and `iC + P ≤ 2^24`,
with `outR = (iR - K + 2P)/S + 1`, `outC = (iC - K + 2P)/S + 1` and `oC = iB*outR*outC`:
after `_fmap_lower` has been run for the input points of a tensor `x` (in any order), for
all `d < iD`, `kr, kc < K`, `b < iB`, `i < outR`, `j < outC` whose source position
`(sr, sc) = (i*S - P + kr, j*S - P + kc)` lies in `[0,iR) × [0,iC)`, the output cell at
linear index `(b*outR*outC + i*outC + j) + (d*K*K + kr*K + kc)*oC` holds `x` at row `sr`,
column `sc`, depth `d`, batch `b`. -/
theorem forward_lowering_small
    (K P S iR iC iD iB : Nat) (hS : 1 ≤ S) (hR : K ≤ iR + 2 * P) (hC : K ≤ iC + 2 * P)
    (hRb : iR + P ≤ 16777216) (hCb : iC + P ≤ 16777216)
    (outR outC oC : Nat) (houtR : outR = (iR + 2 * P - K) / S + 1)
    (houtC : outC = (iC + 2 * P - K) / S + 1) (hoC : oC = iB * outR * outC)
    (x : Tensor) (pts : List PointIn2DBlock)
    (hpts : Presents (config K P S iR iC iD iB) x pts) (out0 : Buffer)
    (d kr kc b i j : Nat) (hd : d < iD) (hkr : kr < K) (hkc : kc < K) (hb : b < iB)
    (hi : i < outR) (hj : j < outC) (sr sc : Nat)
    (hsr : (sr : Int) = (i : Int) * S - P + kr) (hsc : (sc : Int) = (j : Int) * S - P + kc)
    (hsrR : sr < iR) (hscC : sc < iC) :
    lower_points (config K P S iR iC iD iB) pts out0
      (((b * outR * outC + i * outC + j) + (d * K * K + kr * K + kc) * oC : Nat) : Int)
      = x sr sc d b := by
  subst houtR houtC hoC
  exact lower_points_cell (config K P S iR iC iD iB) hS hR hC ⟨hRb, hCb⟩ x pts hpts out0 hd
    hkr hkc hb hi hj (by zify; simp only [config]; omega) (by zify; simp only [config]; omega)
    hsrR hscC

/-- The lemma `forward_lowering_small` at the 4 × 4 scenario (`K = 2`, `S = 2`, `P = 0`): the
cell of kernel offset `(0, 1)` of window `(1, 0)` holds the input at row 2, column 1. -/
theorem forward_lowering_small_scenario :
    lower_points (config 2 0 2 4 4 1 1) (tensor_points (config 2 0 2 4 4 1 1) scenario_tensor)
      zero_buffer (((0 * 2 * 2 + 1 * 2 + 0) + (0 * 2 * 2 + 0 * 2 + 1) * 4 : Nat) : Int)
      = scenario_tensor 2 1 0 0 :=
  forward_lowering_small 2 0 2 4 4 1 1 (by decide) (by decide) (by decide) (by decide)
    (by decide) 2 2 4 (by decide) (by decide) (by decide) scenario_tensor _
    (tensor_points_presents _ _) zero_buffer 0 0 1 0 1 0 (by decide) (by decide) (by decide)
    (by decide) (by decide) (by decide) 2 1 (by decide) (by decide) (by decide) (by decide)

/-- Padding zero-fill, for sizes at which the loop ends are computed without rounding.  For
a valid configuration (`S ≥ 1`, `iR + 2P ≥ K`, `iC + 2P ≥ K`) with `iR + P ≤ 2^24` and
`iC + P ≤ 2^24`, a lowered-matrix cell (row `d*K*K + kr*K + kc`, column
`b*outR*outC + i*outC + j`) whose source position `(i*S - P + kr, j*S - P + kc)` falls
outside `[0,iR) × [0,iC)` is stored to by no call of `_fmap_lower` on an in-range input
point, and it is 0 after the forward pass over in-range points into a buffer that was all
zero. -/
theorem padding_zero_fill_small
    (K P S iR iC iD iB : Nat) (hS : 1 ≤ S) (hR : K ≤ iR + 2 * P) (hC : K ≤ iC + 2 * P)
    (hRb : iR + P ≤ 16777216) (hCb : iC + P ≤ 16777216)
    (outR outC oC : Nat) (houtR : outR = (iR + 2 * P - K) / S + 1)
    (houtC : outC = (iC + 2 * P - K) / S + 1) (hoC : oC = iB * outR * outC)
    (d kr kc b i j : Nat) (hkr : kr < K) (hkc : kc < K) (hb : b < iB)
    (hi : i < outR) (hj : j < outC)
    (hout : ¬ (0 ≤ (i : Int) * S - P + kr ∧ (i : Int) * S - P + kr < iR ∧
               0 ≤ (j : Int) * S - P + kc ∧ (j : Int) * S - P + kc < iC)) :
    (∀ p : PointIn2DBlock, InRange (config K P S iR iC iD iB) p →
      (((b * outR * outC + i * outC + j) + (d * K * K + kr * K + kc) * oC : Nat) : Int)
        ∉ _fmap_lower_indices (config K P S iR iC iD iB) p) ∧
    (∀ (pts : List PointIn2DBlock) (out0 : Buffer),
      (∀ p ∈ pts, InRange (config K P S iR iC iD iB) p) → (∀ n, out0 n = 0) →
      lower_points (config K P S iR iC iD iB) pts out0
        (((b * outR * outC + i * outC + j) + (d * K * K + kr * K + kc) * oC : Nat) : Int)
        = 0) := by
  subst houtR houtC hoC
  have key : ∀ p : PointIn2DBlock, InRange (config K P S iR iC iD iB) p →
      ((lowered_index (config K P S iR iC iD iB) d kr kc b i j : Nat) : Int)
        ∉ _fmap_lower_indices (config K P S iR iC iD iB) p := by
    intro p hp
    refine padding_cell_not_written (config K P S iR iC iD iB) p hS hR hC
      (exactEnds_of_small _ ⟨hRb, hCb⟩ hR hC p hp) hp hkr hkc hb hi hj ?_
    intro h
    apply hout
    simp only [config] at h
    omega
  refine ⟨key, ?_⟩
  intro pts out0 hin hzero
  have := lower_points_untouched (config K P S iR iC iD iB)
    ((lowered_index (config K P S iR iC iD iB) d kr kc b i j : Nat) : Int) pts out0
    (fun p hp => key p (hin p hp))
  exact this.trans (hzero _)

/-- The lemma `padding_zero_fill_small` with padding (2 × 2 input, `K = 2`, `S = 1`,
`P = 1`): the cell of kernel offset `(0, 0)` of the corner window `(0, 0)` has its source
at `(-1, -1)`. -/
theorem padding_zero_fill_small_scenario :
    (∀ p : PointIn2DBlock, InRange (config 2 1 1 2 2 1 1) p →
      (((0 * 3 * 3 + 0 * 3 + 0) + (0 * 2 * 2 + 0 * 2 + 0) * 9 : Nat) : Int)
        ∉ _fmap_lower_indices (config 2 1 1 2 2 1 1) p) ∧
    (∀ (pts : List PointIn2DBlock) (out0 : Buffer),
      (∀ p ∈ pts, InRange (config 2 1 1 2 2 1 1) p) → (∀ n, out0 n = 0) →
      lower_points (config 2 1 1 2 2 1 1) pts out0
        (((0 * 3 * 3 + 0 * 3 + 0) + (0 * 2 * 2 + 0 * 2 + 0) * 9 : Nat) : Int) = 0) :=
  padding_zero_fill_small 2 1 1 2 2 1 1 (by decide) (by decide) (by decide) (by decide)
    (by decide) 3 3 9 (by decide) (by decide) (by decide) 0 0 0 0 0 0 (by decide) (by decide)
    (by decide) (by decide) (by decide) (by decide)

/-- Each destination cell of the forward pass is written by exactly one source element,
for sizes at which the loop ends are computed without rounding.  For a valid
configuration (`S ≥ 1`, `K ≤ iR + 2P`, `K ≤ iC + 2P`) with `iR + P ≤ 2^24` and
`iC + P ≤ 2^24` and in-range input points `p` and `q`: within the call for `p` no output
index is stored to twice, and if `p` and `q` are at different positions
`(ir, ic, id, ib)` the indices stored to by the two calls are disjoint. -/
theorem single_writer_small
    (K P S iR iC iD iB : Nat) (hS : 1 ≤ S) (hR : K ≤ iR + 2 * P) (hC : K ≤ iC + 2 * P)
    (hRb : iR + P ≤ 16777216) (hCb : iC + P ≤ 16777216)
    (p q : PointIn2DBlock) (hp : InRange (config K P S iR iC iD iB) p)
    (hq : InRange (config K P S iR iC iD iB) q) :
    (_fmap_lower_indices (config K P S iR iC iD iB) p).Nodup ∧
    ((p.r, p.c, p.block.d, p.block.b) ≠ (q.r, q.c, q.block.d, q.block.b) →
      ∀ k : Int, k ∈ _fmap_lower_indices (config K P S iR iC iD iB) p →
        k ∉ _fmap_lower_indices (config K P S iR iC iD iB) q) :=
  ⟨fmap_lower_indices_nodup (config K P S iR iC iD iB) p hS hR hC
     (exactEnds_of_small _ ⟨hRb, hCb⟩ hR hC p hp) hp,
   fun hne k hk =>
     fmap_lower_indices_disjoint (config K P S iR iC iD iB) p q hS hR hC
       (exactEnds_of_small _ ⟨hRb, hCb⟩ hR hC p hp)
       (exactEnds_of_small _ ⟨hRb, hCb⟩ hR hC q hq) hp hq hne k hk⟩

/-- The lemma `single_writer_small` at the overlapping configuration `K = 2`, `S = 1`,
`P = 1` on a 2 × 2 input, for the points `(0, 0)` and `(0, 1)`. -/
theorem single_writer_small_scenario :
    (_fmap_lower_indices (config 2 1 1 2 2 1 1) (mkPoint 0 0 0 0 5)).Nodup ∧
    (((mkPoint 0 0 0 0 5).r, (mkPoint 0 0 0 0 5).c, (mkPoint 0 0 0 0 5).block.d,
        (mkPoint 0 0 0 0 5).block.b) ≠
      ((mkPoint 0 1 0 0 7).r, (mkPoint 0 1 0 0 7).c, (mkPoint 0 1 0 0 7).block.d,
        (mkPoint 0 1 0 0 7).block.b) →
      ∀ k : Int, k ∈ _fmap_lower_indices (config 2 1 1 2 2 1 1) (mkPoint 0 0 0 0 5) →
        k ∉ _fmap_lower_indices (config 2 1 1 2 2 1 1) (mkPoint 0 1 0 0 7)) :=
  single_writer_small 2 1 1 2 2 1 1 (by decide) (by decide) (by decide) (by decide)
    (by decide) (mkPoint 0 0 0 0 5) (mkPoint 0 1 0 0 7) (by decide) (by decide)

/-- Shape invariant of the forward pass, for sizes at which the loop ends are computed
without rounding.  For a configuration with `S ≥ 1`, `K ≤ iR + 2P`, `K ≤ iC + 2P`,
`iR + P ≤ 2^24`, `iC + P ≤ 2^24` and an in-range input point, every store of `_fmap_lower`
targets a row `o_row` with `0 ≤ o_row < K*K*iD` and a column `o_col` with
`0 ≤ o_col < ((iR+2P-K)/S + 1) * ((iC+2P-K)/S + 1) * iB`; `oC` is that number of columns,
and the linear index `o_col + o_row*oC` lies inside a buffer of
`(K*K*iD) × (outR*outC*iB)` cells. -/
theorem forward_shape_small
    (K P S iR iC iD iB : Nat) (hS : 1 ≤ S) (hR : K ≤ iR + 2 * P) (hC : K ≤ iC + 2 * P)
    (hRb : iR + P ≤ 16777216) (hCb : iC + P ≤ 16777216)
    (p : PointIn2DBlock) (hp : InRange (config K P S iR iC iD iB) p)
    (o_col o_row : Int)
    (ht : (o_col, o_row) ∈ _fmap_lower_targets (config K P S iR iC iD iB) p) :
    0 ≤ o_row ∧ o_row < ((K * K * iD : Nat) : Int) ∧
    0 ≤ o_col ∧
    o_col < ((((iR + 2 * P - K) / S + 1) * ((iC + 2 * P - K) / S + 1) * iB : Nat) : Int) ∧
    lowered_oC (config K P S iR iC iD iB) =
      ((((iR + 2 * P - K) / S + 1) * ((iC + 2 * P - K) / S + 1) * iB : Nat) : Int) ∧
    0 ≤ o_col + o_row * lowered_oC (config K P S iR iC iD iB) ∧
    o_col + o_row * lowered_oC (config K P S iR iC iD iB) <
      (((K * K * iD) * (((iR + 2 * P - K) / S + 1) * ((iC + 2 * P - K) / S + 1) * iB) : Nat)
        : Int) := by
  obtain ⟨i, j, hi, hj, heq⟩ :=
    (mem_fmap_lower_targets_iff (config K P S iR iC iD iB) p hS hR hC
      (exactEnds_of_small _ ⟨hRb, hCb⟩ hR hC p hp) _).mp ht
  obtain ⟨hcol, hrow⟩ := Prod.mk.inj heq
  have b1 := hi.1; have b2 := hi.2.1; have b3 := hj.1; have b4 := hj.2.1
  have hc := lowered_col_lt (config K P S iR iC iD iB) hp.2.2.2 (hi.lt_count hS)
    (hj.lt_count hS)
  have hr := lowered_row_lt (config K P S iR iC iD iB) hp.2.2.1
    (show p.r + (config K P S iR iC iD iB).padding - i * (config K P S iR iC iD iB).stride
      < (config K P S iR iC iD iB).kR by omega)
    (show p.c + (config K P S iR iC iD iB).padding - j * (config K P S iR iC iD iB).stride
      < (config K P S iR iC iD iB).kC by omega)
  have hoC : lowered_oC (config K P S iR iC iD iB) =
      ((((iR + 2 * P - K) / S + 1) * ((iC + 2 * P - K) / S + 1) * iB : Nat) : Int) := by
    unfold lowered_oC
    rw [output_R_eq _ hR, output_C_eq _ hC]
    simp only [outR, outC, config]
    push_cast
    ring
  have hcols : (config K P S iR iC iD iB).sB * outR (config K P S iR iC iD iB) *
      outC (config K P S iR iC iD iB) =
      ((iR + 2 * P - K) / S + 1) * ((iC + 2 * P - K) / S + 1) * iB := by
    simp only [outR, outC, config]; ring
  rw [hcols] at hc
  have hrows : (config K P S iR iC iD iB).kR * (config K P S iR iC iD iB).kC *
      (config K P S iR iC iD iB).sD = K * K * iD := rfl
  rw [hrows] at hr
  have hlin := two_digit_lt hc hr
  rw [hoC, hcol, hrow]
  refine ⟨by positivity, by exact_mod_cast hr, by positivity, by exact_mod_cast hc, rfl,
    by positivity, ?_⟩
  exact_mod_cast hlin

/-- The lemma `forward_shape_small` at the 4 × 4 scenario: the store of the call for the
point `(2, 1)` targets column 2 and row 1 of the 4 × 4 lowered matrix. -/
theorem forward_shape_small_scenario :
    0 ≤ (1 : Int) ∧ (1 : Int) < ((2 * 2 * 1 : Nat) : Int) ∧
    0 ≤ (2 : Int) ∧
    (2 : Int) < ((((4 + 2 * 0 - 2) / 2 + 1) * ((4 + 2 * 0 - 2) / 2 + 1) * 1 : Nat) : Int) ∧
    lowered_oC (config 2 0 2 4 4 1 1) =
      ((((4 + 2 * 0 - 2) / 2 + 1) * ((4 + 2 * 0 - 2) / 2 + 1) * 1 : Nat) : Int) ∧
    0 ≤ (2 : Int) + 1 * lowered_oC (config 2 0 2 4 4 1 1) ∧
    (2 : Int) + 1 * lowered_oC (config 2 0 2 4 4 1 1) <
      (((2 * 2 * 1) * (((4 + 2 * 0 - 2) / 2 + 1) * ((4 + 2 * 0 - 2) / 2 + 1) * 1) : Nat)
        : Int) :=
  forward_shape_small 2 0 2 4 4 1 1 (by decide) (by decide) (by decide) (by decide)
    (by decide) (mkPoint 2 1 0 0 10) (by decide) 2 1 (by decide)

/-- Window starts never fall before the padded border and stay stride-aligned; where the
loop end is computed without rounding they also stay at or before the input position.
In `_fmap_lower`, for every configuration with `S ≥ 1`, at every iteration
`r ≥ r_begin ≥ -padding`, `r + padding ≥ 0`, `r + padding = i*stride` and `ir - r < kR`
(whatever the loop end); and `0 ≤ ir - r` if both arguments of `device_min` are at most
`2^24` in magnitude and `ir < 2^24`.  The same for the columns. -/
theorem window_starts_aligned_exact (a : PMapHelper) (hS : 1 ≤ a.stride) (ir ic : Nat) :
    (∀ r i : Int, (r, i) ∈ rowIters a ir →
      r_begin a ir ≤ r ∧ -(a.padding : Int) ≤ r_begin a ir ∧ 0 ≤ r + a.padding ∧
      r + a.padding = i * a.stride ∧ (ir : Int) - r < a.kR ∧
      (FloatExact a.sR a.kR a.padding ir → 0 ≤ (ir : Int) - r)) ∧
    (∀ c j : Int, (c, j) ∈ colIters a ic →
      c_begin a ic ≤ c ∧ -(a.padding : Int) ≤ c_begin a ic ∧ 0 ≤ c + a.padding ∧
      c + a.padding = j * a.stride ∧ (ic : Int) - c < a.kC ∧
      (FloatExact a.sC a.kC a.padding ic → 0 ≤ (ic : Int) - c)) := by
  constructor
  · intro r i h
    obtain ⟨h1, h2, h3, h4, -, -, h7⟩ :=
      axis_iters_any_end ir a.kR a.padding a.stride hS (r_end a ir) r i h
    refine ⟨h1, h2, h3, h4, h7, fun hx => ?_⟩
    rw [rowIters_exact a ir hx] at h
    exact (axis_iters_invariant ir a.sR a.kR a.padding a.stride hS r i h).2.2.2.2.2.2.1
  · intro c j h
    obtain ⟨h1, h2, h3, h4, -, -, h7⟩ :=
      axis_iters_any_end ic a.kC a.padding a.stride hS (c_end a ic) c j h
    refine ⟨h1, h2, h3, h4, h7, fun hx => ?_⟩
    rw [colIters_exact a ic hx] at h
    exact (axis_iters_invariant ic a.sC a.kC a.padding a.stride hS c j h).2.2.2.2.2.2.1

/-- Forward and inverse lowering are adjoint, for sizes at which the loop ends are
computed without rounding.  For a valid configuration (`S ≥ 1`, `K ≤ iR + 2P`,
`K ≤ iC + 2P`) with `iR + P ≤ 2^24` and `iC + P ≤ 2^24`, every input tensor `x` and every
lowered matrix `G` of `K*K*iD` rows and `((iR+2P-K)/S + 1) * ((iC+2P-K)/S + 1) * iB`
columns (cells are exact rationals): the sum over all cells of the lowered matrix of
`lower(x)[cell] * G[cell]` equals the sum over all cells of the tensor of
`x[cell] * inverse_lower(G)[cell]`, where `lower(x)` is `_fmap_lower` run over all points
of `x` (in any order) into a zero buffer and `inverse_lower(G)` is
`_f_inverse_lower_cube` run per depth slab into a zero tensor. -/
theorem adjoint_small
    (K P S iR iC iD iB : Nat) (hS : 1 ≤ S) (hR : K ≤ iR + 2 * P) (hC : K ≤ iC + 2 * P)
    (hRb : iR + P ≤ 16777216) (hCb : iC + P ≤ 16777216)
    (x : Tensor) (G : Buffer) (pts : List PointIn2DBlock)
    (hpts : Presents (config K P S iR iC iD iB) x pts) :
    (∑ row ∈ Finset.range (K * K * iD),
      ∑ col ∈ Finset.range (((iR + 2 * P - K) / S + 1) * ((iC + 2 * P - K) / S + 1) * iB),
        lower_points (config K P S iR iC iD iB) pts zero_buffer
            ((col + row * (((iR + 2 * P - K) / S + 1) * ((iC + 2 * P - K) / S + 1) * iB) : Nat) :
              Int) *
          G ((col + row * (((iR + 2 * P - K) / S + 1) * ((iC + 2 * P - K) / S + 1) * iB) : Nat) :
              Int)) =
      ∑ b ∈ Finset.range iB, ∑ d ∈ Finset.range iD, ∑ r ∈ Finset.range iR,
        ∑ c ∈ Finset.range iC,
          x r c d b * inverse_lower_slabs (config K P S iR iC iD iB) G zero_buffer
            (tensor_index (config K P S iR iC iD iB) r c d b) := by
  have e1 : K * K * iD = (config K P S iR iC iD iB).sD *
      ((config K P S iR iC iD iB).kR * (config K P S iR iC iD iB).kC) := by
    show K * K * iD = iD * (K * K)
    ring
  have e2 : ((iR + 2 * P - K) / S + 1) * ((iC + 2 * P - K) / S + 1) * iB =
      (config K P S iR iC iD iB).sB *
        (outR (config K P S iR iC iD iB) * outC (config K P S iR iC iD iB)) := by
    show ((iR + 2 * P - K) / S + 1) * ((iC + 2 * P - K) / S + 1) * iB =
      iB * (((iR + 2 * P - K) / S + 1) * ((iC + 2 * P - K) / S + 1))
    ring
  rw [e1, e2, sum_lowered_cells (config K P S iR iC iD iB)
    (fun n => lower_points (config K P S iR iC iD iB) pts zero_buffer ((n : Nat) : Int) *
      G ((n : Nat) : Int))]
  exact adjoint_by_coordinates (config K P S iR iC iD iB) rfl hS hR hC ⟨hRb, hCb⟩ x G pts hpts

/-- The value of the inverse pass of the all-ones lowered matrix at a cell: the number of
windows that cover the cell. -/
theorem inverse_ones_cell (a : PMapHelper) (hK : a.kC = a.kR) (hS : 0 < a.stride)
    {r c d b : Nat} (hr : r < a.sR) (hc : c < a.sC) (hd : d < a.sD) (hb : b < a.sB) :
    inverse_lower_slabs a (fun _ => 1) zero_buffer (tensor_index a r c d b) =
      (cover_count a.kR a.stride a.padding (outR a) (outC a) r c : ℚ) := by
  rw [inverse_slabs_cell a hK hS _ _ hr hc hd hb]
  show (0 : ℚ) + _ = _
  rw [zero_add]
  have := sum_windows a.kR a.stride a.padding (outR a) (outC a) r c (fun _ _ _ _ => 1) 1
    (fun _ _ _ _ _ _ _ _ _ _ => rfl)
  rw [mul_one] at this
  exact this

/-- The lemma `adjoint_small` with overlapping windows (`K = 2`, `S = 1`, `P = 0` on the
3 × 3 input 1..9) and the lowered matrix that holds 1 in every cell: both sums are 80,
the sum of the cells of the input, each counted once per window that covers it. -/
theorem adjoint_small_scenario :
    ((∑ row ∈ Finset.range (2 * 2 * 1),
      ∑ col ∈ Finset.range (((3 + 2 * 0 - 2) / 1 + 1) * ((3 + 2 * 0 - 2) / 1 + 1) * 1),
        lower_points (config 2 0 1 3 3 1 1)
            (tensor_points (config 2 0 1 3 3 1 1) ramp3_tensor) zero_buffer
            ((col + row * (((3 + 2 * 0 - 2) / 1 + 1) * ((3 + 2 * 0 - 2) / 1 + 1) * 1) : Nat) :
              Int) *
          (fun _ => (1 : ℚ))
            ((col + row * (((3 + 2 * 0 - 2) / 1 + 1) * ((3 + 2 * 0 - 2) / 1 + 1) * 1) : Nat) :
              Int)) =
      ∑ b ∈ Finset.range 1, ∑ d ∈ Finset.range 1, ∑ r ∈ Finset.range 3,
        ∑ c ∈ Finset.range 3,
          ramp3_tensor r c d b * inverse_lower_slabs (config 2 0 1 3 3 1 1) (fun _ => 1)
            zero_buffer (tensor_index (config 2 0 1 3 3 1 1) r c d b)) ∧
    (∑ b ∈ Finset.range 1, ∑ d ∈ Finset.range 1, ∑ r ∈ Finset.range 3,
        ∑ c ∈ Finset.range 3,
          ramp3_tensor r c d b * inverse_lower_slabs (config 2 0 1 3 3 1 1) (fun _ => 1)
            zero_buffer (tensor_index (config 2 0 1 3 3 1 1) r c d b)) = 80 := by
  refine ⟨adjoint_small 2 0 1 3 3 1 1 (by decide) (by decide) (by decide) (by decide)
    (by decide) ramp3_tensor (fun _ => 1) _ (tensor_points_presents _ _), ?_⟩
  have h : ∀ r c : Nat, r < 3 → c < 3 →
      inverse_lower_slabs (config 2 0 1 3 3 1 1) (fun _ => 1) zero_buffer
        (tensor_index (config 2 0 1 3 3 1 1) r c 0 0) = (cover_count 2 1 0 2 2 r c : ℚ) :=
    fun r c hr hc => inverse_ones_cell (config 2 0 1 3 3 1 1) rfl (by decide) hr hc
      (by decide) (by decide)
  have c00 : cover_count 2 1 0 2 2 0 0 = 1 := by decide
  have c01 : cover_count 2 1 0 2 2 0 1 = 2 := by decide
  have c02 : cover_count 2 1 0 2 2 0 2 = 1 := by decide
  have c10 : cover_count 2 1 0 2 2 1 0 = 2 := by decide
  have c11 : cover_count 2 1 0 2 2 1 1 = 4 := by decide
  have c12 : cover_count 2 1 0 2 2 1 2 = 2 := by decide
  have c20 : cover_count 2 1 0 2 2 2 0 = 1 := by decide
  have c21 : cover_count 2 1 0 2 2 2 1 = 2 := by decide
  have c22 : cover_count 2 1 0 2 2 2 2 = 1 := by decide
  simp only [Finset.sum_range_succ, Finset.sum_range_zero, zero_add]
  rw [h 0 0 (by decide) (by decide), h 0 1 (by decide) (by decide),
    h 0 2 (by decide) (by decide), h 1 0 (by decide) (by decide),
    h 1 1 (by decide) (by decide), h 1 2 (by decide) (by decide),
    h 2 0 (by decide) (by decide), h 2 1 (by decide) (by decide),
    h 2 2 (by decide) (by decide), c00, c01, c02, c10, c11, c12, c20, c21, c22]
  unfold ramp3_tensor
  norm_num

/-! ## The forward pass at sizes where the loop ends are rounded -/

/-- A call whose row loop does not run stores nothing. -/
theorem fmap_lower_indices_of_no_row (a : PMapHelper) (p : PointIn2DBlock)
    (h : rowIters a p.r = []) : _fmap_lower_indices a p = [] := by
  unfold _fmap_lower_indices _fmap_lower_targets
  rw [h]
  rfl

/-- After the forward pass into a zero buffer over points each of which carries 0 or
stores nothing, every cell is 0. -/
theorem lower_points_all_zero (a : PMapHelper) (pts : List PointIn2DBlock)
    (h : ∀ p ∈ pts, p.data = 0 ∨ _fmap_lower_indices a p = []) (n : Int) :
    lower_points a pts zero_buffer n = 0 := by
  by_cases hex : ∃ p ∈ pts, n ∈ _fmap_lower_indices a p
  · apply lower_points_written a n 0 pts zero_buffer _ hex
    intro p hp hn
    rcases h p hp with h0 | h0
    · exact h0
    · rw [h0] at hn
      cases hn
  · rw [lower_points_untouched a n pts zero_buffer (fun p hp hn => hex ⟨p, hp, hn⟩)]
    rfl

/-- In the configuration `K = 1`, `S = 1`, `P = 0` on a 16777217 × 1 × 1 × 1 input, the
loop ends of the calls for the rows below `2^24` are computed without rounding. -/
theorem long_column_exact (p : PointIn2DBlock)
    (hp : InRange (config 1 0 1 16777217 1 1 1) p) (h : p.r < 16777216) :
    ExactEnds (config 1 0 1 16777217 1 1 1) p := by
  have hc : p.c < 1 := hp.2.1
  exact ⟨⟨h, by decide, by decide⟩, ⟨by omega, by decide, by decide⟩⟩

/-- In that configuration the call for row `2^24` stores nothing: `r_end` is
`float(2^24) + 1 = 2^24` in `float`, which is `r_begin`. -/
theorem long_column_last_row (p : PointIn2DBlock) (h : p.r = 16777216) :
    _fmap_lower_indices (config 1 0 1 16777217 1 1 1) p = [] := by
  apply fmap_lower_indices_of_no_row
  rw [h]
  decide

/-- In that configuration no call for an in-range point stores to the cell of window
`2^24` (index `2^24` of the lowered matrix). -/
theorem long_column_cell_not_written (p : PointIn2DBlock)
    (hp : InRange (config 1 0 1 16777217 1 1 1) p) :
    (16777216 : Int) ∉ _fmap_lower_indices (config 1 0 1 16777217 1 1 1) p := by
  intro hmem
  by_cases h : p.r < 16777216
  · have hidx : ((lowered_index (config 1 0 1 16777217 1 1 1) 0 0 0 0 16777216 0 : Nat) : Int)
        = 16777216 := by decide
    rw [← hidx] at hmem
    obtain ⟨-, -, e3, -⟩ := @written_cell_source (config 1 0 1 16777217 1 1 1) p (by decide)
      (by decide) (by decide) (long_column_exact p hp h) hp 0 0 0 0 16777216 0 (by decide)
      (by decide) (by decide) (by decide) (by decide) hmem
    simp only [config] at e3
    omega
  · have h1 : p.r < 16777217 := hp.1
    rw [long_column_last_row p (by omega)] at hmem
    cases hmem

/-- The number of windows that cover row `2^24` of a 16777217 × 1 map with `K = 1`,
`S = 1`, `P = 0` is 1. -/
theorem long_column_cover_count : cover_count 1 1 0 16777217 1 16777216 0 = 1 := by
  unfold cover_count
  rw [Finset.card_eq_one]
  refine ⟨(16777216, 0), ?_⟩
  ext ⟨i, j⟩
  simp only [Finset.mem_filter, Finset.mem_product, Finset.mem_range, Finset.mem_singleton,
    Prod.mk.injEq, covers]
  constructor
  · rintro ⟨⟨-, hj⟩, ⟨h1, h2⟩, -⟩
    push_cast at h1 h2
    exact ⟨by omega, by omega⟩
  · rintro ⟨rfl, rfl⟩
    refine ⟨⟨by decide, by decide⟩, ⟨?_, ?_⟩, ⟨?_, ?_⟩⟩ <;> norm_num

/-! # The claims -/

/-- C1 (defect of the code): forward lowering misses the cell of the window at row `2^24`.
With `K = 1`, `S = 1`, `P = 0` on a 16777217 × 1 × 1 × 1 input (a valid configuration:
`outR = 16777217`, `outC = 1`, `oC = 16777217`), line 216 computes
`r_end = device_min(ir, iR - kR + padding) + 1` in `float`: for the point at row
`ir = 2^24` it is `float(2^24) + 1`, which rounds to `2^24 = r_begin`, so the loop of
line 232 does not run and the call stores nothing.  The cell `d = kr = kc = b = 0`,
`i = 2^24`, `j = 0` (linear index `2^24`) has its source at row `2^24`, inside the input,
but after `_fmap_lower` has been run for every point of the tensor that holds 1 at row
`2^24` and 0 elsewhere (into a zero buffer) the cell holds 0, not 1. -/
theorem C1_forward_lowering_misses_cell :
    (1 ≤ 1 ∧ 1 ≤ 16777217 + 2 * 0 ∧ 1 ≤ 1 + 2 * 0 ∧
      (16777217 + 2 * 0 - 1) / 1 + 1 = 16777217 ∧ (1 + 2 * 0 - 1) / 1 + 1 = 1) ∧
    (r_begin (config 1 0 1 16777217 1 1 1) 16777216 = 16777216 ∧
      r_end (config 1 0 1 16777217 1 1 1) 16777216 = 16777216 ∧
      _fmap_lower_indices (config 1 0 1 16777217 1 1 1) (mkPoint 16777216 0 0 0 1) = []) ∧
    (((16777216 : Nat) : Int) = (16777216 : Int) * 1 - 0 + 0 ∧ 16777216 < 16777217 ∧
      one_hot 16777216 0 0 0 1 16777216 0 0 0 = 1) ∧
    lower_points (config 1 0 1 16777217 1 1 1)
      (tensor_points (config 1 0 1 16777217 1 1 1) (one_hot 16777216 0 0 0 1)) zero_buffer
      (((0 * 16777217 * 1 + 16777216 * 1 + 0) + (0 * 1 * 1 + 0 * 1 + 0) * 16777217 : Nat) : Int)
      = 0 := by
  refine ⟨by decide, ⟨by decide, by decide, by decide⟩, ⟨by decide, by decide, ?_⟩, ?_⟩
  · unfold one_hot
    exact if_pos ⟨rfl, rfl, rfl, rfl⟩
  · have hn : (((0 * 16777217 * 1 + 16777216 * 1 + 0) + (0 * 1 * 1 + 0 * 1 + 0) * 16777217 : Nat)
        : Int) = 16777216 := by decide
    rw [hn, lower_points_untouched (config 1 0 1 16777217 1 1 1) 16777216 _ zero_buffer
      (fun p hp => long_column_cell_not_written p
        ((tensor_points_presents _ _).1 p hp).1)]
    rfl

/-- C3 (defect of the code): a call stores into a padding cell.  With `K = 2`, `S = 1`,
`P = 1` on a 16777220 × 1 × 2 × 1 input (`outR = 16777221`, `outC = 2`, `oC = 33554442`),
for the in-range point at row 16777218, column 0, depth 1, line 216 computes in `float`
`r_end = float(16777218) + 1 = 16777220` instead of `16777219`, so the loop of line 232
runs a third time, at `r = 16777219` with `dr = -1`, and the call stores into rows 3 and 2
of columns 33554440 and 33554441.  The cell in row 3 (`d = 0`, `kr = 1`, `kc = 1`) of
column 33554440 (`b = 0`, window `i = 16777220`, `j = 0`) has its source at row
`i*S - P + kr = 16777220 = iR`, outside the input; the call stores the value of the point
there. -/
theorem C3_padding_cell_written :
    (1 ≤ 1 ∧ 2 ≤ 16777220 + 2 * 1 ∧ 2 ≤ 1 + 2 * 1 ∧
      (16777220 + 2 * 1 - 2) / 1 + 1 = 16777221 ∧ (1 + 2 * 1 - 2) / 1 + 1 = 2) ∧
    InRange (config 2 1 1 16777220 1 2 1) (mkPoint 16777218 0 1 0 7) ∧
    (r_begin (config 2 1 1 16777220 1 2 1) 16777218 = 16777217 ∧
      r_end (config 2 1 1 16777220 1 2 1) 16777218 = 16777220 ∧
      rowIters (config 2 1 1 16777220 1 2 1) 16777218 =
        [(16777217, 16777218), (16777218, 16777219), (16777219, 16777220)]) ∧
    ((1 < 2 ∧ 1 < 2 ∧ 0 < 1 ∧ 16777220 < 16777221 ∧ 0 < 2) ∧
      ¬ (0 ≤ (16777220 : Int) * 1 - 1 + 1 ∧ (16777220 : Int) * 1 - 1 + 1 < 16777220 ∧
         0 ≤ (0 : Int) * 1 - 1 + 1 ∧ (0 : Int) * 1 - 1 + 1 < 1)) ∧
    (((0 * 16777221 * 2 + 16777220 * 2 + 0) + (0 * 2 * 2 + 1 * 2 + 1) * 33554442 : Nat) : Int)
      ∈ _fmap_lower_indices (config 2 1 1 16777220 1 2 1) (mkPoint 16777218 0 1 0 7) ∧
    _fmap_lower zero_buffer (mkPoint 16777218 0 1 0 7) (config 2 1 1 16777220 1 2 1)
      (((0 * 16777221 * 2 + 16777220 * 2 + 0) + (0 * 2 * 2 + 1 * 2 + 1) * 33554442 : Nat) : Int)
      = 7 := by
  have hmem : (((0 * 16777221 * 2 + 16777220 * 2 + 0) + (0 * 2 * 2 + 1 * 2 + 1) * 33554442 : Nat)
      : Int) ∈ _fmap_lower_indices (config 2 1 1 16777220 1 2 1) (mkPoint 16777218 0 1 0 7) := by
    decide
  refine ⟨by decide, by decide, ⟨by decide, by decide, by decide⟩, ⟨by decide, by decide⟩,
    hmem, ?_⟩
  rw [fmap_lower_apply, if_pos hmem]
  rfl

/-- C4 (defect of the code): two calls store to the same cell.  With `K = 1`, `S = 1`,
`P = 0` on a 16777220 × 1 × 2 × 1 input (`oC = 16777220`), for the point `p` at row
16777218 of depth 1 line 216 computes in `float` `r_end = float(16777218) + 1 = 16777220`
instead of `16777219`, so the loop of line 232 runs a second time, at `r = 16777219` with
`dr = -1`, and stores at row `dr + id*kR*kC = 0`, column 16777219: index 16777219, the
cell that the call for the point `q` at row 16777219 of depth 0 stores to. -/
theorem C4_two_writers :
    (1 ≤ 1 ∧ 1 ≤ 16777220 + 2 * 0 ∧ 1 ≤ 1 + 2 * 0) ∧
    InRange (config 1 0 1 16777220 1 2 1) (mkPoint 16777218 0 1 0 5) ∧
    InRange (config 1 0 1 16777220 1 2 1) (mkPoint 16777219 0 0 0 7) ∧
    ((mkPoint 16777218 0 1 0 5).r, (mkPoint 16777218 0 1 0 5).c,
        (mkPoint 16777218 0 1 0 5).block.d, (mkPoint 16777218 0 1 0 5).block.b) ≠
      ((mkPoint 16777219 0 0 0 7).r, (mkPoint 16777219 0 0 0 7).c,
        (mkPoint 16777219 0 0 0 7).block.d, (mkPoint 16777219 0 0 0 7).block.b) ∧
    _fmap_lower_indices (config 1 0 1 16777220 1 2 1) (mkPoint 16777218 0 1 0 5) =
      [33554438, 16777219] ∧
    _fmap_lower_indices (config 1 0 1 16777220 1 2 1) (mkPoint 16777219 0 0 0 7) =
      [16777219] ∧
    (16777219 : Int) ∈ _fmap_lower_indices (config 1 0 1 16777220 1 2 1)
      (mkPoint 16777218 0 1 0 5) ∧
    (16777219 : Int) ∈ _fmap_lower_indices (config 1 0 1 16777220 1 2 1)
      (mkPoint 16777219 0 0 0 7) := by
  decide

/-- C8 (defect of the code): a store outside the lowered matrix.  With `K = 1`, `S = 1`,
`P = 0` on a 16777220 × 1 × 1 × 1 input (a lowered matrix of 1 row and 16777220 columns),
for the in-range point at row 16777218 line 216 computes in `float`
`r_end = float(16777218) + 1 = 16777220` instead of `16777219`, so the loop of line 232
runs a second time, at `r = 16777219` with `dr = -1`: that store targets row
`o_row = -1` of column 16777219, the linear index `16777219 + (-1)*16777220 = -1`. -/
theorem C8_store_outside_matrix :
    (1 ≤ 1 ∧ 1 ≤ 16777220 + 2 * 0 ∧ 1 ≤ 1 + 2 * 0) ∧
    InRange (config 1 0 1 16777220 1 1 1) (mkPoint 16777218 0 0 0 7) ∧
    r_end (config 1 0 1 16777220 1 1 1) 16777218 = 16777220 ∧
    _fmap_lower_targets (config 1 0 1 16777220 1 1 1) (mkPoint 16777218 0 0 0 7) =
      [(16777218, 0), (16777219, -1)] ∧
    ((16777219 : Int), (-1 : Int)) ∈
      _fmap_lower_targets (config 1 0 1 16777220 1 1 1) (mkPoint 16777218 0 0 0 7) ∧
    ¬ (0 ≤ (-1 : Int)) ∧
    lowered_oC (config 1 0 1 16777220 1 1 1) = 16777220 ∧
    (16777219 : Int) + (-1) * lowered_oC (config 1 0 1 16777220 1 1 1) = -1 ∧
    (-1 : Int) ∈ _fmap_lower_indices (config 1 0 1 16777220 1 1 1) (mkPoint 16777218 0 0 0 7) := by
  decide

/-- C9 (as amended): the read counter of the inverse pass advances for skipped cells.
For a configuration with `S ≥ 1`: each time the innermost body is entered, at kernel
offset `(kr, kc)`, batch `ib`, window row `i` (`cr = i*S`) and window column `j`
(`cc = j*S`), the counter `out_index` equals `((kr*K + kc)*iB + ib)*ow*oh + i*oh + j`;
the body is entered for every window of every row that is not skipped, whatever was
skipped before; a skipped row changes nothing but advances `out_index` by exactly `oh`;
and on return `out_index = K*K*iB*ow*oh`. -/
theorem C9_counter_advances_on_skips (arg : _inverse_lower_cube_arg_helper)
    (hS : 1 ≤ arg.stride) (input : Buffer) (output_data : Nat → ℚ) :
    (∀ v ∈ (_f_inverse_lower_cube_state input output_data arg).visits,
      ∃ i j : Nat, i < arg.data_output_width ∧ j < arg.data_output_height ∧
        v.kr < arg.kernel_size ∧ v.kc < arg.kernel_size ∧ v.ib < arg.iB ∧
        v.cr = i * arg.stride ∧ v.cc = j * arg.stride ∧
        v.out_index = ((v.kr * arg.kernel_size + v.kc) * arg.iB + v.ib) *
          arg.data_output_width * arg.data_output_height + i * arg.data_output_height + j) ∧
    (∀ kr kc ib i j : Nat, kr < arg.kernel_size → kc < arg.kernel_size → ib < arg.iB →
      i < arg.data_output_width → j < arg.data_output_height →
      (0 ≤ ((i * arg.stride : Nat) : Int) + kr - arg.padding ∧
        ((i * arg.stride : Nat) : Int) + kr - arg.padding < arg.iR) →
      (⟨kr, kc, ib, i * arg.stride, j * arg.stride,
        ((kr * arg.kernel_size + kc) * arg.iB + ib) * arg.data_output_width *
          arg.data_output_height + i * arg.data_output_height + j⟩ : InvVisit) ∈
        (_f_inverse_lower_cube_state input output_data arg).visits) ∧
    (∀ (st : InvState) (kr kc ib cr : Nat) (batch_offset : Int),
      ¬ (0 ≤ (cr : Int) + kr - arg.padding ∧ (cr : Int) + kr - arg.padding < arg.iR) →
      (inverse_row arg output_data kr kc ib batch_offset st cr).out_index =
          st.out_index + arg.data_output_height ∧
        (inverse_row arg output_data kr kc ib batch_offset st cr).input_data = st.input_data ∧
        (inverse_row arg output_data kr kc ib batch_offset st cr).visits = st.visits) ∧
    (_f_inverse_lower_cube_state input output_data arg).out_index =
      arg.kernel_size * arg.kernel_size * arg.iB * arg.data_output_width *
        arg.data_output_height := by
  obtain ⟨h1, -, h3⟩ := inverse_state_spec arg hS input output_data
  refine ⟨?_, ?_, ?_, h1⟩
  · intro v hv
    rw [h3] at hv
    simp only [List.mem_flatMap, List.mem_range, row_visits] at hv
    obtain ⟨kr, hkr, kc, hkc, ib, hib, i, hi, hv⟩ := hv
    split_ifs at hv with hrow
    · simp only [List.mem_flatMap, List.mem_range, List.mem_singleton] at hv
      obtain ⟨j, hj, rfl⟩ := hv
      exact ⟨i, j, hi, hj, hkr, hkc, hib, rfl, rfl, by simp only [inv_counter]; ring⟩
    · cases hv
  · intro kr kc ib i j hkr hkc hib hi hj hrow
    rw [h3]
    simp only [List.mem_flatMap, List.mem_range, row_visits]
    refine ⟨kr, hkr, kc, hkc, ib, hib, i, hi, ?_⟩
    rw [if_pos (show inv_row_ok arg kr i from hrow)]
    simp only [List.mem_flatMap, List.mem_range, List.mem_singleton]
    refine ⟨j, hj, ?_⟩
    simp only [inv_counter, Nat.add_zero]
  · intro st kr kc ib cr batch_offset hskip
    unfold inverse_row
    simp only
    rw [if_neg hskip]
    exact ⟨rfl, rfl, rfl⟩

/-- C9 (as amended) with padding (`K = 2`, `S = 1`, `P = 1` on a 2 × 2 map, 3 × 3 windows):
at kernel row 0 the window row 0 reads input row `-1` and is skipped, which advances
`out_index` from 0 to 3 and changes nothing else; the body is then entered for window
row 1, first with `out_index = 3`; and on return `out_index = 2*2*1*3*3 = 36`. -/
theorem C9_counter_advances_on_skips_witness :
    ¬ (0 ≤ ((0 : Nat) : Int) + (0 : Nat) - padded_arg.padding ∧
        ((0 : Nat) : Int) + (0 : Nat) - padded_arg.padding < padded_arg.iR) ∧
    ((inverse_row padded_arg (fun _ => 1) 0 0 0 0
          { input_data := zero_buffer, out_index := 0, visits := [] } 0).out_index =
        0 + padded_arg.data_output_height ∧
      (inverse_row padded_arg (fun _ => 1) 0 0 0 0
          { input_data := zero_buffer, out_index := 0, visits := [] } 0).input_data =
        zero_buffer ∧
      (inverse_row padded_arg (fun _ => 1) 0 0 0 0
          { input_data := zero_buffer, out_index := 0, visits := [] } 0).visits = []) ∧
    ((⟨0, 0, 0, 1 * padded_arg.stride, 0 * padded_arg.stride, 3⟩ : InvVisit) ∈
      (_f_inverse_lower_cube_state zero_buffer (fun _ => 1) padded_arg).visits) ∧
    (_f_inverse_lower_cube_state zero_buffer (fun _ => 1) padded_arg).visits.head? =
      some ⟨0, 0, 0, 1, 0, 3⟩ ∧
    (_f_inverse_lower_cube_state zero_buffer (fun _ => 1) padded_arg).out_index =
      padded_arg.kernel_size * padded_arg.kernel_size * padded_arg.iB *
        padded_arg.data_output_width * padded_arg.data_output_height :=
  ⟨by decide,
    (C9_counter_advances_on_skips padded_arg (by decide) zero_buffer (fun _ => 1)).2.2.1
      { input_data := zero_buffer, out_index := 0, visits := [] } 0 0 0 0 0 (by decide),
    (C9_counter_advances_on_skips padded_arg (by decide) zero_buffer (fun _ => 1)).2.1
      0 0 0 1 0 (by decide) (by decide) (by decide) (by decide) (by decide) (by decide),
    by decide,
    (C9_counter_advances_on_skips padded_arg (by decide) zero_buffer (fun _ => 1)).2.2.2⟩

/-- C9 as stated fails for stride 0: the loops over the windows do not run at all
(`cr < stride*ow` is `cr < 0`), so on return `out_index` is 0, not `K*K*iB*ow*oh = 1`. -/
theorem C9_counter_advances_on_skips_counterexample :
    (_f_inverse_lower_cube_state zero_buffer (fun _ => 1) stride0_arg).out_index = 0 ∧
    (_f_inverse_lower_cube_state zero_buffer (fun _ => 1) stride0_arg).out_index ≠
      stride0_arg.kernel_size * stride0_arg.kernel_size * stride0_arg.iB *
        stride0_arg.data_output_width * stride0_arg.data_output_height := by
  constructor <;> decide

/-- C10: the concrete 4 × 4 scenario.  With `iR = iC = 4`, `iD = iB = 1`, `K = 2`,
`S = 2`, `P = 0` and input values 1..16 in row-major order, running `_fmap_lower` over
all 16 input points (in any order) into a zero buffer gives the flat buffer
`[1,3,9,11, 2,4,10,12, 5,7,13,15, 6,8,14,16]`, whose four columns `output[j + row*4]`,
read top to bottom, are `[1,2,5,6]`, `[3,4,7,8]`, `[9,10,13,14]`, `[11,12,15,16]`. -/
theorem C10_scenario_4x4 (pts : List PointIn2DBlock)
    (hpts : Presents (config 2 0 2 4 4 1 1) scenario_tensor pts) :
    (List.range 16).map (fun k : Nat =>
        lower_points (config 2 0 2 4 4 1 1) pts zero_buffer (k : Int)) =
      [1, 3, 9, 11, 2, 4, 10, 12, 5, 7, 13, 15, 6, 8, 14, 16] ∧
    (List.range 4).map (fun j : Nat => (List.range 4).map (fun row : Nat =>
        lower_points (config 2 0 2 4 4 1 1) pts zero_buffer ((j : Int) + (row : Int) * 4))) =
      [[1, 2, 5, 6], [3, 4, 7, 8], [9, 10, 13, 14], [11, 12, 15, 16]] := by
  rw [lower_points_order_irrelevant (config 2 0 2 4 4 1 1) (by decide) (by decide) (by decide)
    (by decide) scenario_tensor pts (tensor_points (config 2 0 2 4 4 1 1) scenario_tensor) hpts
    (tensor_points_presents _ _) zero_buffer]
  constructor <;> decide

/-- C10 with the 16 points taken batch-major, then by depth, row and column. -/
theorem C10_scenario_4x4_witness :
    (List.range 16).map (fun k : Nat =>
        lower_points (config 2 0 2 4 4 1 1)
          (tensor_points (config 2 0 2 4 4 1 1) scenario_tensor) zero_buffer (k : Int)) =
      [1, 3, 9, 11, 2, 4, 10, 12, 5, 7, 13, 15, 6, 8, 14, 16] ∧
    (List.range 4).map (fun j : Nat => (List.range 4).map (fun row : Nat =>
        lower_points (config 2 0 2 4 4 1 1)
          (tensor_points (config 2 0 2 4 4 1 1) scenario_tensor) zero_buffer
          ((j : Int) + (row : Int) * 4))) =
      [[1, 2, 5, 6], [3, 4, 7, 8], [9, 10, 13, 14], [11, 12, 15, 16]] :=
  C10_scenario_4x4 _ (tensor_points_presents _ _)

/-- C11: the concrete scenario with padding.  With a 2 × 2 × 1 × 1 input `x` of non-zero
values, `K = 2`, `S = 1`, `P = 1`, `_fmap_lower` computes 3 × 3 windows (a lowered matrix
of 9 columns), and after lowering the four input points (in any order) into a zero
buffer each corner-window column (0, 2, 6, 8; cell `col + row*9`) has exactly one cell
stored to, from an in-bounds source, and three cells equal to 0: input `(0,0)` at
kernel row 3 of column 0, input `(0,1)` at kernel row 2 of column 2, input `(1,0)` at
kernel row 1 of column 6, input `(1,1)` at kernel row 0 of column 8; no call stores to
the twelve other cells of these columns. -/
theorem C11_scenario_padding (x : Tensor) (hx : ∀ r c : Nat, r < 2 → c < 2 → x r c 0 0 ≠ 0)
    (pts : List PointIn2DBlock) (hpts : Presents (config 2 1 1 2 2 1 1) x pts) :
    (output_R (config 2 1 1 2 2 1 1) = 3 ∧ output_C (config 2 1 1 2 2 1 1) = 3 ∧
      lowered_oC (config 2 1 1 2 2 1 1) = 9) ∧
    (lower_points (config 2 1 1 2 2 1 1) pts zero_buffer (0 + 3 * 9) = x 0 0 0 0 ∧
      lower_points (config 2 1 1 2 2 1 1) pts zero_buffer (0 + 3 * 9) ≠ 0 ∧
      lower_points (config 2 1 1 2 2 1 1) pts zero_buffer (0 + 0 * 9) = 0 ∧
      lower_points (config 2 1 1 2 2 1 1) pts zero_buffer (0 + 1 * 9) = 0 ∧
      lower_points (config 2 1 1 2 2 1 1) pts zero_buffer (0 + 2 * 9) = 0) ∧
    (lower_points (config 2 1 1 2 2 1 1) pts zero_buffer (2 + 2 * 9) = x 0 1 0 0 ∧
      lower_points (config 2 1 1 2 2 1 1) pts zero_buffer (2 + 2 * 9) ≠ 0 ∧
      lower_points (config 2 1 1 2 2 1 1) pts zero_buffer (2 + 0 * 9) = 0 ∧
      lower_points (config 2 1 1 2 2 1 1) pts zero_buffer (2 + 1 * 9) = 0 ∧
      lower_points (config 2 1 1 2 2 1 1) pts zero_buffer (2 + 3 * 9) = 0) ∧
    (lower_points (config 2 1 1 2 2 1 1) pts zero_buffer (6 + 1 * 9) = x 1 0 0 0 ∧
      lower_points (config 2 1 1 2 2 1 1) pts zero_buffer (6 + 1 * 9) ≠ 0 ∧
      lower_points (config 2 1 1 2 2 1 1) pts zero_buffer (6 + 0 * 9) = 0 ∧
      lower_points (config 2 1 1 2 2 1 1) pts zero_buffer (6 + 2 * 9) = 0 ∧
      lower_points (config 2 1 1 2 2 1 1) pts zero_buffer (6 + 3 * 9) = 0) ∧
    (lower_points (config 2 1 1 2 2 1 1) pts zero_buffer (8 + 0 * 9) = x 1 1 0 0 ∧
      lower_points (config 2 1 1 2 2 1 1) pts zero_buffer (8 + 0 * 9) ≠ 0 ∧
      lower_points (config 2 1 1 2 2 1 1) pts zero_buffer (8 + 1 * 9) = 0 ∧
      lower_points (config 2 1 1 2 2 1 1) pts zero_buffer (8 + 2 * 9) = 0 ∧
      lower_points (config 2 1 1 2 2 1 1) pts zero_buffer (8 + 3 * 9) = 0) ∧
    (∀ p ∈ pts,
      ((0 + 3 * 9 : Int) ∈ _fmap_lower_indices (config 2 1 1 2 2 1 1) p ↔ p.r = 0 ∧ p.c = 0) ∧
      ((2 + 2 * 9 : Int) ∈ _fmap_lower_indices (config 2 1 1 2 2 1 1) p ↔ p.r = 0 ∧ p.c = 1) ∧
      ((6 + 1 * 9 : Int) ∈ _fmap_lower_indices (config 2 1 1 2 2 1 1) p ↔ p.r = 1 ∧ p.c = 0) ∧
      ((8 + 0 * 9 : Int) ∈ _fmap_lower_indices (config 2 1 1 2 2 1 1) p ↔ p.r = 1 ∧ p.c = 1) ∧
      ∀ k ∈ ([0 + 0 * 9, 0 + 1 * 9, 0 + 2 * 9, 2 + 0 * 9, 2 + 1 * 9, 2 + 3 * 9,
               6 + 0 * 9, 6 + 2 * 9, 6 + 3 * 9, 8 + 1 * 9, 8 + 2 * 9, 8 + 3 * 9] : List Int),
        k ∉ _fmap_lower_indices (config 2 1 1 2 2 1 1) p) := by
  have hin : ∀ p ∈ pts, InRange (config 2 1 1 2 2 1 1) p := fun p hp => (hpts.1 p hp).1
  have hmem : ∀ p ∈ pts,
      ((0 + 3 * 9 : Int) ∈ _fmap_lower_indices (config 2 1 1 2 2 1 1) p ↔ p.r = 0 ∧ p.c = 0) ∧
      ((2 + 2 * 9 : Int) ∈ _fmap_lower_indices (config 2 1 1 2 2 1 1) p ↔ p.r = 0 ∧ p.c = 1) ∧
      ((6 + 1 * 9 : Int) ∈ _fmap_lower_indices (config 2 1 1 2 2 1 1) p ↔ p.r = 1 ∧ p.c = 0) ∧
      ((8 + 0 * 9 : Int) ∈ _fmap_lower_indices (config 2 1 1 2 2 1 1) p ↔ p.r = 1 ∧ p.c = 1) ∧
      ∀ k ∈ ([0 + 0 * 9, 0 + 1 * 9, 0 + 2 * 9, 2 + 0 * 9, 2 + 1 * 9, 2 + 3 * 9,
               6 + 0 * 9, 6 + 2 * 9, 6 + 3 * 9, 8 + 1 * 9, 8 + 2 * 9, 8 + 3 * 9] : List Int),
        k ∉ _fmap_lower_indices (config 2 1 1 2 2 1 1) p := by
    intro p hp
    have hm := padded_scenario_mem p (hin p hp)
    refine ⟨?_, ?_, ?_, ?_, ?_⟩
    · rw [hm]; simp
    · rw [hm]; simp
    · rw [hm]; simp
    · rw [hm]; simp
    · intro k hk
      rw [hm]
      simp only [List.mem_cons, List.mem_singleton, List.not_mem_nil, or_false] at hk ⊢
      omega
  have hzero : ∀ k ∈ ([0 + 0 * 9, 0 + 1 * 9, 0 + 2 * 9, 2 + 0 * 9, 2 + 1 * 9, 2 + 3 * 9,
               6 + 0 * 9, 6 + 2 * 9, 6 + 3 * 9, 8 + 1 * 9, 8 + 2 * 9, 8 + 3 * 9] : List Int),
      lower_points (config 2 1 1 2 2 1 1) pts zero_buffer k = 0 := by
    intro k hk
    exact lower_points_untouched _ k pts zero_buffer (fun p hp => (hmem p hp).2.2.2.2 k hk)
  have hval : ∀ (k : Int) (r c : Nat), r < 2 → c < 2 →
      (∀ p ∈ pts, (k ∈ _fmap_lower_indices (config 2 1 1 2 2 1 1) p ↔ p.r = r ∧ p.c = c)) →
      lower_points (config 2 1 1 2 2 1 1) pts zero_buffer k = x r c 0 0 := by
    intro k r c hr hc hk
    apply lower_points_written
    · intro p hp hkp
      obtain ⟨e1, e2⟩ := (hk p hp).mp hkp
      obtain ⟨⟨-, -, h3, h4⟩, hdata⟩ := hpts.1 p hp
      simp only [config] at h3 h4
      have e3 : p.block.d = 0 := by omega
      have e4 : p.block.b = 0 := by omega
      rw [hdata, e1, e2, e3, e4]
    · obtain ⟨p, hp, e1, e2, -, -⟩ := hpts.2 r c 0 0 hr hc (by decide) (by decide)
      exact ⟨p, hp, (hk p hp).mpr ⟨e1, e2⟩⟩
  have v0 := hval (0 + 3 * 9) 0 0 (by decide) (by decide) (fun p hp => (hmem p hp).1)
  have v2 := hval (2 + 2 * 9) 0 1 (by decide) (by decide) (fun p hp => (hmem p hp).2.1)
  have v6 := hval (6 + 1 * 9) 1 0 (by decide) (by decide) (fun p hp => (hmem p hp).2.2.1)
  have v8 := hval (8 + 0 * 9) 1 1 (by decide) (by decide) (fun p hp => (hmem p hp).2.2.2.1)
  refine ⟨by decide, ⟨v0, ?_, ?_, ?_, ?_⟩, ⟨v2, ?_, ?_, ?_, ?_⟩, ⟨v6, ?_, ?_, ?_, ?_⟩,
    ⟨v8, ?_, ?_, ?_, ?_⟩, hmem⟩
  · rw [v0]; exact hx 0 0 (by decide) (by decide)
  · exact hzero _ (by simp)
  · exact hzero _ (by simp)
  · exact hzero _ (by simp)
  · rw [v2]; exact hx 0 1 (by decide) (by decide)
  · exact hzero _ (by simp)
  · exact hzero _ (by simp)
  · exact hzero _ (by simp)
  · rw [v6]; exact hx 1 0 (by decide) (by decide)
  · exact hzero _ (by simp)
  · exact hzero _ (by simp)
  · exact hzero _ (by simp)
  · rw [v8]; exact hx 1 1 (by decide) (by decide)
  · exact hzero _ (by simp)
  · exact hzero _ (by simp)
  · exact hzero _ (by simp)

/-- C11 on the input 1..4: the whole 4 × 9 lowered matrix, row by row, and the four corner
columns as the theorem gives them. -/
theorem C11_scenario_padding_witness :
    (List.range 36).map (fun k : Nat =>
        lower_points (config 2 1 1 2 2 1 1)
          (tensor_points (config 2 1 1 2 2 1 1) ramp2_tensor) zero_buffer (k : Int)) =
      [0, 0, 0, 0, 1, 2, 0, 3, 4,
       0, 0, 0, 1, 2, 0, 3, 4, 0,
       0, 1, 2, 0, 3, 4, 0, 0, 0,
       1, 2, 0, 3, 4, 0, 0, 0, 0] ∧
    (lower_points (config 2 1 1 2 2 1 1)
        (tensor_points (config 2 1 1 2 2 1 1) ramp2_tensor) zero_buffer (0 + 3 * 9)
        = ramp2_tensor 0 0 0 0 ∧
      lower_points (config 2 1 1 2 2 1 1)
        (tensor_points (config 2 1 1 2 2 1 1) ramp2_tensor) zero_buffer (0 + 3 * 9) ≠ 0 ∧
      lower_points (config 2 1 1 2 2 1 1)
        (tensor_points (config 2 1 1 2 2 1 1) ramp2_tensor) zero_buffer (0 + 0 * 9) = 0 ∧
      lower_points (config 2 1 1 2 2 1 1)
        (tensor_points (config 2 1 1 2 2 1 1) ramp2_tensor) zero_buffer (0 + 1 * 9) = 0 ∧
      lower_points (config 2 1 1 2 2 1 1)
        (tensor_points (config 2 1 1 2 2 1 1) ramp2_tensor) zero_buffer (0 + 2 * 9) = 0) :=
  ⟨by decide,
    (C11_scenario_padding ramp2_tensor (fun r c _ _ => ramp2_tensor_ne_zero r c) _
      (tensor_points_presents _ _)).2.1⟩

/-- C12: remapping writes each destination exactly once.  For positive `iR`, `iC`, `iD`,
`iB` and an in-range input point, `_fmap_remap` stores the point's value at index
`ic + ir*iC + reald*iR*iC + realb*iR*iC*iD` with `reald = (id + ib*iD) / iB` and
`realb = (id + ib*iD) mod iB`; these satisfy `reald < iD`, `realb < iB` and
`reald*iB + realb = id + ib*iD`; and as a function of the position of the input point
(`ir < iR`, `ic < iC`, `id < iD`, `ib < iB`) the index is a bijection onto
`[0, iR*iC*iD*iB)`: it lies in that range, is injective, and every index of the range is
reached. -/
theorem C12_remap_bijection (a : PMapHelper) (_hR : 0 < a.sR) (_hC : 0 < a.sC)
    (_hD : 0 < a.sD) (_hB : 0 < a.sB) :
    (∀ p : PointIn2DBlock, InRange a p →
      (∀ (output : Buffer) (n : Int), _fmap_remap output p a n =
        if n = ((p.c + p.r * a.sC + (p.block.d + p.block.b * a.sD) / a.sB * a.sR * a.sC +
          (p.block.d + p.block.b * a.sD) % a.sB * a.sR * a.sC * a.sD : Nat) : Int)
        then p.data else output n) ∧
      (p.block.d + p.block.b * a.sD) / a.sB < a.sD ∧
      (p.block.d + p.block.b * a.sD) % a.sB < a.sB ∧
      (p.block.d + p.block.b * a.sD) / a.sB * a.sB + (p.block.d + p.block.b * a.sD) % a.sB =
        p.block.d + p.block.b * a.sD ∧
      _fmap_remap_index a p < a.sR * a.sC * a.sD * a.sB) ∧
    (∀ p q : PointIn2DBlock, InRange a p → InRange a q →
      _fmap_remap_index a p = _fmap_remap_index a q →
      p.r = q.r ∧ p.c = q.c ∧ p.block.d = q.block.d ∧ p.block.b = q.block.b) ∧
    (∀ k : Nat, k < a.sR * a.sC * a.sD * a.sB →
      ∃ p : PointIn2DBlock, InRange a p ∧ _fmap_remap_index a p = k) := by
  refine ⟨?_, ?_, ?_⟩
  · intro p hp
    obtain ⟨h1, h2, h3⟩ := remap_real_spec a p hp
    exact ⟨fun output n => rfl, h1, h2, h3, fmap_remap_index_lt a p hp⟩
  · intro p q hp hq h
    exact fmap_remap_index_inj a p q hp hq h
  · intro k hk
    obtain ⟨r, c, d, b, hr, hc, hd, hb, h⟩ := fmap_remap_index_surj a k hk
    exact ⟨mkPoint r c d b 0, ⟨hr, hc, hd, hb⟩, h⟩

/-- C12 on a 2 × 3 × 2 × 2 tensor: the point at row 1, column 2, depth 1, batch 1 has
combined index 3, real depth 1 and real batch 1, and is stored at index 23. -/
theorem C12_remap_bijection_witness :
    _fmap_remap_index (config 1 0 1 2 3 2 2) (mkPoint 1 2 1 1 5) = 23 ∧
    (∀ p q : PointIn2DBlock, InRange (config 1 0 1 2 3 2 2) p →
      InRange (config 1 0 1 2 3 2 2) q →
      _fmap_remap_index (config 1 0 1 2 3 2 2) p = _fmap_remap_index (config 1 0 1 2 3 2 2) q →
      p.r = q.r ∧ p.c = q.c ∧ p.block.d = q.block.d ∧ p.block.b = q.block.b) :=
  ⟨by decide,
    (C12_remap_bijection (config 1 0 1 2 3 2 2) (by decide) (by decide) (by decide)
      (by decide)).2.1⟩

/-- C14: `next_multiple` rounds up to a multiple of the stride for every sign of its
argument.  For every integer `x` (negative, zero or positive) and every `s ≥ 1`, with `%`
the truncated remainder, `next_multiple(x, s)` is the smallest multiple of `s` that is
`≥ x`: it is a multiple of `s`, it is `≥ x`, and every multiple of `s` that is `≥ x` is
at least as large. -/
theorem C14_next_multiple_rounds_up (x s : Int) (hs : 1 ≤ s) :
    s ∣ next_multiple x s ∧ x ≤ next_multiple x s ∧
      ∀ m : Int, s ∣ m → x ≤ m → next_multiple x s ≤ m := by
  obtain ⟨q, hq, h1, h2⟩ := next_multiple_spec x s (by omega)
  rw [hq]
  refine ⟨Dvd.intro_left q rfl, h1, ?_⟩
  rintro m ⟨t, rfl⟩ hm
  have hlt : q * s < (t + 1) * s := by
    have : (t + 1) * s = s * t + s := by ring
    omega
  have hqt : q < t + 1 := lt_of_mul_lt_mul_right hlt (by omega)
  have hle : q ≤ t := by omega
  calc q * s ≤ t * s := Int.mul_le_mul_of_nonneg_right hle (by omega)
    _ = s * t := Int.mul_comm _ _

/-- C14 at `x = -3`, `s = 2`: the result is `-2`. -/
theorem C14_next_multiple_rounds_up_witness :
    next_multiple (-3) 2 = -2 ∧
    ((2 : Int) ∣ next_multiple (-3) 2 ∧ (-3 : Int) ≤ next_multiple (-3) 2 ∧
      ∀ m : Int, (2 : Int) ∣ m → (-3 : Int) ≤ m → next_multiple (-3) 2 ≤ m) :=
  ⟨by decide, C14_next_multiple_rounds_up (-3) 2 (by decide)⟩

/-- C15: an unspecialised `Connector` never silently proceeds.  For every argument list,
the constructor, `lower_cube` and `inverse_lower_cube` of the primary template each end
in the failing `assert(false)`, after writing the error message: none of them returns
normally with a result, so no cube is lowered. -/
theorem C15_unspecialised_connector_fails {DriverClass : Type}
    (p_input_cube p_output_cube : LogicalCube) (kernel_size padding stride : Nat)
    (p_driver : DriverClass) (self : Connector DriverClass) :
    (Connector.construct p_input_cube p_output_cube kernel_size padding stride p_driver =
        Except.error unspecialized_message ∧
      ∀ c : Connector DriverClass,
        Connector.construct p_input_cube p_output_cube kernel_size padding stride p_driver ≠
          Except.ok c) ∧
    (Connector.lower_cube self p_input_cube p_output_cube =
        Except.error unspecialized_message ∧
      ∀ cube : LogicalCube,
        Connector.lower_cube self p_input_cube p_output_cube ≠ Except.ok cube) ∧
    (Connector.inverse_lower_cube self p_output_cube p_input_cube =
        Except.error unspecialized_message ∧
      ∀ cube : LogicalCube,
        Connector.inverse_lower_cube self p_output_cube p_input_cube ≠ Except.ok cube) := by
  refine ⟨⟨rfl, ?_⟩, ⟨rfl, ?_⟩, ⟨rfl, ?_⟩⟩
  · intro c h; cases h
  · intro c h; cases h
  · intro c h; cases h

/-- C16 (as amended): the optimised loop bounds of `_fmap_lower` are equivalent to the
guarded reference loop of its comment when the padding is a multiple of the stride (in
particular for padding 0) and the loop end is computed without rounding.  For every
configuration with `S ≥ 1` and `S ∣ P` and every `ir < 2^24` with `iR - kR + padding` at
most `2^24` in magnitude, the sequence of window-start rows `r` for which the body of
`for (r = r_begin; r < r_end; r += stride)` runs equals the sequence of `r` for which
the guarded body of `for (r = next_multiple(ir - kR + 1, stride); r < ir + 1; r += stride)
if (r >= -padding && r < (iR - kR + 1) + padding)` runs; the same for columns. -/
theorem C16_loop_bounds_match_reference (a : PMapHelper) (hS : 1 ≤ a.stride)
    (hdiv : a.stride ∣ a.padding) (ir ic : Nat)
    (hxr : FloatExact a.sR a.kR a.padding ir) (hxc : FloatExact a.sC a.kC a.padding ic) :
    (rowIters a ir).map Prod.fst = reference_row_starts a ir ∧
    (colIters a ic).map Prod.fst = reference_col_starts a ic := by
  rw [rowIters_exact a ir hxr, colIters_exact a ic hxc]
  exact ⟨axis_starts_eq_reference ir a.sR a.kR a.padding a.stride hS hdiv,
    axis_starts_eq_reference ic a.sC a.kC a.padding a.stride hS hdiv⟩

/-- C16 (as amended) with `K = 3`, `S = 2`, `P = 2` on a 5 × 5 input, at row and column 2:
both loops run at the window starts 0 and 2. -/
theorem C16_loop_bounds_match_reference_witness :
    reference_row_starts (config 3 2 2 5 5 1 1) 2 = [0, 2] ∧
    ((rowIters (config 3 2 2 5 5 1 1) 2).map Prod.fst =
        reference_row_starts (config 3 2 2 5 5 1 1) 2 ∧
      (colIters (config 3 2 2 5 5 1 1) 2).map Prod.fst =
        reference_col_starts (config 3 2 2 5 5 1 1) 2) :=
  ⟨by decide, C16_loop_bounds_match_reference (config 3 2 2 5 5 1 1) (by decide) (by decide) 2 2
    (by decide) (by decide)⟩

/-- C16 as stated fails when the stride does not divide the padding: with `K = 2`,
`S = 2`, `P = 1` on a 4 × 4 input (window counts `(4 - 2 + 2)/2 + 1 = 3`), at `ir = 0` the
loop of the kernel runs at the window start `-1` (window 0, rows -1..0), the reference
loop of the comment at `0`. -/
theorem C16_loop_bounds_match_reference_counterexample :
    1 ≤ (config 2 1 2 4 4 1 1).stride ∧ 0 < (config 2 1 2 4 4 1 1).sR ∧
    (rowIters (config 2 1 2 4 4 1 1) 0).map Prod.fst = [-1] ∧
    reference_row_starts (config 2 1 2 4 4 1 1) 0 = [0] ∧
    (rowIters (config 2 1 2 4 4 1 1) 0).map Prod.fst ≠
      reference_row_starts (config 2 1 2 4 4 1 1) 0 := by
  decide

/-- C17 (as amended): `next_multiple` by the sign of the truncated remainder.  For every
integer `x` and every `s ≥ 1`: if `x % s > 0` the result is the next multiple of `s`
greater than `x`; if `x % s = 0` the result is `x` unchanged; and if `x % s < 0` (a
negative `x` that is no multiple of `s`) the result is `x - x % s`, again the next
multiple of `s` greater than `x`. -/
theorem C17_next_multiple_by_remainder (x s : Int) (hs : 1 ≤ s) :
    (Int.tmod x s > 0 →
      s ∣ next_multiple x s ∧ x < next_multiple x s ∧ next_multiple x s < x + s) ∧
    (Int.tmod x s = 0 → next_multiple x s = x) ∧
    (Int.tmod x s < 0 →
      next_multiple x s = x - Int.tmod x s ∧
      s ∣ next_multiple x s ∧ x < next_multiple x s ∧ next_multiple x s < x + s) := by
  obtain ⟨q, hq, h1, h2⟩ := next_multiple_spec x s (by omega)
  have hb := tmod_bounds x s (by omega)
  have hdvd : s ∣ next_multiple x s := by rw [hq]; exact Dvd.intro_left q rfl
  have hval : next_multiple x s = x + (if x > 0 ∧ Int.tmod x s > 0 then s - Int.tmod x s
      else -Int.tmod x s) := rfl
  refine ⟨?_, ?_, ?_⟩
  · intro hm
    have hx : x > 0 := by
      by_contra hx
      have := (hb.2 (by omega)).2
      omega
    rw [hval, if_pos ⟨hx, hm⟩] at hdvd ⊢
    have := (hb.1 (by omega)).2
    exact ⟨hdvd, by omega, by omega⟩
  · intro hm
    rw [hval, hm]
    simp
  · intro hm
    have hne : ¬ (x > 0 ∧ Int.tmod x s > 0) := by omega
    have hx : x ≤ 0 := by
      by_contra hx
      have := (hb.1 (by omega)).1
      omega
    have := (hb.2 hx).1
    rw [hval, if_neg hne] at hdvd ⊢
    exact ⟨by ring, hdvd, by omega, by omega⟩

/-- C17 (as amended) at `x = -3`, `s = 2`: the remainder is `-1` and the result `-2`. -/
theorem C17_next_multiple_by_remainder_witness :
    Int.tmod (-3) 2 = -1 ∧
    (Int.tmod (-3) 2 < 0 →
      next_multiple (-3) 2 = -3 - Int.tmod (-3) 2 ∧
      (2 : Int) ∣ next_multiple (-3) 2 ∧ (-3 : Int) < next_multiple (-3) 2 ∧
        next_multiple (-3) 2 < -3 + 2) :=
  ⟨by decide, (C17_next_multiple_by_remainder (-3) 2 (by decide)).2.2⟩

/-- C17 as stated fails for a negative `x` that is no multiple of `s`: at `x = -3`,
`s = 2` the truncated remainder is `-1`, not `> 0`, yet the result is `-2`, not `x`. -/
theorem C17_next_multiple_by_remainder_counterexample :
    (1 : Int) ≤ 2 ∧ ¬ (Int.tmod (-3) 2 > 0) ∧ next_multiple (-3) 2 = -2 ∧
      next_multiple (-3) 2 ≠ -3 := by
  decide

/-- C18: `next_largest_multiple` finds the first stride-step at or above the bound.  For
all integers `x`, `p` and every `stride ≥ 1`, `next_largest_multiple(x, p, stride)` is
`x + j*stride` for the smallest `j ≥ 0` with `x + j*stride ≥ p`; in particular the
result is `≥ p`, is `≥ x`, is congruent to `x` modulo `stride`, and equals `x` when
`x ≥ p`. -/
theorem C18_next_largest_multiple_first_step (x p stride : Int) (hs : 1 ≤ stride) :
    (∃ j : Nat, next_largest_multiple x p stride = x + j * stride ∧
      p ≤ x + j * stride ∧ ∀ j' : Nat, p ≤ x + j' * stride → j ≤ j') ∧
    p ≤ next_largest_multiple x p stride ∧
    x ≤ next_largest_multiple x p stride ∧
    stride ∣ next_largest_multiple x p stride - x ∧
    (p ≤ x → next_largest_multiple x p stride = x) := by
  obtain ⟨t, ht, h1, h2⟩ := next_largest_multiple_spec x p stride (by omega)
  have hnn : 0 ≤ (t : Int) * stride := by positivity
  refine ⟨⟨t, ht, h1, ?_⟩, by rw [ht]; exact h1, by rw [ht]; omega, ?_, ?_⟩
  · intro j' hj'
    rcases h2 with h0 | hlt
    · omega
    · have hlt' : (t : Int) * stride < ((j' : Int) + 1) * stride := by
        have : ((j' : Int) + 1) * stride = j' * stride + stride := by ring
        omega
      have := lt_of_mul_lt_mul_right hlt' (by omega : (0 : Int) ≤ stride)
      omega
  · rw [ht]
    exact ⟨t, by ring⟩
  · intro hpx
    unfold next_largest_multiple
    rw [if_pos hpx]

/-- C18 at `x = -5`, `p = -1`, `stride = 3`: two steps, the result is `1`. -/
theorem C18_next_largest_multiple_first_step_witness :
    next_largest_multiple (-5) (-1) 3 = 1 ∧
    ((∃ j : Nat, next_largest_multiple (-5) (-1) 3 = -5 + j * 3 ∧
      (-1 : Int) ≤ -5 + j * 3 ∧ ∀ j' : Nat, (-1 : Int) ≤ -5 + j' * 3 → j ≤ j') ∧
    (-1 : Int) ≤ next_largest_multiple (-5) (-1) 3 ∧
    (-5 : Int) ≤ next_largest_multiple (-5) (-1) 3 ∧
    (3 : Int) ∣ next_largest_multiple (-5) (-1) 3 - -5 ∧
    ((-1 : Int) ≤ -5 → next_largest_multiple (-5) (-1) 3 = -5)) :=
  ⟨by decide, C18_next_largest_multiple_first_step (-5) (-1) 3 (by decide)⟩

/-- C19 (as amended): the window index invariant.  In `_fmap_lower`, for every
configuration with `S ≥ 1` and every input point, at every iteration of the row loop the
window index `i` equals `(r + padding) / stride` (integer division), and at every
iteration of the column loop `j` equals `(c + padding) / stride`; with padding 0 these
are `r / stride` and `c / stride`, as the comment says. -/
theorem C19_window_index_invariant (a : PMapHelper) (hS : 1 ≤ a.stride) (ir ic : Nat) :
    (∀ r i : Int, (r, i) ∈ rowIters a ir →
      i = Int.tdiv (r + a.padding) a.stride ∧ (a.padding = 0 → i = Int.tdiv r a.stride)) ∧
    (∀ c j : Int, (c, j) ∈ colIters a ic →
      j = Int.tdiv (c + a.padding) a.stride ∧ (a.padding = 0 → j = Int.tdiv c a.stride)) := by
  constructor
  · intro r i h
    have hi :=
      (axis_iters_any_end ir a.kR a.padding a.stride hS (r_end a ir) r i h).2.2.2.2.1
    refine ⟨hi, fun hP => ?_⟩
    rw [hi, hP]
    simp
  · intro c j h
    have hj :=
      (axis_iters_any_end ic a.kC a.padding a.stride hS (c_end a ic) c j h).2.2.2.2.1
    refine ⟨hj, fun hP => ?_⟩
    rw [hj, hP]
    simp

/-- C19 (as amended) with `K = 2`, `S = 1`, `P = 1` on a 2 × 2 input, at the second
iteration for row 0: `r = 0`, `i = 1 = (0 + 1) / 1`. -/
theorem C19_window_index_invariant_witness :
    ((0 : Int), (1 : Int)) ∈ rowIters (config 2 1 1 2 2 1 1) 0 ∧
    ((1 : Int) = Int.tdiv (0 + (config 2 1 1 2 2 1 1).padding) (config 2 1 1 2 2 1 1).stride ∧
      ((config 2 1 1 2 2 1 1).padding = 0 →
        (1 : Int) = Int.tdiv 0 (config 2 1 1 2 2 1 1).stride)) :=
  ⟨by decide,
    (C19_window_index_invariant (config 2 1 1 2 2 1 1) (by decide) 0 0).1 0 1 (by decide)⟩

/-- C19 as stated fails with padding: with `K = 2`, `S = 1`, `P = 1` on a 2 × 2 input the
row loop for `ir = 0` runs at `(r, i) = (-1, 0)` and `(0, 1)`; at the second iteration
`i = 1` but `r / stride = 0`. -/
theorem C19_window_index_invariant_counterexample :
    1 ≤ (config 2 1 1 2 2 1 1).stride ∧ 0 < (config 2 1 1 2 2 1 1).sR ∧
    rowIters (config 2 1 1 2 2 1 1) 0 = [(-1, 0), (0, 1)] ∧
    ((0 : Int), (1 : Int)) ∈ rowIters (config 2 1 1 2 2 1 1) 0 ∧
    (1 : Int) ≠ Int.tdiv 0 (config 2 1 1 2 2 1 1).stride := by
  decide

/-- C20 (defect of the code): a window start after the input position.  With `K = 1`,
`S = 1`, `P = 0` on a 16777220 × 1 × 1 × 1 input, for the in-range row `ir = 16777218`
line 216 computes in `float` `r_end = float(16777218) + 1 = 16777220` instead of
`16777219`, so the loop of line 232 runs at `r = 16777218` and again at
`r = 16777219 = ir + 1`, where `ir - r = -1` is negative. -/
theorem C20_window_start_after_position :
    1 ≤ (config 1 0 1 16777220 1 1 1).stride ∧ 16777218 < (config 1 0 1 16777220 1 1 1).sR ∧
    r_begin (config 1 0 1 16777220 1 1 1) 16777218 = 16777218 ∧
    r_end (config 1 0 1 16777220 1 1 1) 16777218 = 16777220 ∧
    rowIters (config 1 0 1 16777220 1 1 1) 16777218 =
      [(16777218, 16777218), (16777219, 16777219)] ∧
    ((16777219 : Int), (16777219 : Int)) ∈ rowIters (config 1 0 1 16777220 1 1 1) 16777218 ∧
    ¬ (0 ≤ ((16777218 : Nat) : Int) - 16777219) := by
  decide

/-- C21 (defect of the code): forward and inverse lowering are not adjoint at a size
beyond `2^24`.  With `K = 1`, `S = 1`, `P = 0` on a 16777217 × 1 × 1 × 1 input, `x` the
tensor that holds 1 at row `2^24` and 0 elsewhere and `G` the 1 × 16777217 lowered matrix
that holds 1 everywhere: the call of `_fmap_lower` for the point at row `2^24` stores
nothing (line 216 computes `r_end = float(2^24) + 1 = 2^24 = r_begin` in `float`), so
`lower(x)` is zero and the sum over the lowered matrix of `lower(x)[cell] * G[cell]` is 0,
while the sum over the tensor of `x[cell] * inverse_lower(G)[cell]` is 1. -/
theorem C21_adjointness_broken :
    (1 ≤ 1 ∧ 1 ≤ 16777217 + 2 * 0 ∧ 1 ≤ 1 + 2 * 0) ∧
    (∑ row ∈ Finset.range (1 * 1 * 1),
      ∑ col ∈ Finset.range (((16777217 + 2 * 0 - 1) / 1 + 1) * ((1 + 2 * 0 - 1) / 1 + 1) * 1),
        lower_points (config 1 0 1 16777217 1 1 1)
            (tensor_points (config 1 0 1 16777217 1 1 1) (one_hot 16777216 0 0 0 1))
            zero_buffer
            ((col + row * (((16777217 + 2 * 0 - 1) / 1 + 1) * ((1 + 2 * 0 - 1) / 1 + 1) * 1) :
              Nat) : Int) *
          (fun _ => (1 : ℚ))
            ((col + row * (((16777217 + 2 * 0 - 1) / 1 + 1) * ((1 + 2 * 0 - 1) / 1 + 1) * 1) :
              Nat) : Int)) = 0 ∧
    (∑ b ∈ Finset.range 1, ∑ d ∈ Finset.range 1, ∑ r ∈ Finset.range 16777217,
        ∑ c ∈ Finset.range 1,
          one_hot 16777216 0 0 0 1 r c d b *
            inverse_lower_slabs (config 1 0 1 16777217 1 1 1) (fun _ => 1) zero_buffer
              (tensor_index (config 1 0 1 16777217 1 1 1) r c d b)) = 1 := by
  refine ⟨by decide, ?_, ?_⟩
  · apply Finset.sum_eq_zero
    intro row _
    apply Finset.sum_eq_zero
    intro col _
    rw [lower_points_all_zero, zero_mul]
    intro p hp
    obtain ⟨hin, hdata⟩ := (tensor_points_presents _ _).1 p hp
    by_cases h : p.r = 16777216
    · exact Or.inr (long_column_last_row p h)
    · left
      rw [hdata]
      unfold one_hot
      exact if_neg (fun hh => h hh.1)
  · rw [Finset.sum_range_one, Finset.sum_range_one, Finset.sum_eq_single 16777216]
    · rw [Finset.sum_range_one,
        inverse_ones_cell (config 1 0 1 16777217 1 1 1) rfl (by decide) (by decide)
          (by decide) (by decide) (by decide)]
      have hx : one_hot 16777216 0 0 0 1 16777216 0 0 0 = 1 := by
        unfold one_hot
        exact if_pos ⟨rfl, rfl, rfl, rfl⟩
      have hc : cover_count (config 1 0 1 16777217 1 1 1).kR (config 1 0 1 16777217 1 1 1).stride
          (config 1 0 1 16777217 1 1 1).padding (outR (config 1 0 1 16777217 1 1 1))
          (outC (config 1 0 1 16777217 1 1 1)) 16777216 0 = 1 := long_column_cover_count
      rw [hx, hc]
      norm_num
    · intro r _ hne
      rw [Finset.sum_range_one]
      have hx : one_hot 16777216 0 0 0 1 r 0 0 0 = 0 := by
        unfold one_hot
        exact if_neg (fun hh => hne hh.1)
      rw [hx, zero_mul]
    · intro hn
      exact absurd (Finset.mem_range.mpr (by decide)) hn

end CaffeConTroll
